import Mathlib

/-!
# noverify: symbolic type resolution and inheritance lookups

A shallow embedding of `src/solver/solver.go`.

* Go maps that are mutated while the recursion runs (the `visited` guards) are
  threaded through explicitly: every function takes the guard and returns the
  updated one.
* Loops and recursion that the source does not bound by a structurally
  decreasing argument are driven by a fuel counter; `none` means that the fuel
  ran out, `some r` that the Go function returned `r`.
* A Go `map[string]struct{}` result set is a duplicate-free list; the order in
  which a `range` loop visits such a map, where it can influence the result, is
  taken from a `MapOrder` parameter.
-/

namespace Noverify

/-! ## Data model -/

/-- Modelled from the spec: the `meta` package's string encoding of symbolic types
(tag byte below `WMax`, `Wrap*` / `Unwrap*`) is not part of the sources; the
tagged value of the data model stands for an encoded string.  `literal n` is a
string that is empty or whose first byte is not an indirection tag. -/
inductive TypeExpr where
  | literal (name : String)
  | global (varName : String)
  | constant (constName : String)
  | arrayOf (inner : TypeExpr)
  | elemOf (inner : TypeExpr)
  | functionCall (funcName : String)
  | instanceMethodCall (expr : TypeExpr) (methodName : String)
  | instancePropertyFetch (expr : TypeExpr) (propertyName : String)
  | baseMethodParam (index : Nat) (className : String) (methodName : String)
  | staticMethodCall (className : String) (methodName : String)
  | staticPropertyFetch (className : String) (propertyName : String)
  deriving DecidableEq, Repr, Inhabited

/-- The `meta.TypesMap`: the members in the order `Iterate` visits them. -/
abbrev TypesMap := List TypeExpr

/-- The `meta.FuncParam`, reduced to the field the solver reads. -/
structure FuncParam where
  Typ : TypesMap
  deriving DecidableEq, Repr, Inhabited

/-- The `meta.FuncInfo`, reduced to the fields the solver reads. -/
structure FuncInfo where
  Params : List FuncParam
  Typ : TypesMap
  deriving DecidableEq, Repr, Inhabited

/-- The `meta.PropertyInfo`. -/
structure PropertyInfo where
  Typ : TypesMap
  deriving DecidableEq, Repr, Inhabited

/-- The `meta.ConstantInfo`. -/
structure ConstantInfo where
  Typ : TypesMap
  deriving DecidableEq, Repr, Inhabited

/-- The `meta.ClassInfo`; Go maps are association lists (the first binding of a
key is the one a lookup sees), Go sets are lists in iteration order. -/
structure ClassInfo where
  Parent : String
  ParentInterfaces : List String
  Traits : List String
  Interfaces : List String
  Methods : List (String × FuncInfo)
  Properties : List (String × PropertyInfo)
  Constants : List (String × ConstantInfo)
  deriving DecidableEq, Repr, Inhabited

/-- The symbol index `meta.Info`, a finite table per kind of symbol. -/
structure Info where
  classes : List (String × ClassInfo)
  traits : List (String × ClassInfo)
  functions : List (String × FuncInfo)
  globals : List (String × TypesMap)
  constants : List (String × ConstantInfo)
  deriving Repr, Inhabited

/-- The `meta.Info.GetClass`. -/
def Info.GetClass (idx : Info) (name : String) : Option ClassInfo :=
  idx.classes.lookup name

/-- The `meta.Info.GetTrait`. -/
def Info.GetTrait (idx : Info) (name : String) : Option ClassInfo :=
  idx.traits.lookup name

/-- The `meta.Info.GetFunction`. -/
def Info.GetFunction (idx : Info) (name : String) : Option FuncInfo :=
  idx.functions.lookup name

/-- The `meta.Info.GetVarNameType`. -/
def Info.GetVarNameType (idx : Info) (name : String) : Option TypesMap :=
  idx.globals.lookup name

/-- The `meta.Info.GetConstant`. -/
def Info.GetConstant (idx : Info) (name : String) : Option ConstantInfo :=
  idx.constants.lookup name

/-- The order in which a `range` loop visits the keys of a result map: some
rearrangement of the keys. -/
structure MapOrder where
  order : List String → List String
  perm : ∀ l, (order l).Perm l

/-- Visit the keys in the order they were inserted. -/
def MapOrder.insertion : MapOrder := ⟨fun l => l, fun l => List.Perm.refl l⟩

/-! ## String helpers -/

/-- The `strings.HasSuffix`. -/
def hasSuffix (s suffix : String) : Bool :=
  suffix.data.isSuffixOf s.data

/-- The `strings.TrimSuffix`. -/
def trimSuffix (s suffix : String) : String :=
  if hasSuffix s suffix then ⟨s.data.take (s.data.length - suffix.data.length)⟩ else s

/-- The namespace separator, a backslash. -/
def backslash : Char := Char.ofNat 92

/-- The `strings.Count(nm, "\\")`. -/
def countBackslash (nm : String) : Nat :=
  nm.data.count backslash

/-- The part of a character list from its last backslash on. -/
def fromLastBackslashList : List Char → List Char
  | [] => []
  | c :: cs =>
    if backslash ∈ cs then fromLastBackslashList cs
    else if c = backslash then c :: cs
    else fromLastBackslashList cs

/-- The `nm[strings.LastIndex(nm, "\\"):]`, used only when a backslash occurs. -/
def fromLastBackslash (nm : String) : String :=
  ⟨fromLastBackslashList nm.data⟩

/-! ## Result sets -/

/-- The `res[tt] = struct{}{}`. -/
def insertName (res : List String) (tt : String) : List String :=
  if tt ∈ res then res else res ++ [tt]

/-- The `for tt := range xs { res[tt] = struct{}{} }`. -/
def addAll (res xs : List String) : List String :=
  xs.foldl insertName res

/-- The `identityType`. -/
def identityType (typ : String) : List String :=
  insertName [] typ

/-! ## Inheritance lookups -/

/-- The `for x := range xs { r = rec(x); if ok { return r } }` of `findMethod`
and `findConstant`: the named results `res`, `implClassName`, `ok` after the
loop, and the guard. -/
def searchEach {α : Type} (rec : String → List String → Option ((α × String × Bool) × List String)) :
    List String → (α × String × Bool) → List String →
    Option ((α × String × Bool) × List String)
  | [], cur, visited => some (cur, visited)
  | x :: xs, _, visited =>
    match rec x visited with
    | none => none
    | some ((r, impl, true), v) => some ((r, impl, true), v)
    | some ((r, impl, false), v) => searchEach rec xs (r, impl, false) v

/-- The `findMethod`; `res` is the current value of the named result. -/
def findMethod (idx : Info) (methodName : String) :
    Nat → String → FuncInfo → List String → Option ((FuncInfo × String × Bool) × List String)
  | 0, _, _, _ => none
  | fuel + 1, className, res, visitedMap =>
    if className ∈ visitedMap then some ((res, "", false), visitedMap)
    else
      let visitedMap := className :: visitedMap
      match (idx.GetClass className).orElse (fun _ => idx.GetTrait className) with
      | none => some ((res, "", false), visitedMap)
      | some cls =>
        match cls.Methods.lookup methodName with
        | some r => some ((r, className, true), visitedMap)
        | none =>
          match searchEach (fun t v => findMethod idx methodName fuel t default v)
              cls.Traits (default, "", false) visitedMap with
          | none => none
          | some ((r, impl, true), v) => some ((r, impl, true), v)
          | some (cur, v) =>
            match searchEach (fun t v => findMethod idx methodName fuel t default v)
                cls.ParentInterfaces cur v with
            | none => none
            | some ((r, impl, true), v) => some ((r, impl, true), v)
            | some ((r, _, false), v) =>
              if cls.Parent = "" then some ((r, "", false), v)
              else findMethod idx methodName fuel cls.Parent r v

/-- The `FindMethod`. -/
def FindMethod (idx : Info) (fuel : Nat) (className methodName : String) :
    Option (FuncInfo × String × Bool) :=
  (findMethod idx methodName fuel className default []).map Prod.fst

/-- The `FindProperty`. -/
def FindProperty (idx : Info) (propertyName : String) :
    Nat → String → Option (PropertyInfo × String × Bool)
  | 0, _ => none
  | fuel + 1, className =>
    match idx.GetClass className with
    | none => some (default, "", false)
    | some cls =>
      match cls.Properties.lookup propertyName with
      | some r => some (r, className, true)
      | none =>
        if cls.Parent = "" then some (default, "", false)
        else FindProperty idx propertyName fuel cls.Parent

/-- The loop of `interfaceExtends` over `class.ParentInterfaces`. -/
def anyExtends (rec : String → List String → Option (Bool × List String)) (parent : String) :
    List String → List String → Option (Bool × List String)
  | [], visited => some (false, visited)
  | iface :: rest, visited =>
    if iface = parent then some (true, visited)
    else
      match rec iface visited with
      | none => none
      | some (true, v) => some (true, v)
      | some (false, v) => anyExtends rec parent rest v

/-- The `interfaceExtends`. -/
def interfaceExtends (idx : Info) (parent : String) :
    Nat → String → List String → Option (Bool × List String)
  | 0, _, _ => none
  | fuel + 1, orig, visited =>
    if orig ∈ visited then some (false, visited)
    else
      let visited := orig :: visited
      match idx.GetClass orig with
      | none => some (false, visited)
      | some cls => anyExtends (interfaceExtends idx parent fuel) parent cls.ParentInterfaces visited

/-- The `for iface := range class.Interfaces` loop of `Implements`. -/
def anyInterfaceExtends (rec : String → List String → Option (Bool × List String)) :
    List String → List String → Option (Bool × List String)
  | [], visited => some (false, visited)
  | iface :: rest, visited =>
    match rec iface visited with
    | none => none
    | some (true, v) => some (true, v)
    | some (false, v) => anyInterfaceExtends rec rest v

/-- The loop of `Implements`, with the `visited` map it allocates once. -/
def implementsLoop (idx : Info) (interfaceName : String) :
    Nat → String → List String → Option Bool
  | 0, _, _ => none
  | fuel + 1, className, visited =>
    match idx.GetClass className with
    | none => some false
    | some cls =>
      if interfaceName ∈ cls.Interfaces then some true
      else
        match anyInterfaceExtends (interfaceExtends idx interfaceName fuel) cls.Interfaces visited with
        | none => none
        | some (true, _) => some true
        | some (false, v) =>
          if cls.Parent = "" then some false
          else implementsLoop idx interfaceName fuel cls.Parent v

/-- The `Implements`. -/
def Implements (idx : Info) (fuel : Nat) (className interfaceName : String) : Option Bool :=
  implementsLoop idx interfaceName fuel className []

/-- The `findConstant`; `res` is the current value of the named result. -/
def findConstant (idx : Info) (constName : String) :
    Nat → String → ConstantInfo → List String →
    Option ((ConstantInfo × String × Bool) × List String)
  | 0, _, _, _ => none
  | fuel + 1, className, res, visitedClasses =>
    if className ∈ visitedClasses then some ((res, "", false), visitedClasses)
    else
      let visitedClasses := className :: visitedClasses
      match idx.GetClass className with
      | none => some ((res, "", false), visitedClasses)
      | some cls =>
        match searchEach (fun t v => findConstant idx constName fuel t default v)
            cls.Interfaces (res, "", false) visitedClasses with
        | none => none
        | some ((r, impl, true), v) => some ((r, impl, true), v)
        | some ((_, impl, false), v) =>
          match cls.Constants.lookup constName with
          | some r => some ((r, className, true), v)
          | none =>
            match searchEach (fun t v => findConstant idx constName fuel t default v)
                cls.ParentInterfaces (default, impl, false) v with
            | none => none
            | some ((r, impl, true), v) => some ((r, impl, true), v)
            | some ((r, _, false), v) =>
              if cls.Parent = "" then some ((r, "", false), v)
              else findConstant idx constName fuel cls.Parent r v

/-- The `FindConstant`. -/
def FindConstant (idx : Info) (fuel : Nat) (className constName : String) :
    Option (ConstantInfo × String × Bool) :=
  (findConstant idx constName fuel className default []).map Prod.fst

/-! ## Type resolver -/

/-- The result of a resolver call: the resolved names and the guard afterwards. -/
abbrev Resolved := List String × List TypeExpr

/-- The `m.Iterate` loop of `resolveTypes`: every member is resolved by `rt`
(the method `resolveType`) and its names are added to `res`. -/
def iterateTypes (rt : String → TypeExpr → List TypeExpr → Option Resolved) (cls : String) :
    TypesMap → List String → List TypeExpr → Option Resolved
  | [], res, visited => some (res, visited)
  | t :: ts, res, visited =>
    match rt cls t visited with
    | none => none
    | some (r, v) => iterateTypes rt cls ts (addAll res r) v

/-- The tail of `resolveTypes`: `empty_array` is deleted, and replaced by
`array` unless a remaining name ends in `[]`. -/
def degradeEmptyArray (res : List String) : List String :=
  if "empty_array" ∈ res then
    let res := res.filter (fun tt => tt ≠ "empty_array")
    if res.any (fun tt => hasSuffix tt "[]") then res else insertName res "array"
  else res

/-- The method `resolver.resolveTypes`, over the method `resolveType` given as `rt`. -/
def resolveTypes (rt : String → TypeExpr → List TypeExpr → Option Resolved) (cls : String)
    (m : TypesMap) (visited : List TypeExpr) : Option Resolved :=
  match iterateTypes rt cls m [] visited with
  | none => none
  | some (res, v) => some (degradeEmptyArray res, v)

/-- The `ResolveTypes`: a new resolver over the caller's guard, context class `""`. -/
def ResolveTypesWith (rt : String → TypeExpr → List TypeExpr → Option Resolved)
    (m : TypesMap) (visitedMap : List TypeExpr) : Option Resolved :=
  resolveTypes rt "" m visitedMap

/-- The interface loop of `solveBaseMethodParam`. -/
def baseMethodParamLoop (idx : Info) (rt : String → TypeExpr → List TypeExpr → Option Resolved)
    (index : Nat) (methodName : String) (visitedMap : List TypeExpr) (res : List String) :
    List String → Option Resolved
  | [] => some (res, visitedMap)
  | ifaceName :: rest =>
    match idx.GetClass ifaceName with
    | none => baseMethodParamLoop idx rt index methodName visitedMap res rest
    | some iface =>
      match iface.Methods.lookup methodName with
      | none => baseMethodParamLoop idx rt index methodName visitedMap res rest
      | some fn =>
        if fn.Params.length > index then
          ResolveTypesWith rt (fn.Params.getD index default).Typ visitedMap
        else baseMethodParamLoop idx rt index methodName visitedMap res rest

/-- The `solveBaseMethodParam`. -/
def solveBaseMethodParam (idx : Info) (rt : String → TypeExpr → List TypeExpr → Option Resolved)
    (index : Nat) (className methodName : String) (visitedMap : List TypeExpr)
    (res : List String) : Option Resolved :=
  match idx.GetClass className with
  | some cls => baseMethodParamLoop idx rt index methodName visitedMap res cls.Interfaces
  | none => some (res, visitedMap)

/-- The body shared by the method-call cases: the names of `resolveTypes(className,
info.Typ)` are added to `res`, with `static` replaced by `className`. -/
def addBound (className : String) (res xs : List String) : List String :=
  xs.foldl (fun acc tt => if tt = "static" then insertName acc className else insertName acc tt) res

/-- The `for className := range ...` loop of the `WInstanceMethodCall` case. -/
def methodCallLoop (idx : Info) (fuel : Nat)
    (rt : String → TypeExpr → List TypeExpr → Option Resolved) (methodName : String) :
    List String → List String → List TypeExpr → Option Resolved
  | [], res, visited => some (res, visited)
  | className :: rest, res, visited =>
    match FindMethod idx fuel className methodName with
    | none => none
    | some (info, _, true) =>
      match resolveTypes rt className info.Typ visited with
      | none => none
      | some (r, v) => methodCallLoop idx fuel rt methodName rest (addBound className res r) v
    | some (_, _, false) => methodCallLoop idx fuel rt methodName rest res visited

/-- The `for className := range ...` loop of the `WInstancePropertyFetch` case. -/
def propertyFetchLoop (idx : Info) (fuel : Nat)
    (rt : String → TypeExpr → List TypeExpr → Option Resolved) (cls propertyName : String) :
    List String → List String → List TypeExpr → Option Resolved
  | [], res, visited => some (res, visited)
  | className :: rest, res, visited =>
    match FindProperty idx propertyName fuel className with
    | none => none
    | some (info, _, true) =>
      match resolveTypes rt cls info.Typ visited with
      | none => none
      | some (r, v) => propertyFetchLoop idx fuel rt cls propertyName rest (addAll res r) v
    | some (_, _, false) =>
      match FindMethod idx fuel className "__get" with
      | none => none
      | some (get, _, true) => resolveTypes rt cls get.Typ visited
      | some (_, _, false) => propertyFetchLoop idx fuel rt cls propertyName rest res visited

/-- The lookup of the `WFunctionCall` case, with its root namespace fallback. -/
def lookupFunction (idx : Info) (nm : String) : Option FuncInfo :=
  match idx.GetFunction nm with
  | some fn => some fn
  | none => if countBackslash nm > 1 then idx.GetFunction (fromLastBackslash nm) else none

/-- The method `resolver.resolveType`. -/
def resolveType (idx : Info) (ord : MapOrder) :
    Nat → String → TypeExpr → List TypeExpr → Option Resolved
  | 0, _, _, _ => none
  | fuel + 1, cls, typ, visitedMap =>
    if typ ∈ visitedMap then some ([], visitedMap)
    else
      match typ with
      | .literal name => some (identityType name, visitedMap)
      | .global varName =>
        match idx.GetVarNameType varName with
        | some varTyp =>
          match resolveTypes (resolveType idx ord fuel) cls varTyp (typ :: visitedMap) with
          | none => none
          | some (r, v) => some (addAll [] (ord.order r), v)
        | none => some ([], typ :: visitedMap)
      | .constant constName =>
        match idx.GetConstant constName with
        | some ci =>
          match resolveTypes (resolveType idx ord fuel) cls ci.Typ (typ :: visitedMap) with
          | none => none
          | some (r, v) => some (addAll [] (ord.order r), v)
        | none => some ([], typ :: visitedMap)
      | .arrayOf inner =>
        match resolveType idx ord fuel cls inner (typ :: visitedMap) with
        | none => none
        | some (r, v) =>
          some ((ord.order r).foldl (fun res tt =>
            if tt = "static" then insertName res (cls ++ "[]")
            else insertName res (tt ++ "[]")) [], v)
      | .elemOf inner =>
        match resolveType idx ord fuel cls inner (typ :: visitedMap) with
        | none => none
        | some (r, v) =>
          some ((ord.order r).foldl (fun res tt =>
            if hasSuffix tt "[]" then insertName res (trimSuffix tt "[]")
            else if tt = "mixed" then insertName res "mixed"
            else res) [], v)
      | .functionCall nm =>
        match lookupFunction idx nm with
        | some fn => resolveTypes (resolveType idx ord fuel) cls fn.Typ (typ :: visitedMap)
        | none => some ([], typ :: visitedMap)
      | .instanceMethodCall expr methodName =>
        match resolveType idx ord fuel cls expr (typ :: visitedMap) with
        | none => none
        | some (classNames, v) =>
          methodCallLoop idx fuel (resolveType idx ord fuel) methodName (ord.order classNames) [] v
      | .instancePropertyFetch expr propertyName =>
        match resolveType idx ord fuel cls expr (typ :: visitedMap) with
        | none => none
        | some (classNames, v) =>
          propertyFetchLoop idx fuel (resolveType idx ord fuel) cls propertyName
            (ord.order classNames) [] v
      | .baseMethodParam index className methodName =>
        solveBaseMethodParam idx (resolveType idx ord fuel) index className methodName
          (typ :: visitedMap) []
      | .staticMethodCall className methodName =>
        match FindMethod idx fuel className methodName with
        | none => none
        | some (info, _, true) =>
          match resolveTypes (resolveType idx ord fuel) className info.Typ (typ :: visitedMap) with
          | none => none
          | some (r, v) => some (addBound className [] (ord.order r), v)
        | some (_, _, false) => some ([], typ :: visitedMap)
      | .staticPropertyFetch className propertyName =>
        match FindProperty idx propertyName fuel className with
        | none => none
        | some (info, _, true) =>
          resolveTypes (resolveType idx ord fuel) cls info.Typ (typ :: visitedMap)
        | some (_, _, false) => some ([], typ :: visitedMap)

/-- The `ResolveType`. -/
def ResolveType (idx : Info) (ord : MapOrder) (fuel : Nat) (typ : TypeExpr)
    (visitedMap : List TypeExpr) : Option Resolved :=
  resolveType idx ord fuel "" typ visitedMap

/-- The `ResolveTypes`. -/
def ResolveTypes (idx : Info) (ord : MapOrder) (fuel : Nat) (m : TypesMap)
    (visitedMap : List TypeExpr) : Option Resolved :=
  ResolveTypesWith (resolveType idx ord fuel) m visitedMap

/-! ## Variable-occurrence classifier (`src/linter/variablewalker.go`) -/

/-- Modelled from the spec: the syntax tree comes from the `php-parser` library, which
is not part of the sources.  The node kinds the walker tells apart, and generic nodes
for every other kind; a child is announced by the tree-walk driver under its key. -/
inductive Node where
  /-- The `*node.Identifier`. -/
  | identifier (value : String)
  /-- The `*expr.Variable`, child key `VarName`. -/
  | exprVariable (varName : Node)
  /-- The `*assign.Assign`, child keys `Variable` and `Expression`. -/
  | assign (Variable expression : Node)
  /-- The `*expr.PropertyFetch`, child keys `Variable` and `Property`. -/
  | propertyFetch (Variable property : Node)
  /-- The `*expr.ArrayDimFetch`, child keys `Variable` and `Dim`. -/
  | arrayDimFetch (Variable dim : Node)
  /-- The `*stmt.Property`, child key `Variable`. -/
  | stmtProperty (Variable : Node)
  /-- The `*node.Parameter`, child key `Variable`. -/
  | parameter (Variable : Node)
  /-- A node of another kind without children, such as a number. -/
  | leaf (kind : String)
  /-- A node of another kind with one child, such as `*stmt.Expression` (key `Expr`). -/
  | unary (kind key : String) (child : Node)
  /-- A node of another kind with two children, such as `*assign.Plus` (keys
  `Variable` and `Expression`). -/
  | binary (kind key1 : String) (child1 : Node) (key2 : String) (child2 : Node)
  deriving DecidableEq, Repr, Inhabited

/-- The `VariableContext`; a `nil` parent is `none`.  Along the path from the root of
one tree to a node, equality of nodes is identity of nodes. -/
structure VariableContext where
  parent : Option Node
  key : String
  isWrite : Bool
  deriving DecidableEq, Repr

/-- The `VariableContextStack`, a slice whose last element is the top. -/
abbrev VariableContextStack := List VariableContext

/-- The `VariableContextStack.Peek`. -/
def VariableContextStack.Peek (s : VariableContextStack) : VariableContext :=
  match s.getLast? with
  | none => ⟨none, "", false⟩
  | some ctx => ctx

/-- The `VariableContextStack.Pop`. -/
def VariableContextStack.Pop (s : VariableContextStack) : VariableContextStack :=
  s.dropLast

/-- The `VariableContextStack.Push`. -/
def VariableContextStack.Push (s : VariableContextStack) (parent : Node) (key : String)
    (isWrite : Bool) : VariableContextStack :=
  s ++ [⟨some parent, key, isWrite⟩]

/-- The `VariableWalker`. -/
structure VariableWalker where
  reads : List String
  writes : List String
  varStack : VariableContextStack
  deriving DecidableEq, Repr

/-- The `VariableWalker.addRead`. -/
def VariableWalker.addRead (vw : VariableWalker) (v : String) : VariableWalker :=
  { vw with reads := insertName vw.reads v }

/-- The `VariableWalker.addWrite`. -/
def VariableWalker.addWrite (vw : VariableWalker) (v : String) : VariableWalker :=
  { vw with writes := insertName vw.writes v }

/-- The `sort.Strings` on the keys of a map: Go orders strings bytewise, which on
UTF-8 text is the lexicographic order of the code points. -/
def sortStrings (l : List String) : List String :=
  l.insertionSort (fun a b => a.data ≤ b.data)

/-- The `VariableWalker.Reads`. -/
def VariableWalker.Reads (vw : VariableWalker) : List String :=
  sortStrings vw.reads

/-- The `VariableWalker.Writes`. -/
def VariableWalker.Writes (vw : VariableWalker) : List String :=
  sortStrings vw.writes

/-- The `VariableWalker.EnterNode`; `indexingComplete` is the answer of
`meta.IsIndexingComplete()`. -/
def VariableWalker.EnterNode (indexingComplete : Bool) (vw : VariableWalker) (w : Node) :
    VariableWalker × Bool :=
  if !indexingComplete then (vw, false)
  else
    match w with
    | .identifier value =>
      let ctx := VariableContextStack.Peek vw.varStack
      match ctx.parent with
      | some (.exprVariable _) =>
        if ctx.isWrite then (vw.addWrite value, true) else (vw.addRead value, true)
      | _ => (vw, true)
    | .stmtProperty _ => (vw, false)
    | .parameter _ => (vw, false)
    | _ => (vw, true)

/-- The `VariableWalker.EnterChildNode`; `none` is the panic on an unexpected key. -/
def VariableWalker.EnterChildNode (vw : VariableWalker) (key : String) (w : Node) :
    Option VariableWalker :=
  match w with
  | .assign _ _ =>
    if key = "Variable" then some { vw with varStack := vw.varStack.Push w key true }
    else some { vw with varStack := vw.varStack.Push w key false }
  | .propertyFetch _ _ =>
    if key = "Property" then some { vw with varStack := vw.varStack.Push w key false }
    else some vw
  | .arrayDimFetch _ _ =>
    if key = "Dim" then some { vw with varStack := vw.varStack.Push w key false }
    else some vw
  | .exprVariable varName =>
    if key ≠ "VarName" then none
    else
      match varName with
      | .identifier _ =>
        some { vw with varStack :=
          vw.varStack.Push w key (VariableContextStack.Peek vw.varStack).isWrite }
      | _ => some { vw with varStack := vw.varStack.Push w key false }
  | _ => some vw

/-- The `VariableWalker.LeaveChildNode`. -/
def VariableWalker.LeaveChildNode (vw : VariableWalker) (key : String) (w : Node) :
    VariableWalker :=
  let vctx := VariableContextStack.Peek vw.varStack
  if vctx.parent = some w ∧ vctx.key = key then
    { vw with varStack := VariableContextStack.Pop vw.varStack }
  else vw

/-- Modelled from the spec: the tree-walk driver is part of `php-parser`.  One named
child: `EnterChildNode(key, parent)`, the walk of the child, `LeaveChildNode(key,
parent)`. -/
def walkChild (key : String) (parent : Node)
    (walkC : VariableWalker → Option VariableWalker) (vw : VariableWalker) :
    Option VariableWalker :=
  match vw.EnterChildNode key parent with
  | none => none
  | some vw1 =>
    match walkC vw1 with
    | none => none
    | some vw2 => some (vw2.LeaveChildNode key parent)

/-- Modelled from the spec: the tree-walk driver is part of `php-parser`.  A node is
entered with `EnterNode`; unless that answers false its named children are walked in
order, then `LeaveNode`, which does nothing, is called. -/
def walk (indexingComplete : Bool) : Node → VariableWalker → Option VariableWalker
  | .identifier value, vw => some (vw.EnterNode indexingComplete (.identifier value)).1
  | .leaf kind, vw => some (vw.EnterNode indexingComplete (.leaf kind)).1
  | .exprVariable varName, vw =>
    let r := vw.EnterNode indexingComplete (.exprVariable varName)
    if r.2 then walkChild "VarName" (.exprVariable varName) (walk indexingComplete varName) r.1
    else some r.1
  | .assign Variable expression, vw =>
    let r := vw.EnterNode indexingComplete (.assign Variable expression)
    if r.2 then
      match walkChild "Variable" (.assign Variable expression)
          (walk indexingComplete Variable) r.1 with
      | none => none
      | some vw1 =>
        walkChild "Expression" (.assign Variable expression)
          (walk indexingComplete expression) vw1
    else some r.1
  | .propertyFetch Variable property, vw =>
    let r := vw.EnterNode indexingComplete (.propertyFetch Variable property)
    if r.2 then
      match walkChild "Variable" (.propertyFetch Variable property)
          (walk indexingComplete Variable) r.1 with
      | none => none
      | some vw1 =>
        walkChild "Property" (.propertyFetch Variable property)
          (walk indexingComplete property) vw1
    else some r.1
  | .arrayDimFetch Variable dim, vw =>
    let r := vw.EnterNode indexingComplete (.arrayDimFetch Variable dim)
    if r.2 then
      match walkChild "Variable" (.arrayDimFetch Variable dim)
          (walk indexingComplete Variable) r.1 with
      | none => none
      | some vw1 =>
        walkChild "Dim" (.arrayDimFetch Variable dim) (walk indexingComplete dim) vw1
    else some r.1
  | .stmtProperty Variable, vw =>
    let r := vw.EnterNode indexingComplete (.stmtProperty Variable)
    if r.2 then
      walkChild "Variable" (.stmtProperty Variable) (walk indexingComplete Variable) r.1
    else some r.1
  | .parameter Variable, vw =>
    let r := vw.EnterNode indexingComplete (.parameter Variable)
    if r.2 then
      walkChild "Variable" (.parameter Variable) (walk indexingComplete Variable) r.1
    else some r.1
  | .unary kind key child, vw =>
    let r := vw.EnterNode indexingComplete (.unary kind key child)
    if r.2 then walkChild key (.unary kind key child) (walk indexingComplete child) r.1
    else some r.1
  | .binary kind key1 child1 key2 child2, vw =>
    let r := vw.EnterNode indexingComplete (.binary kind key1 child1 key2 child2)
    if r.2 then
      match walkChild key1 (.binary kind key1 child1 key2 child2)
          (walk indexingComplete child1) r.1 with
      | none => none
      | some vw1 =>
        walkChild key2 (.binary kind key1 child1 key2 child2)
          (walk indexingComplete child2) vw1
    else some r.1

/-- A walk of one tree with a new walker: the lists `Reads()` and `Writes()` report. -/
def classify (indexingComplete : Bool) (root : Node) : Option (List String × List String) :=
  (walk indexingComplete root ⟨[], [], []⟩).map (fun vw => (vw.Reads, vw.Writes))

/-- The plain variable `$name`. -/
def plainVar (name : String) : Node := .exprVariable (.identifier name)

/-- The statement `$a[$b] = $c;`. -/
def arrayAssignStmt : Node :=
  .unary "stmt.Expression" "Expr"
    (.assign (.arrayDimFetch (plainVar "a") (plainVar "b")) (plainVar "c"))

/-- The statement `$$a = $b;`. -/
def varVarAssignStmt : Node :=
  .unary "stmt.Expression" "Expr" (.assign (.exprVariable (plainVar "a")) (plainVar "b"))

/-- The statement `$obj->prop = $x;`. -/
def propertyAssignStmt : Node :=
  .unary "stmt.Expression" "Expr"
    (.assign (.propertyFetch (plainVar "obj") (.identifier "prop")) (plainVar "x"))

/-- The statement `$a += $b;`. -/
def plusAssignStmt : Node :=
  .unary "stmt.Expression" "Expr"
    (.binary "assign.Plus" "Variable" (plainVar "a") "Expression" (plainVar "b"))

/-! ## Graph relations used to state the properties -/

/-- The descriptor `findMethod` works on for a name: the class, else the trait. -/
def Info.node (idx : Info) (name : String) : Option ClassInfo :=
  (idx.GetClass name).orElse (fun _ => idx.GetTrait name)

/-- The names `findMethod` can pass through from a start name: over mixed-in
traits, parent interfaces and the non-empty parent of every node that resolves
as a class or a trait. -/
inductive Reach (idx : Info) : String → String → Prop where
  | refl (a : String) : Reach idx a a
  | viaTrait (a t b : String) (cls : ClassInfo) : idx.node a = some cls → t ∈ cls.Traits →
      Reach idx t b → Reach idx a b
  | viaParentInterface (a p b : String) (cls : ClassInfo) : idx.node a = some cls →
      p ∈ cls.ParentInterfaces → Reach idx p b → Reach idx a b
  | viaParent (a b : String) (cls : ClassInfo) : idx.node a = some cls → cls.Parent ≠ "" →
      Reach idx cls.Parent b → Reach idx a b

/-- A chain of existing classes from `c` up to `p`, each one the non-empty parent
of the one before; the number counts the steps. -/
inductive ParentChain (idx : Info) : String → String → Nat → Prop where
  | here (c : String) (cls : ClassInfo) : idx.GetClass c = some cls → ParentChain idx c c 0
  | step (c p : String) (n : Nat) (cls : ClassInfo) : idx.GetClass c = some cls →
      cls.Parent ≠ "" → ParentChain idx cls.Parent p n → ParentChain idx c p (n + 1)

/-- The class `c` exists and names `p`, a non-empty name, as its parent. -/
def IsParentOf (idx : Info) (p c : String) : Prop :=
  ∃ cls, idx.GetClass c = some cls ∧ cls.Parent = p ∧ p ≠ ""

/-- No class is its own ancestor along the parent edges. -/
def AcyclicParents (idx : Info) : Prop :=
  ∀ c, ¬ Relation.TransGen (IsParentOf idx) c c

/-! ## Concrete indexes -/

/-- A class without relatives or members. -/
def emptyClass : ClassInfo := ⟨"", [], [], [], [], [], []⟩

/-- `class Animal { /** @return static */ function make() }`, `class Dog extends Animal`. -/
def zooIndex : Info :=
  { classes := [("Animal", { emptyClass with Methods := [("make", ⟨[], [.literal "static"]⟩)] }),
      ("Dog", { emptyClass with Parent := "Animal" })],
    traits := [], functions := [], globals := [], constants := [] }

/-- `class A extends B`, `class B extends A`. -/
def cyclicIndex : Info :=
  { classes := [("A", { emptyClass with Parent := "B" }), ("B", { emptyClass with Parent := "A" })],
    traits := [], functions := [], globals := [], constants := [] }

/-- `interface K { const C }`, `interface I implements K { const C }`,
`class X implements I { const C }`; the three declarations differ in their type. -/
def constantIndex : Info :=
  { classes := [
      ("X", { emptyClass with Interfaces := ["I"], Constants := [("C", ⟨[.literal "x"]⟩)] }),
      ("I", { emptyClass with Interfaces := ["K"], Constants := [("C", ⟨[.literal "i"]⟩)] }),
      ("K", { emptyClass with Constants := [("C", ⟨[.literal "k"]⟩)] })],
    traits := [], functions := [], globals := [], constants := [] }

/-- `interface I { const C }`, `class X implements I { const C }`. -/
def plainConstantIndex : Info :=
  { classes := [
      ("X", { emptyClass with Interfaces := ["I"], Constants := [("C", ⟨[.literal "x"]⟩)] }),
      ("I", { emptyClass with Constants := [("C", ⟨[.literal "i"]⟩)] })],
    traits := [], functions := [], globals := [], constants := [] }

/-- `class P implements I`, `class X extends P`; the interface `I` is not indexed. -/
def implementsIndex : Info :=
  { classes := [("P", { emptyClass with Interfaces := ["I"] }),
      ("X", { emptyClass with Parent := "P" })],
    traits := [], functions := [], globals := [], constants := [] }

/-- `global $g` whose declared type is "the type of `$g`"; no classes. -/
def selfGlobalIndex : Info :=
  { classes := [], traits := [], functions := [], globals := [("g", [.global "g"])],
    constants := [] }

/-- The search of `findMethod` for `methodName` is finished at the name `n` with
respect to the guard `w`: if `n` resolves, its node does not declare the method and
every name `findMethod` moves on to from it is in `w`. -/
def ClosedNode (idx : Info) (methodName : String) (n : String) (w : List String) : Prop :=
  ∀ cls, idx.node n = some cls →
    cls.Methods.lookup methodName = none ∧ (∀ t ∈ cls.Traits, t ∈ w) ∧
    (∀ q ∈ cls.ParentInterfaces, q ∈ w) ∧ (cls.Parent ≠ "" → cls.Parent ∈ w)

/-- `trait T { function m() }`, `class C { use T; }`. -/
def traitIndex : Info :=
  { classes := [("C", { emptyClass with Traits := ["T"] })],
    traits := [("T", { emptyClass with Methods := [("m", ⟨[], [.literal "int"]⟩)] })],
    functions := [], globals := [], constants := [] }

/-- `interface I { function f($p) }` with `$p` typed "the type of `$g`",
`class C implements I`, `global $g` of type `int`. -/
def paramIndex : Info :=
  { classes := [("C", { emptyClass with Interfaces := ["I"] }),
      ("I", { emptyClass with Methods := [("f", ⟨[⟨[.global "g"]⟩], []⟩)] })],
    traits := [], functions := [], globals := [("g", [.literal "int"])], constants := [] }

/-- `class A { /** @var Foo */ public $p; }`, `class B { /** @return int */ function
__get() }`, `class D { /** @var Bar */ public $p; }`, and `global $h` of type `A|B|D`. -/
def getterIndex : Info :=
  { classes := [("A", { emptyClass with Properties := [("p", ⟨[.literal "Foo"]⟩)] }),
      ("B", { emptyClass with Methods := [("__get", ⟨[], [.literal "int"]⟩)] }),
      ("D", { emptyClass with Properties := [("p", ⟨[.literal "Bar"]⟩)] })],
    traits := [], functions := [],
    globals := [("h", [.literal "A", .literal "B", .literal "D"])], constants := [] }

/-- `global $g` of type `X`. -/
def orderIndex : Info :=
  { classes := [], traits := [], functions := [], globals := [("g", [.literal "X"])],
    constants := [] }

/-- The members of a Type Set resolved one after the other by `rt`, each under the
guard its predecessor left: the member results in visiting order and the last guard. -/
inductive Threaded (rt : String → TypeExpr → List TypeExpr → Option Resolved) (cls : String) :
    TypesMap → List TypeExpr → List (List String) → List TypeExpr → Prop where
  | nil (v : List TypeExpr) : Threaded rt cls [] v [] v
  | cons (t : TypeExpr) (ts : TypesMap) (v u w : List TypeExpr) (r : List String)
      (rs : List (List String)) : rt cls t v = some (r, u) → Threaded rt cls ts u rs w →
      Threaded rt cls (t :: ts) v (r :: rs) w

/-- Two guards that agree up to `ElemOf(x)` and `ArrayOf(ElemOf(x))`, which the second
holds, the first of them holding `x`. -/
def SameUpTo (x : TypeExpr) (v1 v2 : List TypeExpr) : Prop :=
  x ∈ v1 ∧ ∀ s, s ∈ v2 ↔ s ∈ v1 ∨ s = TypeExpr.elemOf x ∨ s = TypeExpr.arrayOf (.elemOf x)

/-- Visit the two keys `a`, `b` as `b`, `a`, and every other map as inserted. -/
def MapOrder.swapped (a b : String) : MapOrder :=
  ⟨fun l => if l = [a, b] then [b, a] else l, fun l => by
    by_cases h : l = [a, b]
    · subst h
      simp only [if_true]
      exact List.Perm.swap a b []
    · simp only [h, if_false]
      exact List.Perm.refl l⟩

/-- `class A { /** @return "type of $g" */ function m() }`, `class B { /** @return
"type of $g"[] */ function m() }`, `global $g` of type `X`, `global $h` of type `A|B`. -/
def callOrderIndex : Info :=
  { classes := [("A", { emptyClass with Methods := [("m", ⟨[], [.global "g"]⟩)] }),
      ("B", { emptyClass with Methods := [("m", ⟨[], [.arrayOf (.global "g")]⟩)] })],
    traits := [], functions := [],
    globals := [("g", [.literal "X"]), ("h", [.literal "A", .literal "B"])], constants := [] }

/-! ## Measures for the termination arguments -/

/-- The number of members of `univ` that the guard `v` does not contain yet. -/
def unvisited {α : Type} [DecidableEq α] (univ v : List α) : Nat :=
  (univ.toFinset \ v.toFinset).card

/-- The names that resolve as a class or as a trait. -/
def Info.nodeNames (idx : Info) : List String :=
  idx.classes.map Prod.fst ++ idx.traits.map Prod.fst

/-- A type expression with every expression nested in it. -/
def subExprs : TypeExpr → List TypeExpr
  | .arrayOf inner => .arrayOf inner :: subExprs inner
  | .elemOf inner => .elemOf inner :: subExprs inner
  | .instanceMethodCall expr methodName =>
    .instanceMethodCall expr methodName :: subExprs expr
  | .instancePropertyFetch expr propertyName =>
    .instancePropertyFetch expr propertyName :: subExprs expr
  | t => [t]

/-- The members of the Type Sets a function declares: its own and its parameters'. -/
def FuncInfo.types (f : FuncInfo) : List TypeExpr :=
  f.Typ ++ f.Params.flatMap (fun q => q.Typ)

/-- The members of the Type Sets the methods and properties of a class declare. -/
def ClassInfo.types (c : ClassInfo) : List TypeExpr :=
  c.Methods.flatMap (fun kv => kv.2.types) ++ c.Properties.flatMap (fun kv => kv.2.Typ)

/-- The members of every Type Set the resolver can read from the symbol index. -/
def Info.allTypes (idx : Info) : List TypeExpr :=
  idx.classes.flatMap (fun kv => kv.2.types) ++ idx.traits.flatMap (fun kv => kv.2.types) ++
    idx.functions.flatMap (fun kv => kv.2.Typ) ++ idx.globals.flatMap (fun kv => kv.2) ++
    idx.constants.flatMap (fun kv => kv.2.Typ)

/-- The expressions a resolution started on `roots` can ever put into its guard. -/
def Info.universe (idx : Info) (roots : List TypeExpr) : List TypeExpr :=
  (roots ++ idx.allTypes).flatMap subExprs

/-- A set of expressions that contains the nested expressions of its members and
the members of every Type Set that a lookup in the index can produce. -/
structure Closed (idx : Info) (U : List TypeExpr) : Prop where
  arrayOf : ∀ t, TypeExpr.arrayOf t ∈ U → t ∈ U
  elemOf : ∀ t, TypeExpr.elemOf t ∈ U → t ∈ U
  methodCall : ∀ t m, TypeExpr.instanceMethodCall t m ∈ U → t ∈ U
  propertyFetch : ∀ t q, TypeExpr.instancePropertyFetch t q ∈ U → t ∈ U
  global : ∀ g tm, idx.GetVarNameType g = some tm → ∀ t ∈ tm, t ∈ U
  constant : ∀ c ci, idx.GetConstant c = some ci → ∀ t ∈ ci.Typ, t ∈ U
  function : ∀ f fn, idx.GetFunction f = some fn → ∀ t ∈ fn.Typ, t ∈ U
  method : ∀ c cls m fn, idx.node c = some cls → cls.Methods.lookup m = some fn →
    ∀ t ∈ fn.Typ, t ∈ U
  property : ∀ c cls q pi, idx.GetClass c = some cls → cls.Properties.lookup q = some pi →
    ∀ t ∈ pi.Typ, t ∈ U
  param : ∀ c cls m fn i, idx.GetClass c = some cls → cls.Methods.lookup m = some fn →
    i < fn.Params.length → ∀ t ∈ (fn.Params.getD i default).Typ, t ∈ U

/-! ## Basic facts -/

theorem MapOrder.order_nil (ord : MapOrder) : ord.order [] = [] :=
  List.Perm.eq_nil (ord.perm [])

theorem MapOrder.order_singleton (ord : MapOrder) (a : String) : ord.order [a] = [a] :=
  List.perm_singleton.mp (ord.perm [a])

theorem MapOrder.mem_order (ord : MapOrder) (l : List String) (a : String) :
    a ∈ ord.order l ↔ a ∈ l :=
  (ord.perm l).mem_iff

theorem hasSuffix_append (n s : String) : hasSuffix (n ++ s) s = true := by
  unfold hasSuffix
  rw [String.data_append]
  simp [List.isSuffixOf_iff_suffix]

theorem trimSuffix_append (n s : String) : trimSuffix (n ++ s) s = n := by
  unfold trimSuffix
  rw [hasSuffix_append]
  simp [String.data_append]

theorem insertName_nil (a : String) : insertName [] a = [a] := by
  simp [insertName]

theorem mem_insertName (res : List String) (a x : String) :
    x ∈ insertName res a ↔ x ∈ res ∨ x = a := by
  unfold insertName
  split
  · constructor
    · intro h; exact Or.inl h
    · rintro (h | h)
      · exact h
      · subst h; assumption
  · simp

theorem mem_addAll (xs res : List String) (x : String) :
    x ∈ addAll res xs ↔ x ∈ res ∨ x ∈ xs := by
  unfold addAll
  induction xs generalizing res with
  | nil => simp
  | cons a as ih =>
    rw [List.foldl_cons, ih, mem_insertName]
    simp only [List.mem_cons]
    tauto

/-! ## Fuel monotonicity of `findMethod` -/

theorem searchEach_mono {α : Type}
    (rec1 rec2 : String → List String → Option ((α × String × Bool) × List String))
    (h : ∀ x v r, rec1 x v = some r → rec2 x v = some r)
    (xs : List String) (cur : α × String × Bool) (v : List String)
    (r : (α × String × Bool) × List String)
    (h1 : searchEach rec1 xs cur v = some r) : searchEach rec2 xs cur v = some r := by
  induction xs generalizing cur v with
  | nil => simpa [searchEach] using h1
  | cons x xs ih =>
    unfold searchEach at h1 ⊢
    cases hx : rec1 x v with
    | none => simp [hx] at h1
    | some q =>
      rw [h x v q hx]
      rw [hx] at h1
      obtain ⟨⟨a, impl, ok⟩, w⟩ := q
      cases ok with
      | true => simpa using h1
      | false => exact ih _ _ h1

theorem findMethod_succ (idx : Info) (methodName : String) (fuel : Nat) :
    ∀ (className : String) (res : FuncInfo) (v : List String)
      (r : (FuncInfo × String × Bool) × List String),
      findMethod idx methodName fuel className res v = some r →
      findMethod idx methodName (fuel + 1) className res v = some r := by
  induction fuel with
  | zero => intro c res v r h; simp [findMethod] at h
  | succ n ih =>
    intro c res v r h
    have hrec : ∀ x w q, (fun t v => findMethod idx methodName n t default v) x w = some q →
        (fun t v => findMethod idx methodName (n + 1) t default v) x w = some q :=
      fun x w q hq => ih x default w q hq
    rw [findMethod] at h ⊢
    split at h
    · next hv => simpa [hv] using h
    · next hv =>
      simp only [hv, if_false]
      revert h
      cases (idx.GetClass c).orElse (fun _ => idx.GetTrait c) with
      | none => exact id
      | some cls =>
        dsimp only
        cases cls.Methods.lookup methodName with
        | some d => exact id
        | none =>
          dsimp only
          cases h1 : searchEach (fun t v => findMethod idx methodName n t default v)
              cls.Traits (default, "", false) (c :: v) with
          | none => intro h; simp at h
          | some q1 =>
            rw [searchEach_mono _ _ hrec _ _ _ _ h1]
            obtain ⟨⟨a1, i1, ok1⟩, w1⟩ := q1
            cases ok1 with
            | true => exact id
            | false =>
              dsimp only
              cases h2 : searchEach (fun t v => findMethod idx methodName n t default v)
                  cls.ParentInterfaces (a1, i1, false) w1 with
              | none => intro h; simp at h
              | some q2 =>
                rw [searchEach_mono _ _ hrec _ _ _ _ h2]
                obtain ⟨⟨a2, i2, ok2⟩, w2⟩ := q2
                cases ok2 with
                | true => exact id
                | false =>
                  dsimp only
                  split
                  · exact id
                  · intro h; exact ih _ _ _ _ h

theorem findMethod_mono (idx : Info) (methodName : String) (fuel k : Nat)
    (className : String) (res : FuncInfo) (v : List String)
    (r : (FuncInfo × String × Bool) × List String)
    (h : findMethod idx methodName fuel className res v = some r) :
    findMethod idx methodName (fuel + k) className res v = some r := by
  induction k with
  | zero => exact h
  | succ k ih => exact findMethod_succ idx methodName (fuel + k) className res v r ih

theorem FindMethod_mono (idx : Info) (fuel k : Nat) (className methodName : String)
    (r : FuncInfo × String × Bool) (h : FindMethod idx fuel className methodName = some r) :
    FindMethod idx (fuel + k) className methodName = some r := by
  unfold FindMethod at h ⊢
  cases hq : findMethod idx methodName fuel className default [] with
  | none => simp [hq] at h
  | some q =>
    rw [findMethod_mono idx methodName fuel k className default [] q hq]
    simpa [hq] using h

/-! ## Resolution of literals and simple wrappers -/

theorem resolveType_literal_eq (idx : Info) (ord : MapOrder) (fuel : Nat) (cls name : String)
    (visited : List TypeExpr) (h : TypeExpr.literal name ∉ visited) :
    resolveType idx ord (fuel + 1) cls (.literal name) visited = some ([name], visited) := by
  rw [resolveType]
  simp [h, identityType, insertName_nil]

theorem degradeEmptyArray_of_not_mem (res : List String) (h : "empty_array" ∉ res) :
    degradeEmptyArray res = res := by
  simp [degradeEmptyArray, h]

/-- C9: a literal type expression that is not in the guard resolves to exactly the
singleton of its name, whatever the context class, and leaves the guard as it was;
this includes the literal `static`. -/
theorem resolveType_literal (idx : Info) (ord : MapOrder) (fuel : Nat) (cls name : String)
    (visited : List TypeExpr) (h : TypeExpr.literal name ∉ visited) :
    resolveType idx ord (fuel + 1) cls (.literal name) visited = some ([name], visited) :=
  resolveType_literal_eq idx ord fuel cls name visited h

theorem resolveType_literal_witness :
    TypeExpr.literal "static" ∉ [TypeExpr.global "g"] ∧
    resolveType default MapOrder.insertion (0 + 1) "Dog" (.literal "static") [TypeExpr.global "g"]
      = some (["static"], [TypeExpr.global "g"]) :=
  ⟨by decide, resolveType_literal default MapOrder.insertion 0 "Dog" "static" [TypeExpr.global "g"]
    (by decide)⟩

/-- C4: a global variable whose declared Type Set is exactly `{GlobalVarRef(g)}`
resolves to the empty set, for every context class and every guard. -/
theorem resolveType_self_global (idx : Info) (ord : MapOrder) (fuel : Nat) (cls g : String)
    (visited : List TypeExpr) (h : idx.GetVarNameType g = some [.global g]) :
    ∃ v, resolveType idx ord (fuel + 2) cls (.global g) visited = some ([], v) := by
  rw [resolveType]
  by_cases hv : TypeExpr.global g ∈ visited
  · exact ⟨visited, by simp [hv]⟩
  · refine ⟨TypeExpr.global g :: visited, ?_⟩
    simp only [hv, if_false, h]
    have hin : resolveType idx ord (fuel + 1) cls (.global g) (TypeExpr.global g :: visited)
        = some ([], TypeExpr.global g :: visited) := by
      rw [resolveType]; simp
    simp [resolveTypes, iterateTypes, hin, addAll, degradeEmptyArray, ord.order_nil]

theorem resolveType_self_global_witness :
    (⟨[], [], [], [("g", [.global "g"])], []⟩ : Info).GetVarNameType "g" = some [.global "g"] ∧
    ∃ v, resolveType ⟨[], [], [], [("g", [.global "g"])], []⟩ MapOrder.insertion (0 + 2) "C"
      (.global "g") [] = some ([], v) :=
  ⟨by decide, resolveType_self_global ⟨[], [], [], [("g", [.global "g"])], []⟩
    MapOrder.insertion 0 "C" "g" [] (by decide)⟩

/-- C10: for a literal name `n` other than `static`, every context class and the
empty guard, `ElemOf(ArrayOf(Literal n))` resolves to exactly `{n}`: the element
lookup strips the `[]` that the array wrapper appended. -/
theorem resolveType_elemOf_arrayOf (idx : Info) (ord : MapOrder) (fuel : Nat) (cls n : String)
    (h : n ≠ "static") :
    resolveType idx ord (fuel + 3) cls (.elemOf (.arrayOf (.literal n))) []
      = some ([n], [.arrayOf (.literal n), .elemOf (.arrayOf (.literal n))]) := by
  have h1 : resolveType idx ord (fuel + 1) cls (.literal n)
      [.arrayOf (.literal n), .elemOf (.arrayOf (.literal n))]
      = some ([n], [.arrayOf (.literal n), .elemOf (.arrayOf (.literal n))]) :=
    resolveType_literal_eq idx ord fuel cls n _ (by simp)
  have h2 : resolveType idx ord (fuel + 2) cls (.arrayOf (.literal n))
      [.elemOf (.arrayOf (.literal n))]
      = some ([n ++ "[]"], [.arrayOf (.literal n), .elemOf (.arrayOf (.literal n))]) := by
    rw [resolveType]
    simp [h1, ord.order_singleton, h, insertName_nil]
  rw [resolveType]
  simp [h2, ord.order_singleton, hasSuffix_append, trimSuffix_append, insertName_nil]

theorem resolveType_elemOf_arrayOf_witness :
    "Foo" ≠ "static" ∧
    resolveType default MapOrder.insertion (0 + 3) "" (.elemOf (.arrayOf (.literal "Foo"))) []
      = some (["Foo"], [.arrayOf (.literal "Foo"), .elemOf (.arrayOf (.literal "Foo"))]) :=
  ⟨by decide, resolveType_elemOf_arrayOf default MapOrder.insertion 0 "" "Foo" (by decide)⟩

/-- C6: late static binding.  When `FindMethod(c, m)` finds a declaration (on `c` or
on an ancestor) whose declared Type Set is exactly `{static}`, resolving
`InstanceMethodCallRef(Literal c, m)` with an empty guard returns exactly `{c}`, the
calling class, for every context class and every sufficient amount of fuel. -/
theorem resolveType_late_static_binding (idx : Info) (ord : MapOrder) (fuelM k : Nat)
    (cls c m : String) (d : FuncInfo) (impl : String)
    (hfind : FindMethod idx fuelM c m = some (d, impl, true))
    (hstatic : d.Typ = [.literal "static"]) :
    resolveType idx ord (fuelM + k + 1) cls (.instanceMethodCall (.literal c) m) []
      = some ([c], [.instanceMethodCall (.literal c) m]) := by
  obtain ⟨j, hj⟩ : ∃ j, fuelM + k = j + 1 := by
    cases fuelM with
    | zero => simp [FindMethod, findMethod] at hfind
    | succ f => exact ⟨f + k, by omega⟩
  have hfind2 : FindMethod idx (j + 1) c m = some (d, impl, true) := by
    rw [← hj]; exact FindMethod_mono idx fuelM k c m _ hfind
  have h1 : resolveType idx ord (j + 1) cls (.literal c) [.instanceMethodCall (.literal c) m]
      = some ([c], [.instanceMethodCall (.literal c) m]) :=
    resolveType_literal_eq idx ord j cls c _ (by simp)
  have h2 : resolveType idx ord (j + 1) c (.literal "static")
      [.instanceMethodCall (.literal c) m]
      = some (["static"], [.instanceMethodCall (.literal c) m]) :=
    resolveType_literal_eq idx ord j c "static" _ (by simp)
  have h3 : degradeEmptyArray ["static"] = ["static"] :=
    degradeEmptyArray_of_not_mem _ (by decide)
  rw [hj, resolveType]
  simp [h1, ord.order_singleton, methodCallLoop, hfind2, hstatic, resolveTypes, iterateTypes, h2,
    addAll, insertName_nil, h3, addBound]

theorem resolveType_late_static_binding_witness :
    FindMethod zooIndex 2 "Dog" "make" = some (⟨[], [.literal "static"]⟩, "Animal", true) ∧
    resolveType zooIndex MapOrder.insertion (2 + 0 + 1) "" (.instanceMethodCall (.literal "Dog") "make") []
      = some (["Dog"], [.instanceMethodCall (.literal "Dog") "make"]) :=
  ⟨by decide, resolveType_late_static_binding zooIndex MapOrder.insertion 2 0 "" "Dog" "make"
    ⟨[], [.literal "static"]⟩ "Animal" (by decide) rfl⟩

/-! ## Lookups without a guard on a cyclic parent chain -/

theorem FindProperty_cyclic_aux (p : String) (fuel : Nat) :
    FindProperty cyclicIndex p fuel "A" = none ∧ FindProperty cyclicIndex p fuel "B" = none := by
  induction fuel with
  | zero => simp [FindProperty]
  | succ n ih =>
    obtain ⟨ha, hb⟩ := ih
    have hA : cyclicIndex.GetClass "A" = some { emptyClass with Parent := "B" } := by decide
    have hB : cyclicIndex.GetClass "B" = some { emptyClass with Parent := "A" } := by decide
    constructor
    · rw [FindProperty, hA]; simpa [emptyClass] using hb
    · rw [FindProperty, hB]; simpa [emptyClass] using ha

theorem implementsLoop_cyclic_aux (i : String) (fuel : Nat) :
    ∀ v, implementsLoop cyclicIndex i fuel "A" v = none ∧
      implementsLoop cyclicIndex i fuel "B" v = none := by
  induction fuel with
  | zero => intro v; simp [implementsLoop]
  | succ n ih =>
    intro v
    have hA : cyclicIndex.GetClass "A" = some { emptyClass with Parent := "B" } := by decide
    have hB : cyclicIndex.GetClass "B" = some { emptyClass with Parent := "A" } := by decide
    constructor
    · rw [implementsLoop, hA]; simpa [emptyClass, anyInterfaceExtends] using (ih v).2
    · rw [implementsLoop, hB]; simpa [emptyClass, anyInterfaceExtends] using (ih v).1

/-- C2 (the code diverges): on the index `class A extends B`, `class B extends A`
the lookups `FindProperty("A", p)` and `Implements("A", i)` never return, whatever
the property and interface names: no amount of fuel yields a result, while
`FindMethod` and `FindConstant`, which keep a guard of visited names, return. -/
theorem FindProperty_Implements_diverge (p i : String) (fuel : Nat) :
    FindProperty cyclicIndex p fuel "A" = none ∧ Implements cyclicIndex fuel "A" i = none ∧
    FindMethod cyclicIndex 3 "A" p = some (default, "", false) ∧
    FindConstant cyclicIndex 3 "A" p = some (default, "", false) := by
  refine ⟨(FindProperty_cyclic_aux p fuel).1, (implementsLoop_cyclic_aux i fuel [] ).1, ?_, ?_⟩
  · have hA : cyclicIndex.GetClass "A" = some { emptyClass with Parent := "B" } := by decide
    have hB : cyclicIndex.GetClass "B" = some { emptyClass with Parent := "A" } := by decide
    simp [FindMethod, findMethod, hA, hB, emptyClass, searchEach]
  · have hA : cyclicIndex.GetClass "A" = some { emptyClass with Parent := "B" } := by decide
    have hB : cyclicIndex.GetClass "B" = some { emptyClass with Parent := "A" } := by decide
    simp [FindConstant, findConstant, hA, hB, emptyClass, searchEach]

/-! ## Guards only grow, and bound the recursion -/

theorem unvisited_le_of_subset {α : Type} [DecidableEq α] (univ v w : List α) (h : v ⊆ w) :
    unvisited univ w ≤ unvisited univ v := by
  unfold unvisited
  apply Finset.card_le_card
  apply Finset.sdiff_subset_sdiff (Finset.Subset.refl _)
  intro x hx
  simp only [List.mem_toFinset] at hx ⊢
  exact h hx

theorem unvisited_cons_lt {α : Type} [DecidableEq α] (univ v : List α) (c : α)
    (hc : c ∈ univ) (hv : c ∉ v) : unvisited univ (c :: v) < unvisited univ v := by
  unfold unvisited
  apply Finset.card_lt_card
  rw [Finset.ssubset_iff_of_subset]
  · refine ⟨c, ?_, ?_⟩
    · simp [hc, hv]
    · simp
  · apply Finset.sdiff_subset_sdiff (Finset.Subset.refl _)
    intro x hx
    simp only [List.mem_toFinset, List.mem_cons] at hx ⊢
    exact Or.inr hx

theorem unvisited_le_length {α : Type} [DecidableEq α] (univ v : List α) :
    unvisited univ v ≤ univ.length := by
  unfold unvisited
  calc (univ.toFinset \ v.toFinset).card ≤ univ.toFinset.card :=
        Finset.card_le_card Finset.sdiff_subset
    _ ≤ univ.length := List.toFinset_card_le univ

theorem lookup_mem_keys {β : Type} (l : List (String × β)) (k : String) (b : β)
    (h : l.lookup k = some b) : k ∈ l.map Prod.fst := by
  induction l with
  | nil => simp at h
  | cons kv rest ih =>
    obtain ⟨k1, b1⟩ := kv
    rw [List.lookup_cons] at h
    by_cases hk : k = k1
    · simp [hk]
    · have : (k == k1) = false := by simpa using hk
      rw [this] at h
      simp only [List.map_cons, List.mem_cons]
      exact Or.inr (ih h)

theorem lookup_mem {β : Type} (l : List (String × β)) (k : String) (b : β)
    (h : l.lookup k = some b) : (k, b) ∈ l := by
  induction l with
  | nil => simp at h
  | cons kv rest ih =>
    obtain ⟨k1, b1⟩ := kv
    rw [List.lookup_cons] at h
    by_cases hk : k = k1
    · have : (k == k1) = true := by simpa using hk
      rw [this] at h
      simp only [Option.some.injEq] at h
      simp [hk, h]
    · have : (k == k1) = false := by simpa using hk
      rw [this] at h
      exact List.mem_cons_of_mem _ (ih h)

theorem node_mem_nodeNames (idx : Info) (c : String) (cls : ClassInfo)
    (h : idx.node c = some cls) : c ∈ idx.nodeNames := by
  unfold Info.node Info.GetClass Info.GetTrait at h
  unfold Info.nodeNames
  rw [List.mem_append]
  cases hc : idx.classes.lookup c with
  | some d => exact Or.inl (lookup_mem_keys _ _ _ hc)
  | none =>
    rw [hc] at h
    exact Or.inr (lookup_mem_keys _ _ _ (by simpa using h))

theorem searchEach_returns {α : Type}
    (rec : String → List String → Option ((α × String × Bool) × List String))
    (P : List String → Prop) (hP : ∀ v w, v ⊆ w → P v → P w)
    (hrec : ∀ x v, P v → ∃ r w, rec x v = some (r, w) ∧ v ⊆ w)
    (xs : List String) (cur : α × String × Bool) (v : List String) (hv : P v) :
    ∃ r w, searchEach rec xs cur v = some (r, w) ∧ v ⊆ w := by
  induction xs generalizing cur v with
  | nil => exact ⟨cur, v, rfl, List.Subset.refl _⟩
  | cons x xs ih =>
    obtain ⟨⟨a, impl, ok⟩, w, hx, hsub⟩ := hrec x v hv
    unfold searchEach
    rw [hx]
    cases ok with
    | true => exact ⟨_, _, rfl, hsub⟩
    | false =>
      obtain ⟨r2, w2, h2, hsub2⟩ := ih (a, impl, false) w (hP v w hsub hv)
      exact ⟨r2, w2, h2, hsub.trans hsub2⟩

theorem searchEach_found {α : Type}
    (rec : String → List String → Option ((α × String × Bool) × List String))
    (xs : List String) (a0 : α) (i0 : String) (v : List String)
    (r : α) (impl : String) (w : List String)
    (h : searchEach rec xs (a0, i0, false) v = some ((r, impl, true), w)) :
    ∃ x ∈ xs, ∃ v1, rec x v1 = some ((r, impl, true), w) := by
  induction xs generalizing a0 i0 v with
  | nil => simp [searchEach] at h
  | cons x xs ih =>
    unfold searchEach at h
    cases hx : rec x v with
    | none => simp [hx] at h
    | some q =>
      rw [hx] at h
      obtain ⟨⟨a, i, ok⟩, w1⟩ := q
      cases ok with
      | true =>
        simp only [Option.some.injEq, Prod.mk.injEq, and_true] at h
        obtain ⟨⟨h1, h2⟩, h3⟩ := h
        subst h1 h2 h3
        exact ⟨x, List.mem_cons_self _ _, v, hx⟩
      | false =>
        obtain ⟨y, hy, v1, hv1⟩ := ih a i w1 h
        exact ⟨y, List.mem_cons_of_mem _ hy, v1, hv1⟩

/-! ## `findMethod`: termination and what a result means -/

theorem findMethod_returns (idx : Info) (methodName : String) (fuel : Nat) :
    ∀ (c : String) (res : FuncInfo) (v : List String), unvisited idx.nodeNames v < fuel →
      ∃ r w, findMethod idx methodName fuel c res v = some (r, w) ∧ v ⊆ w := by
  induction fuel with
  | zero => intro c res v h; omega
  | succ n ih =>
    intro c res v hfuel
    rw [findMethod]
    by_cases hv : c ∈ v
    · exact ⟨(res, "", false), v, by simp [hv], List.Subset.refl _⟩
    · simp only [hv, if_false]
      have hcv : v ⊆ c :: v := List.subset_cons_self c v
      cases hnode : (idx.GetClass c).orElse (fun _ => idx.GetTrait c) with
      | none => exact ⟨_, _, rfl, hcv⟩
      | some cls =>
        dsimp only
        cases cls.Methods.lookup methodName with
        | some d => exact ⟨_, _, rfl, hcv⟩
        | none =>
          dsimp only
          have hlt : unvisited idx.nodeNames (c :: v) < n := by
            have := unvisited_cons_lt idx.nodeNames v c (node_mem_nodeNames idx c cls hnode) hv
            omega
          have hP : ∀ v w : List String, v ⊆ w → unvisited idx.nodeNames v < n →
              unvisited idx.nodeNames w < n := fun v w hs hm =>
            lt_of_le_of_lt (unvisited_le_of_subset _ _ _ hs) hm
          have hrec : ∀ x w, unvisited idx.nodeNames w < n →
              ∃ r u, (fun t v => findMethod idx methodName n t default v) x w = some (r, u) ∧
                w ⊆ u := fun x w hw => ih x default w hw
          obtain ⟨⟨a1, i1, ok1⟩, w1, h1, hs1⟩ :=
            searchEach_returns _ _ hP hrec cls.Traits (default, "", false) (c :: v) hlt
          rw [h1]
          cases ok1 with
          | true => exact ⟨_, _, rfl, hcv.trans hs1⟩
          | false =>
            dsimp only
            obtain ⟨⟨a2, i2, ok2⟩, w2, h2, hs2⟩ :=
              searchEach_returns _ _ hP hrec cls.ParentInterfaces (a1, i1, false) w1
                (hP _ _ hs1 hlt)
            rw [h2]
            cases ok2 with
            | true => exact ⟨_, _, rfl, (hcv.trans hs1).trans hs2⟩
            | false =>
              dsimp only
              split
              · exact ⟨_, _, rfl, (hcv.trans hs1).trans hs2⟩
              · obtain ⟨r3, w3, h3, hs3⟩ := ih cls.Parent a2 w2 (hP _ _ (hs1.trans hs2) hlt)
                exact ⟨r3, w3, h3, ((hcv.trans hs1).trans hs2).trans hs3⟩

theorem FindMethod_returns (idx : Info) (fuel : Nat) (c m : String)
    (hfuel : idx.classes.length + idx.traits.length < fuel) :
    ∃ r, FindMethod idx fuel c m = some r := by
  have hb : unvisited idx.nodeNames [] < fuel := by
    have h1 := unvisited_le_length idx.nodeNames []
    have h2 : idx.nodeNames.length = idx.classes.length + idx.traits.length := by
      simp [Info.nodeNames]
    omega
  obtain ⟨r, w, h, -⟩ := findMethod_returns idx m fuel c default [] hb
  exact ⟨r, by simp [FindMethod, h]⟩

theorem findMethod_found (idx : Info) (methodName : String) (fuel : Nat) :
    ∀ (c : String) (res : FuncInfo) (v : List String) (r : FuncInfo) (impl : String)
      (w : List String),
      findMethod idx methodName fuel c res v = some ((r, impl, true), w) →
      ∃ cls, Reach idx c impl ∧ idx.node impl = some cls ∧
        cls.Methods.lookup methodName = some r := by
  induction fuel with
  | zero => intro c res v r impl w h; simp [findMethod] at h
  | succ n ih =>
    intro c res v r impl w h
    rw [findMethod] at h
    by_cases hv : c ∈ v
    · simp [hv] at h
    · simp only [hv, if_false] at h
      cases hnode : (idx.GetClass c).orElse (fun _ => idx.GetTrait c) with
      | none => simp [hnode] at h
      | some cls =>
        rw [hnode] at h
        dsimp only at h
        cases hm : cls.Methods.lookup methodName with
        | some d =>
          rw [hm] at h
          simp only [Option.some.injEq, Prod.mk.injEq, and_true] at h
          obtain ⟨⟨h1, h2⟩, -⟩ := h
          subst h1 h2
          exact ⟨cls, Reach.refl c, hnode, hm⟩
        | none =>
          rw [hm] at h
          dsimp only at h
          cases h1 : searchEach (fun t v => findMethod idx methodName n t default v)
              cls.Traits (default, "", false) (c :: v) with
          | none => simp [h1] at h
          | some q1 =>
            rw [h1] at h
            obtain ⟨⟨a1, i1, ok1⟩, w1⟩ := q1
            cases ok1 with
            | true =>
              simp only [Option.some.injEq, Prod.mk.injEq, and_true] at h
              obtain ⟨⟨e1, e2⟩, e3⟩ := h
              subst e1 e2 e3
              obtain ⟨t, ht, v1, hv1⟩ := searchEach_found _ _ _ _ _ _ _ _ h1
              obtain ⟨d, hr, hd, hl⟩ := ih t default v1 _ _ _ hv1
              exact ⟨d, Reach.viaTrait c t _ cls hnode ht hr, hd, hl⟩
            | false =>
              dsimp only at h
              cases h2 : searchEach (fun t v => findMethod idx methodName n t default v)
                  cls.ParentInterfaces (a1, i1, false) w1 with
              | none => simp [h2] at h
              | some q2 =>
                rw [h2] at h
                obtain ⟨⟨a2, i2, ok2⟩, w2⟩ := q2
                cases ok2 with
                | true =>
                  simp only [Option.some.injEq, Prod.mk.injEq, and_true] at h
                  obtain ⟨⟨e1, e2⟩, e3⟩ := h
                  subst e1 e2 e3
                  obtain ⟨t, ht, v1, hv1⟩ := searchEach_found _ _ _ _ _ _ _ _ h2
                  obtain ⟨d, hr, hd, hl⟩ := ih t default v1 _ _ _ hv1
                  exact ⟨d, Reach.viaParentInterface c t _ cls hnode ht hr, hd, hl⟩
                | false =>
                  dsimp only at h
                  by_cases hp : cls.Parent = ""
                  · simp [hp] at h
                  · simp only [hp, if_false] at h
                    obtain ⟨d, hr, hd, hl⟩ := ih _ _ _ _ _ _ h
                    exact ⟨d, Reach.viaParent c _ cls hnode hp hr, hd, hl⟩

theorem findMethod_not_found (idx : Info) (methodName : String) (fuel : Nat) :
    ∀ (c : String) (res : FuncInfo) (v : List String) (r : FuncInfo) (impl : String)
      (w : List String),
      findMethod idx methodName fuel c res v = some ((r, impl, false), w) → impl = "" := by
  induction fuel with
  | zero => intro c res v r impl w h; simp [findMethod] at h
  | succ n ih =>
    intro c res v r impl w h
    rw [findMethod] at h
    by_cases hv : c ∈ v
    · simp only [hv, if_true, Option.some.injEq, Prod.mk.injEq] at h
      exact h.1.2.1.symm
    · simp only [hv, if_false] at h
      cases hnode : (idx.GetClass c).orElse (fun _ => idx.GetTrait c) with
      | none =>
        rw [hnode] at h
        simp only [Option.some.injEq, Prod.mk.injEq] at h
        exact h.1.2.1.symm
      | some cls =>
        rw [hnode] at h
        dsimp only at h
        cases hm : cls.Methods.lookup methodName with
        | some d => rw [hm] at h; simp at h
        | none =>
          rw [hm] at h
          dsimp only at h
          cases h1 : searchEach (fun t v => findMethod idx methodName n t default v)
              cls.Traits (default, "", false) (c :: v) with
          | none => simp [h1] at h
          | some q1 =>
            rw [h1] at h
            obtain ⟨⟨a1, i1, ok1⟩, w1⟩ := q1
            cases ok1 with
            | true => simp at h
            | false =>
              dsimp only at h
              cases h2 : searchEach (fun t v => findMethod idx methodName n t default v)
                  cls.ParentInterfaces (a1, i1, false) w1 with
              | none => simp [h2] at h
              | some q2 =>
                rw [h2] at h
                obtain ⟨⟨a2, i2, ok2⟩, w2⟩ := q2
                cases ok2 with
                | true => simp at h
                | false =>
                  dsimp only at h
                  by_cases hp : cls.Parent = ""
                  · simp only [hp, if_true, Option.some.injEq, Prod.mk.injEq] at h
                    exact h.1.2.1.symm
                  · simp only [hp, if_false] at h
                    exact ih _ _ _ _ _ _ h

/-- C3: `FindMethod` returns for every symbol index, start name and method name
(any fuel above the number of classes and traits suffices); and when `A` has parent
`B`, `B` has parent `A`, and no node that the search can pass through from `A`
declares `m`, the result is not-found: `ok = false` with an empty implementing
class name. -/
theorem FindMethod_terminates_cyclic_not_found :
    (∀ (idx : Info) (fuel : Nat) (c m : String),
      idx.classes.length + idx.traits.length < fuel →
      ∃ r, FindMethod idx fuel c m = some r) ∧
    (∀ (idx : Info) (fuel : Nat) (A B m : String) (ca cb : ClassInfo),
      idx.GetClass A = some ca → ca.Parent = B → idx.GetClass B = some cb → cb.Parent = A →
      (∀ n cls, Reach idx A n → idx.node n = some cls → cls.Methods.lookup m = none) →
      idx.classes.length + idx.traits.length < fuel →
      ∃ r, FindMethod idx fuel A m = some (r, "", false)) := by
  refine ⟨fun idx fuel c m h => FindMethod_returns idx fuel c m h, ?_⟩
  intro idx fuel A B m ca cb _ _ _ _ hno hfuel
  have hb : unvisited idx.nodeNames [] < fuel := by
    have h1 := unvisited_le_length idx.nodeNames []
    have h2 : idx.nodeNames.length = idx.classes.length + idx.traits.length := by
      simp [Info.nodeNames]
    omega
  obtain ⟨⟨r, impl, ok⟩, w, h, -⟩ := findMethod_returns idx m fuel A default [] hb
  cases ok with
  | true =>
    obtain ⟨cls, hr, hn, hl⟩ := findMethod_found idx m fuel A default [] r impl w h
    rw [hno impl cls hr hn] at hl
    simp at hl
  | false =>
    have := findMethod_not_found idx m fuel A default [] r impl w h
    subst this
    exact ⟨r, by simp [FindMethod, h]⟩

theorem FindMethod_terminates_cyclic_not_found_witness :
    (∃ r, FindMethod zooIndex 3 "Dog" "make" = some r) ∧
    (∃ r, FindMethod cyclicIndex 3 "A" "m" = some (r, "", false)) := by
  refine ⟨FindMethod_terminates_cyclic_not_found.1 zooIndex 3 "Dog" "make" (by decide),
    FindMethod_terminates_cyclic_not_found.2 cyclicIndex 3 "A" "B" "m"
      { emptyClass with Parent := "B" } { emptyClass with Parent := "A" }
      (by decide) rfl (by decide) rfl ?_ (by decide)⟩
  intro n cls _ hn
  simp only [Info.node, Info.GetClass, Info.GetTrait, cyclicIndex, List.lookup] at hn
  by_cases h1 : n = "A"
  · subst h1
    simp at hn
    subst hn
    rfl
  · by_cases h2 : n = "B"
    · subst h2
      simp at hn
      subst hn
      rfl
    · have e1 : (n == "A") = false := by simpa using h1
      have e2 : (n == "B") = false := by simpa using h2
      simp [e1, e2] at hn

/-! ## `findConstant`: termination and what a result means -/

theorem findConstant_returns (idx : Info) (constName : String) (fuel : Nat) :
    ∀ (c : String) (res : ConstantInfo) (v : List String),
      unvisited (idx.classes.map Prod.fst) v < fuel →
      ∃ r w, findConstant idx constName fuel c res v = some (r, w) ∧ v ⊆ w := by
  induction fuel with
  | zero => intro c res v h; omega
  | succ n ih =>
    intro c res v hfuel
    rw [findConstant]
    by_cases hv : c ∈ v
    · exact ⟨(res, "", false), v, by simp [hv], List.Subset.refl _⟩
    · simp only [hv, if_false]
      have hcv : v ⊆ c :: v := List.subset_cons_self c v
      cases hnode : idx.GetClass c with
      | none => exact ⟨_, _, rfl, hcv⟩
      | some cls =>
        dsimp only
        have hlt : unvisited (idx.classes.map Prod.fst) (c :: v) < n := by
          have := unvisited_cons_lt (idx.classes.map Prod.fst) v c
            (lookup_mem_keys _ _ _ hnode) hv
          omega
        have hP : ∀ v w : List String, v ⊆ w → unvisited (idx.classes.map Prod.fst) v < n →
            unvisited (idx.classes.map Prod.fst) w < n := fun v w hs hm =>
          lt_of_le_of_lt (unvisited_le_of_subset _ _ _ hs) hm
        have hrec : ∀ x w, unvisited (idx.classes.map Prod.fst) w < n →
            ∃ r u, (fun t v => findConstant idx constName n t default v) x w = some (r, u) ∧
              w ⊆ u := fun x w hw => ih x default w hw
        obtain ⟨⟨a1, i1, ok1⟩, w1, h1, hs1⟩ :=
          searchEach_returns _ _ hP hrec cls.Interfaces (res, "", false) (c :: v) hlt
        rw [h1]
        cases ok1 with
        | true => exact ⟨_, _, rfl, hcv.trans hs1⟩
        | false =>
          dsimp only
          cases cls.Constants.lookup constName with
          | some d => exact ⟨_, _, rfl, hcv.trans hs1⟩
          | none =>
            dsimp only
            obtain ⟨⟨a2, i2, ok2⟩, w2, h2, hs2⟩ :=
              searchEach_returns _ _ hP hrec cls.ParentInterfaces (default, i1, false) w1
                (hP _ _ hs1 hlt)
            rw [h2]
            cases ok2 with
            | true => exact ⟨_, _, rfl, (hcv.trans hs1).trans hs2⟩
            | false =>
              dsimp only
              split
              · exact ⟨_, _, rfl, (hcv.trans hs1).trans hs2⟩
              · obtain ⟨r3, w3, h3, hs3⟩ := ih cls.Parent a2 w2 (hP _ _ (hs1.trans hs2) hlt)
                exact ⟨r3, w3, h3, ((hcv.trans hs1).trans hs2).trans hs3⟩

theorem searchEach_spec {α : Type}
    (rec : String → List String → Option ((α × String × Bool) × List String))
    (Q : List String → α → String → Prop) (I : String)
    (hQ : ∀ (v w : List String) (r : α) (impl : String), v ⊆ w → Q w r impl → Q v r impl)
    (hrec : ∀ x v r impl ok w, rec x v = some ((r, impl, ok), w) →
      v ⊆ w ∧ x ∈ w ∧ (ok = true → Q v r impl) ∧ (I ∉ v → I ∈ w → ok = true))
    (xs : List String) (a0 : α) (i0 : String) (v : List String)
    (r : α) (impl : String) (ok : Bool) (w : List String)
    (h : searchEach rec xs (a0, i0, false) v = some ((r, impl, ok), w)) :
    v ⊆ w ∧ (ok = false → ∀ x ∈ xs, x ∈ w) ∧ (ok = true → Q v r impl) ∧
      (I ∉ v → I ∈ w → ok = true) := by
  induction xs generalizing a0 i0 v with
  | nil =>
    simp only [searchEach, Option.some.injEq, Prod.mk.injEq] at h
    obtain ⟨⟨-, -, h3⟩, h4⟩ := h
    subst h3 h4
    exact ⟨List.Subset.refl _, by simp, by simp, fun h1 h2 => absurd h2 h1⟩
  | cons x xs ih =>
    unfold searchEach at h
    cases hx : rec x v with
    | none => simp [hx] at h
    | some q =>
      rw [hx] at h
      obtain ⟨⟨a, i, okx⟩, w1⟩ := q
      obtain ⟨p1, p2, p3, p4⟩ := hrec x v a i okx w1 hx
      cases okx with
      | true =>
        simp only [Option.some.injEq, Prod.mk.injEq] at h
        obtain ⟨⟨e1, e2, e3⟩, e4⟩ := h
        subst e1 e2 e3 e4
        exact ⟨p1, by simp, fun _ => p3 rfl, fun _ _ => rfl⟩
      | false =>
        obtain ⟨q1, q2, q3, q4⟩ := ih a i w1 h
        refine ⟨p1.trans q1, ?_, fun hok => hQ _ _ _ _ p1 (q3 hok), ?_⟩
        · intro hok y hy
          rcases List.mem_cons.mp hy with hy | hy
          · subst hy; exact q1 p2
          · exact q2 hok y hy
        · intro hv hw
          by_cases hIw : I ∈ w1
          · exact absurd (p4 hv hIw) (by simp)
          · exact q4 hIw hw

theorem findConstant_spec (idx : Info) (constName I : String)
    (hI : ∃ ci dI, idx.GetClass I = some ci ∧ ci.Constants.lookup constName = some dI)
    (fuel : Nat) :
    ∀ (c : String) (res : ConstantInfo) (v : List String) (r : ConstantInfo) (impl : String)
      (ok : Bool) (w : List String),
      findConstant idx constName fuel c res v = some ((r, impl, ok), w) →
      v ⊆ w ∧ c ∈ w ∧
      (ok = true → impl ∉ v ∧
        ∃ cls, idx.GetClass impl = some cls ∧ cls.Constants.lookup constName = some r) ∧
      (I ∉ v → I ∈ w → ok = true) := by
  obtain ⟨ci, dI, hci, hdI⟩ := hI
  induction fuel with
  | zero => intro c res v r impl ok w h; simp [findConstant] at h
  | succ n ih =>
    intro c res v r impl ok w h
    have hQ : ∀ (v w : List String) (r : ConstantInfo) (impl : String), v ⊆ w →
        (impl ∉ w ∧ ∃ cls, idx.GetClass impl = some cls ∧
          cls.Constants.lookup constName = some r) →
        (impl ∉ v ∧ ∃ cls, idx.GetClass impl = some cls ∧
          cls.Constants.lookup constName = some r) :=
      fun v w r impl hs hq => ⟨fun hm => hq.1 (hs hm), hq.2⟩
    have hrec : ∀ x v r impl ok w,
        (fun t v => findConstant idx constName n t default v) x v = some ((r, impl, ok), w) →
        v ⊆ w ∧ x ∈ w ∧ (ok = true → (impl ∉ v ∧ ∃ cls, idx.GetClass impl = some cls ∧
          cls.Constants.lookup constName = some r)) ∧ (I ∉ v → I ∈ w → ok = true) :=
      fun x v r impl ok w hx => ih x default v r impl ok w hx
    rw [findConstant] at h
    by_cases hv : c ∈ v
    · simp only [hv, if_true, Option.some.injEq, Prod.mk.injEq] at h
      obtain ⟨⟨-, -, e3⟩, e4⟩ := h
      subst e3 e4
      exact ⟨List.Subset.refl _, hv, by simp, fun h1 h2 => absurd h2 h1⟩
    · simp only [hv, if_false] at h
      have hcv : v ⊆ c :: v := List.subset_cons_self c v
      cases hnode : idx.GetClass c with
      | none =>
        rw [hnode] at h
        simp only [Option.some.injEq, Prod.mk.injEq] at h
        obtain ⟨⟨-, -, e3⟩, e4⟩ := h
        subst e3 e4
        refine ⟨hcv, List.mem_cons_self _ _, by simp, ?_⟩
        intro h1 h2
        rcases List.mem_cons.mp h2 with h2 | h2
        · subst h2; rw [hnode] at hci; simp at hci
        · exact absurd h2 h1
      | some cls =>
        rw [hnode] at h
        dsimp only at h
        cases h1 : searchEach (fun t v => findConstant idx constName n t default v)
            cls.Interfaces (res, "", false) (c :: v) with
        | none => simp [h1] at h
        | some q1 =>
          rw [h1] at h
          obtain ⟨⟨a1, i1, ok1⟩, w1⟩ := q1
          obtain ⟨s1, -, s3, s4⟩ := searchEach_spec _ _ I hQ hrec _ _ _ _ _ _ _ _ h1
          cases ok1 with
          | true =>
            simp only [Option.some.injEq, Prod.mk.injEq] at h
            obtain ⟨⟨e1, e2, e3⟩, e4⟩ := h
            subst e1 e2 e3 e4
            exact ⟨hcv.trans s1, s1 (List.mem_cons_self _ _), fun _ => hQ _ _ _ _ hcv (s3 rfl),
              fun _ _ => rfl⟩
          | false =>
            dsimp only at h
            have hIw1 : I ∉ v → I ≠ c → I ∉ w1 := by
              intro g1 g2 g3
              have : I ∉ c :: v := by
                intro g4
                rcases List.mem_cons.mp g4 with g4 | g4
                · exact g2 g4
                · exact g1 g4
              exact absurd (s4 this g3) (by simp)
            cases hm : cls.Constants.lookup constName with
            | some d =>
              rw [hm] at h
              simp only [Option.some.injEq, Prod.mk.injEq] at h
              obtain ⟨⟨e1, e2, e3⟩, e4⟩ := h
              subst e1 e2 e3 e4
              exact ⟨hcv.trans s1, s1 (List.mem_cons_self _ _),
                fun _ => ⟨hv, cls, hnode, hm⟩, fun _ _ => rfl⟩
            | none =>
              rw [hm] at h
              dsimp only at h
              have hIc : I ≠ c := by
                intro g
                subst g
                rw [hnode] at hci
                simp only [Option.some.injEq] at hci
                subst hci
                rw [hm] at hdI
                simp at hdI
              cases h2 : searchEach (fun t v => findConstant idx constName n t default v)
                  cls.ParentInterfaces (default, i1, false) w1 with
              | none => simp [h2] at h
              | some q2 =>
                rw [h2] at h
                obtain ⟨⟨a2, i2, ok2⟩, w2⟩ := q2
                obtain ⟨t1, -, t3, t4⟩ := searchEach_spec _ _ I hQ hrec _ _ _ _ _ _ _ _ h2
                cases ok2 with
                | true =>
                  simp only [Option.some.injEq, Prod.mk.injEq] at h
                  obtain ⟨⟨e1, e2, e3⟩, e4⟩ := h
                  subst e1 e2 e3 e4
                  exact ⟨(hcv.trans s1).trans t1, t1 (s1 (List.mem_cons_self _ _)),
                    fun _ => hQ _ _ _ _ (hcv.trans s1) (t3 rfl), fun _ _ => rfl⟩
                | false =>
                  dsimp only at h
                  have hIw2 : I ∉ v → I ∉ w2 := by
                    intro g1 g2
                    exact absurd (t4 (hIw1 g1 hIc) g2) (by simp)
                  by_cases hp : cls.Parent = ""
                  · simp only [hp, if_true, Option.some.injEq, Prod.mk.injEq] at h
                    obtain ⟨⟨-, -, e3⟩, e4⟩ := h
                    subst e3 e4
                    exact ⟨(hcv.trans s1).trans t1, t1 (s1 (List.mem_cons_self _ _)), by simp,
                      fun g1 g2 => absurd g2 (hIw2 g1)⟩
                  · simp only [hp, if_false] at h
                    obtain ⟨u1, -, u3, u4⟩ := ih _ _ _ _ _ _ _ h
                    exact ⟨((hcv.trans s1).trans t1).trans u1,
                      u1 (t1 (s1 (List.mem_cons_self _ _))),
                      fun hok => hQ _ _ _ _ ((hcv.trans s1).trans t1) (u3 hok),
                      fun g1 g2 => u4 (hIw2 g1) g2⟩

/-- C7 (as amended): when class `X` directly declares interface `I` (different from
`X`), `I` exists and declares constant `C` in its own table and `X` declares `C`
too, `FindConstant(X, C)` returns found, with the own declaration of `C` of a class
other than `X`; it is `I`'s declaration, with implementing class name `I`, when `I`
is the only interface of `X` and `I` itself declares no interfaces. -/
theorem FindConstant_interface_first (idx : Info) (fuel : Nat) (X I C : String)
    (cx ci : ClassInfo) (dI dX : ConstantInfo)
    (hX : idx.GetClass X = some cx) (hI : I ∈ cx.Interfaces) (hne : I ≠ X)
    (hci : idx.GetClass I = some ci) (hdI : ci.Constants.lookup C = some dI)
    (_hdX : cx.Constants.lookup C = some dX) (hfuel : idx.classes.length < fuel) :
    ∃ r impl, FindConstant idx fuel X C = some (r, impl, true) ∧ impl ≠ X ∧
      (∃ cls, idx.GetClass impl = some cls ∧ cls.Constants.lookup C = some r) ∧
      (cx.Interfaces = [I] → ci.Interfaces = [] → r = dI ∧ impl = I) := by
  have hb : unvisited (idx.classes.map Prod.fst) [] < fuel := by
    have h1 := unvisited_le_length (idx.classes.map Prod.fst) []
    simp only [List.length_map] at h1
    omega
  obtain ⟨⟨r, impl, ok⟩, w, h, -⟩ := findConstant_returns idx C fuel X default [] hb
  obtain ⟨n, rfl⟩ : ∃ n, fuel = n + 1 := ⟨fuel - 1, by omega⟩
  have hspec := fun c res v r impl ok w =>
    findConstant_spec idx C I ⟨ci, dI, hci, hdI⟩ n c res v r impl ok w
  have hQ : ∀ (v w : List String) (r : ConstantInfo) (impl : String), v ⊆ w →
      (impl ∉ w ∧ ∃ cls, idx.GetClass impl = some cls ∧ cls.Constants.lookup C = some r) →
      (impl ∉ v ∧ ∃ cls, idx.GetClass impl = some cls ∧ cls.Constants.lookup C = some r) :=
    fun v w r impl hs hq => ⟨fun hm => hq.1 (hs hm), hq.2⟩
  have hrec : ∀ x v r impl ok w,
      (fun t v => findConstant idx C n t default v) x v = some ((r, impl, ok), w) →
      v ⊆ w ∧ x ∈ w ∧ (ok = true → (impl ∉ v ∧ ∃ cls, idx.GetClass impl = some cls ∧
        cls.Constants.lookup C = some r)) ∧ (I ∉ v → I ∈ w → ok = true) :=
    fun x v r impl ok w hx => hspec x default v r impl ok w hx
  rw [findConstant] at h
  simp only [List.not_mem_nil, if_false, hX] at h
  cases h1 : searchEach (fun t v => findConstant idx C n t default v)
      cx.Interfaces (default, "", false) [X] with
  | none => simp [h1] at h
  | some q1 =>
    rw [h1] at h
    obtain ⟨⟨a1, i1, ok1⟩, w1⟩ := q1
    obtain ⟨-, s2, s3, s4⟩ := searchEach_spec _ _ I hQ hrec _ _ _ _ _ _ _ _ h1
    have hIX : I ∉ [X] := by simpa using hne
    have hok : ok1 = true := by
      cases ok1 with
      | true => rfl
      | false => exact s4 hIX (s2 rfl I hI)
    subst hok
    simp only [Option.some.injEq, Prod.mk.injEq] at h
    obtain ⟨⟨e1, e2, e3⟩, e4⟩ := h
    subst e1 e2 e3 e4
    obtain ⟨q1, q2⟩ := s3 rfl
    refine ⟨a1, i1, ?_, by simpa using q1, q2, ?_⟩
    · unfold FindConstant
      rw [findConstant]
      simp [hX, h1]
    · intro hone hnone
      rw [hone] at h1
      cases n with
      | zero => simp [searchEach, findConstant] at h1
      | succ m =>
        rw [searchEach, findConstant] at h1
        simp only [hIX, if_false, hci, hnone, searchEach, hdI, Option.some.injEq,
          Prod.mk.injEq] at h1
        exact ⟨h1.1.1.symm, h1.1.2.1.symm⟩

theorem FindConstant_interface_first_witness :
    ∃ r impl, FindConstant plainConstantIndex 3 "X" "C" = some (r, impl, true) ∧ impl ≠ "X" ∧
      (∃ cls, plainConstantIndex.GetClass impl = some cls ∧
        cls.Constants.lookup "C" = some r) ∧
      (["I"] = ["I"] → ([] : List String) = [] → r = ⟨[.literal "i"]⟩ ∧ impl = "I") :=
  FindConstant_interface_first plainConstantIndex 3 "X" "I" "C"
    { emptyClass with Interfaces := ["I"], Constants := [("C", ⟨[.literal "x"]⟩)] }
    { emptyClass with Constants := [("C", ⟨[.literal "i"]⟩)] }
    ⟨[.literal "i"]⟩ ⟨[.literal "x"]⟩
    (by decide) (by decide) (by decide) (by decide) (by decide) (by decide) (by decide)

/-- C7 (the claim as stated fails): in `constantIndex` the class `X` declares `C`, its
only interface `I` exists and declares `C`, yet `FindConstant("X", "C")` returns the
declaration of `K`, an interface that `I` declares, with implementing class name
`K`, not `I`'s declaration with name `I`. -/
theorem FindConstant_only_interface_counterexample :
    ∃ cx ci dI dX, constantIndex.GetClass "X" = some cx ∧ cx.Interfaces = ["I"] ∧
      "I" ≠ "X" ∧ constantIndex.GetClass "I" = some ci ∧
      ci.Constants.lookup "C" = some dI ∧ cx.Constants.lookup "C" = some dX ∧
      FindConstant constantIndex 4 "X" "C" = some (⟨[.literal "k"]⟩, "K", true) ∧
      FindConstant constantIndex 4 "X" "C" ≠ some (dI, "I", true) :=
  ⟨{ emptyClass with Interfaces := ["I"], Constants := [("C", ⟨[.literal "x"]⟩)] },
    { emptyClass with Interfaces := ["K"], Constants := [("C", ⟨[.literal "i"]⟩)] },
    ⟨[.literal "i"]⟩, ⟨[.literal "x"]⟩,
    by decide, by decide, by decide, by decide, by decide, by decide, by decide, by decide⟩

/-! ## `Implements` along a parent chain -/

theorem anyExtends_returns (rec : String → List String → Option (Bool × List String))
    (parent : String) (P : List String → Prop) (hP : ∀ v w, v ⊆ w → P v → P w)
    (hrec : ∀ x v, P v → ∃ b w, rec x v = some (b, w) ∧ v ⊆ w)
    (xs : List String) (v : List String) (hv : P v) :
    ∃ b w, anyExtends rec parent xs v = some (b, w) ∧ v ⊆ w := by
  induction xs generalizing v with
  | nil => exact ⟨false, v, rfl, List.Subset.refl _⟩
  | cons x xs ih =>
    unfold anyExtends
    by_cases hx : x = parent
    · exact ⟨true, v, by simp [hx], List.Subset.refl _⟩
    · simp only [hx, if_false]
      obtain ⟨b, w, hb, hs⟩ := hrec x v hv
      rw [hb]
      cases b with
      | true => exact ⟨_, _, rfl, hs⟩
      | false =>
        obtain ⟨b2, w2, h2, hs2⟩ := ih w (hP v w hs hv)
        exact ⟨b2, w2, h2, hs.trans hs2⟩

theorem anyInterfaceExtends_returns (rec : String → List String → Option (Bool × List String))
    (P : List String → Prop) (hP : ∀ v w, v ⊆ w → P v → P w)
    (hrec : ∀ x v, P v → ∃ b w, rec x v = some (b, w) ∧ v ⊆ w)
    (xs : List String) (v : List String) (hv : P v) :
    ∃ b w, anyInterfaceExtends rec xs v = some (b, w) ∧ v ⊆ w := by
  induction xs generalizing v with
  | nil => exact ⟨false, v, rfl, List.Subset.refl _⟩
  | cons x xs ih =>
    unfold anyInterfaceExtends
    obtain ⟨b, w, hb, hs⟩ := hrec x v hv
    rw [hb]
    cases b with
    | true => exact ⟨_, _, rfl, hs⟩
    | false =>
      obtain ⟨b2, w2, h2, hs2⟩ := ih w (hP v w hs hv)
      exact ⟨b2, w2, h2, hs.trans hs2⟩

theorem interfaceExtends_returns (idx : Info) (parent : String) (fuel : Nat) :
    ∀ (orig : String) (v : List String), unvisited (idx.classes.map Prod.fst) v < fuel →
      ∃ b w, interfaceExtends idx parent fuel orig v = some (b, w) ∧ v ⊆ w := by
  induction fuel with
  | zero => intro orig v h; omega
  | succ n ih =>
    intro orig v hfuel
    rw [interfaceExtends]
    by_cases hv : orig ∈ v
    · exact ⟨false, v, by simp [hv], List.Subset.refl _⟩
    · simp only [hv, if_false]
      have hcv : v ⊆ orig :: v := List.subset_cons_self orig v
      cases hnode : idx.GetClass orig with
      | none => exact ⟨_, _, rfl, hcv⟩
      | some cls =>
        dsimp only
        have hlt : unvisited (idx.classes.map Prod.fst) (orig :: v) < n := by
          have := unvisited_cons_lt (idx.classes.map Prod.fst) v orig
            (lookup_mem_keys _ _ _ hnode) hv
          omega
        have hP : ∀ v w : List String, v ⊆ w → unvisited (idx.classes.map Prod.fst) v < n →
            unvisited (idx.classes.map Prod.fst) w < n := fun v w hs hm =>
          lt_of_le_of_lt (unvisited_le_of_subset _ _ _ hs) hm
        obtain ⟨b, w, hb, hs⟩ := anyExtends_returns (interfaceExtends idx parent n) parent _ hP
          (fun x w hw => ih x w hw) cls.ParentInterfaces (orig :: v) hlt
        exact ⟨b, w, hb, hcv.trans hs⟩

theorem implementsLoop_chain (idx : Info) (I X P : String) (k : Nat)
    (hchain : ParentChain idx X P k) (cp : ClassInfo) (hP : idx.GetClass P = some cp)
    (hI : I ∈ cp.Interfaces) :
    ∀ (fuel : Nat) (v : List String), k + idx.classes.length + 1 < fuel →
      implementsLoop idx I fuel X v = some true := by
  induction hchain with
  | here c cls hc =>
    intro fuel v hfuel
    obtain ⟨n, rfl⟩ : ∃ n, fuel = n + 1 := ⟨fuel - 1, by omega⟩
    rw [hc] at hP
    simp only [Option.some.injEq] at hP
    subst hP
    rw [implementsLoop, hc]
    simp [hI]
  | step c p n cls hc hpar _ ih =>
    intro fuel v hfuel
    obtain ⟨f, rfl⟩ : ∃ f, fuel = f + 1 := ⟨fuel - 1, by omega⟩
    rw [implementsLoop, hc]
    dsimp only
    by_cases hm : I ∈ cls.Interfaces
    · simp [hm]
    · simp only [hm, if_false]
      have hPm : ∀ v w : List String, v ⊆ w → unvisited (idx.classes.map Prod.fst) v < f →
          unvisited (idx.classes.map Prod.fst) w < f := fun v w hs hm =>
        lt_of_le_of_lt (unvisited_le_of_subset _ _ _ hs) hm
      have hv : unvisited (idx.classes.map Prod.fst) v < f := by
        have h1 := unvisited_le_length (idx.classes.map Prod.fst) v
        simp only [List.length_map] at h1
        omega
      obtain ⟨b, w, hb, -⟩ := anyInterfaceExtends_returns (interfaceExtends idx I f) _ hPm
        (fun x w hw => interfaceExtends_returns idx I f x w hw) cls.Interfaces v hv
      rw [hb]
      cases b with
      | true => rfl
      | false =>
        simp only [hpar, if_false]
        exact ih hP f w (by omega)

/-- C8: when class `X` exists, every class on the parent chain from `X` up to an
ancestor `P` exists, and `P` directly declares interface `I`, `Implements(X, I)`
returns true, for every amount of fuel above the length of the chain plus the
number of classes plus one; in particular when `P` is the direct parent of `X`. -/
theorem Implements_of_ancestor_declares (idx : Info) (X P I : String) (k fuel : Nat)
    (cp : ClassInfo) (hchain : ParentChain idx X P k) (hP : idx.GetClass P = some cp)
    (hI : I ∈ cp.Interfaces) (hfuel : k + idx.classes.length + 1 < fuel) :
    Implements idx fuel X I = some true :=
  implementsLoop_chain idx I X P k hchain cp hP hI fuel [] hfuel

theorem Implements_of_ancestor_declares_witness :
    Implements implementsIndex 5 "X" "I" = some true :=
  Implements_of_ancestor_declares implementsIndex "X" "P" "I" 1 5
    { emptyClass with Interfaces := ["I"] }
    (ParentChain.step "X" "P" 0 { emptyClass with Parent := "P" } (by decide) (by decide)
      (ParentChain.here "P" { emptyClass with Interfaces := ["I"] } (by decide)))
    (by decide) (by decide) (by decide)

/-! ## `resolveTypes`: union of the members, then the `empty_array` rule -/

theorem not_mem_degradeEmptyArray (U : List String) : "empty_array" ∉ degradeEmptyArray U := by
  unfold degradeEmptyArray
  by_cases h : "empty_array" ∈ U
  · simp only [h, if_true]
    split
    · simp
    · rw [mem_insertName]
      simp
  · simp [h]

theorem degradeEmptyArray_specialized (U : List String) (h : "empty_array" ∈ U)
    (hs : ∃ x ∈ U, x ≠ "empty_array" ∧ hasSuffix x "[]" = true) :
    degradeEmptyArray U = U.filter (fun tt => tt ≠ "empty_array") := by
  unfold degradeEmptyArray
  simp only [h, if_true]
  have : (U.filter (fun tt => tt ≠ "empty_array")).any (fun tt => hasSuffix tt "[]") = true := by
    obtain ⟨x, hx, hne, hsuf⟩ := hs
    rw [List.any_eq_true]
    exact ⟨x, by simp [List.mem_filter, hx, hne], hsuf⟩
  rw [if_pos this]

theorem degradeEmptyArray_generic (U : List String) (h : "empty_array" ∈ U)
    (hs : ¬ ∃ x ∈ U, x ≠ "empty_array" ∧ hasSuffix x "[]" = true) (x : String) :
    x ∈ degradeEmptyArray U ↔ (x ∈ U ∧ x ≠ "empty_array") ∨ x = "array" := by
  unfold degradeEmptyArray
  simp only [h, if_true]
  have : (U.filter (fun tt => tt ≠ "empty_array")).any (fun tt => hasSuffix tt "[]") = false := by
    rw [Bool.eq_false_iff]
    intro hany
    rw [List.any_eq_true] at hany
    obtain ⟨y, hy, hsuf⟩ := hany
    simp only [List.mem_filter, decide_eq_true_eq] at hy
    exact hs ⟨y, hy.1, hy.2, hsuf⟩
  simp only [this, Bool.false_eq_true, if_false, mem_insertName, List.mem_filter,
    decide_eq_true_eq]

/-! ## The expressions a resolution can reach -/

theorem self_mem_subExprs (t : TypeExpr) : t ∈ subExprs t := by
  cases t <;> simp [subExprs]

theorem subExprs_closed (t : TypeExpr) :
    (∀ i, TypeExpr.arrayOf i ∈ subExprs t → i ∈ subExprs t) ∧
    (∀ i, TypeExpr.elemOf i ∈ subExprs t → i ∈ subExprs t) ∧
    (∀ i m, TypeExpr.instanceMethodCall i m ∈ subExprs t → i ∈ subExprs t) ∧
    (∀ i q, TypeExpr.instancePropertyFetch i q ∈ subExprs t → i ∈ subExprs t) := by
  induction t with
  | arrayOf inner ih =>
    obtain ⟨h1, h2, h3, h4⟩ := ih
    simp only [subExprs, List.mem_cons, TypeExpr.arrayOf.injEq]
    refine ⟨?_, ?_, ?_, ?_⟩
    · rintro i (h | h)
      · subst h; exact Or.inr (self_mem_subExprs _)
      · exact Or.inr (h1 i h)
    · rintro i (h | h)
      · simp at h
      · exact Or.inr (h2 i h)
    · rintro i m (h | h)
      · simp at h
      · exact Or.inr (h3 i m h)
    · rintro i q (h | h)
      · simp at h
      · exact Or.inr (h4 i q h)
  | elemOf inner ih =>
    obtain ⟨h1, h2, h3, h4⟩ := ih
    simp only [subExprs, List.mem_cons, TypeExpr.elemOf.injEq]
    refine ⟨?_, ?_, ?_, ?_⟩
    · rintro i (h | h)
      · simp at h
      · exact Or.inr (h1 i h)
    · rintro i (h | h)
      · subst h; exact Or.inr (self_mem_subExprs _)
      · exact Or.inr (h2 i h)
    · rintro i m (h | h)
      · simp at h
      · exact Or.inr (h3 i m h)
    · rintro i q (h | h)
      · simp at h
      · exact Or.inr (h4 i q h)
  | instanceMethodCall expr methodName ih =>
    obtain ⟨h1, h2, h3, h4⟩ := ih
    simp only [subExprs, List.mem_cons, TypeExpr.instanceMethodCall.injEq]
    refine ⟨?_, ?_, ?_, ?_⟩
    · rintro i (h | h)
      · simp at h
      · exact Or.inr (h1 i h)
    · rintro i (h | h)
      · simp at h
      · exact Or.inr (h2 i h)
    · rintro i m (h | h)
      · obtain ⟨e1, -⟩ := h; subst e1; exact Or.inr (self_mem_subExprs _)
      · exact Or.inr (h3 i m h)
    · rintro i q (h | h)
      · simp at h
      · exact Or.inr (h4 i q h)
  | instancePropertyFetch expr propertyName ih =>
    obtain ⟨h1, h2, h3, h4⟩ := ih
    simp only [subExprs, List.mem_cons, TypeExpr.instancePropertyFetch.injEq]
    refine ⟨?_, ?_, ?_, ?_⟩
    · rintro i (h | h)
      · simp at h
      · exact Or.inr (h1 i h)
    · rintro i (h | h)
      · simp at h
      · exact Or.inr (h2 i h)
    · rintro i m (h | h)
      · simp at h
      · exact Or.inr (h3 i m h)
    · rintro i q (h | h)
      · obtain ⟨e1, -⟩ := h; subst e1; exact Or.inr (self_mem_subExprs _)
      · exact Or.inr (h4 i q h)
  | literal _ => simp [subExprs]
  | global _ => simp [subExprs]
  | constant _ => simp [subExprs]
  | functionCall _ => simp [subExprs]
  | baseMethodParam _ _ _ => simp [subExprs]
  | staticMethodCall _ _ => simp [subExprs]
  | staticPropertyFetch _ _ => simp [subExprs]

theorem mem_universe_of_root (idx : Info) (roots : List TypeExpr) (t : TypeExpr)
    (h : t ∈ roots) : t ∈ idx.universe roots := by
  unfold Info.universe
  rw [List.mem_flatMap]
  exact ⟨t, List.mem_append_left _ h, self_mem_subExprs t⟩

theorem mem_universe_of_allTypes (idx : Info) (roots : List TypeExpr) (t : TypeExpr)
    (h : t ∈ idx.allTypes) : t ∈ idx.universe roots := by
  unfold Info.universe
  rw [List.mem_flatMap]
  exact ⟨t, List.mem_append_right _ h, self_mem_subExprs t⟩

theorem method_types_mem_class (cls : ClassInfo) (m : String) (fn : FuncInfo)
    (h : cls.Methods.lookup m = some fn) : ∀ t ∈ fn.types, t ∈ cls.types := by
  intro t ht
  unfold ClassInfo.types
  rw [List.mem_append, List.mem_flatMap]
  exact Or.inl ⟨(m, fn), lookup_mem _ _ _ h, ht⟩

theorem node_types_mem_allTypes (idx : Info) (c : String) (cls : ClassInfo)
    (h : idx.node c = some cls) : ∀ t ∈ cls.types, t ∈ idx.allTypes := by
  intro t ht
  unfold Info.node Info.GetClass Info.GetTrait at h
  unfold Info.allTypes
  simp only [List.mem_append, List.mem_flatMap]
  cases hc : idx.classes.lookup c with
  | some d =>
    rw [hc] at h
    simp only [Option.orElse, Option.some.injEq] at h
    subst h
    exact Or.inl (Or.inl (Or.inl (Or.inl ⟨(c, d), lookup_mem _ _ _ hc, ht⟩)))
  | none =>
    rw [hc] at h
    simp only [Option.orElse] at h
    exact Or.inl (Or.inl (Or.inl (Or.inr ⟨(c, cls), lookup_mem _ _ _ h, ht⟩)))

theorem node_of_GetClass (idx : Info) (c : String) (cls : ClassInfo)
    (h : idx.GetClass c = some cls) : idx.node c = some cls := by
  simp [Info.node, h, Option.orElse]

theorem universe_closed (idx : Info) (roots : List TypeExpr) :
    Closed idx (idx.universe roots) := by
  have hlift : ∀ (t u : TypeExpr), (∀ r, t ∈ subExprs r → u ∈ subExprs r) →
      t ∈ idx.universe roots → u ∈ idx.universe roots := by
    intro t u h ht
    unfold Info.universe at ht ⊢
    rw [List.mem_flatMap] at ht ⊢
    obtain ⟨r, hr, hm⟩ := ht
    exact ⟨r, hr, h r hm⟩
  refine ⟨?_, ?_, ?_, ?_, ?_, ?_, ?_, ?_, ?_, ?_⟩
  · intro t ht
    exact hlift _ _ (fun r => (subExprs_closed r).1 t) ht
  · intro t ht
    exact hlift _ _ (fun r => (subExprs_closed r).2.1 t) ht
  · intro t m ht
    exact hlift _ _ (fun r => (subExprs_closed r).2.2.1 t m) ht
  · intro t q ht
    exact hlift _ _ (fun r => (subExprs_closed r).2.2.2 t q) ht
  · intro g tm h t ht
    apply mem_universe_of_allTypes
    unfold Info.allTypes
    simp only [List.mem_append, List.mem_flatMap]
    exact Or.inl (Or.inr ⟨(g, tm), lookup_mem _ _ _ h, ht⟩)
  · intro c ci h t ht
    apply mem_universe_of_allTypes
    unfold Info.allTypes
    simp only [List.mem_append, List.mem_flatMap]
    exact Or.inr ⟨(c, ci), lookup_mem _ _ _ h, ht⟩
  · intro f fn h t ht
    apply mem_universe_of_allTypes
    unfold Info.allTypes
    simp only [List.mem_append, List.mem_flatMap]
    exact Or.inl (Or.inl (Or.inr ⟨(f, fn), lookup_mem _ _ _ h, ht⟩))
  · intro c cls m fn hc hm t ht
    apply mem_universe_of_allTypes
    apply node_types_mem_allTypes idx c cls hc
    apply method_types_mem_class cls m fn hm
    unfold FuncInfo.types
    exact List.mem_append_left _ ht
  · intro c cls q pi hc hq t ht
    apply mem_universe_of_allTypes
    apply node_types_mem_allTypes idx c cls (node_of_GetClass idx c cls hc)
    unfold ClassInfo.types
    simp only [List.mem_append, List.mem_flatMap]
    exact Or.inr ⟨(q, pi), lookup_mem _ _ _ hq, ht⟩
  · intro c cls m fn i hc hm hi t ht
    apply mem_universe_of_allTypes
    apply node_types_mem_allTypes idx c cls (node_of_GetClass idx c cls hc)
    apply method_types_mem_class cls m fn hm
    unfold FuncInfo.types
    simp only [List.mem_append, List.mem_flatMap]
    refine Or.inr ⟨fn.Params.getD i default, ?_, ht⟩
    rw [List.getD_eq_getElem _ _ hi]
    exact List.getElem_mem hi

/-! ## `FindProperty` on acyclic parent chains -/

theorem FindProperty_found (idx : Info) (p : String) (fuel : Nat) :
    ∀ (c : String) (r : PropertyInfo) (impl : String),
      FindProperty idx p fuel c = some (r, impl, true) →
      ∃ cls, idx.GetClass impl = some cls ∧ cls.Properties.lookup p = some r := by
  induction fuel with
  | zero => intro c r impl h; simp [FindProperty] at h
  | succ n ih =>
    intro c r impl h
    rw [FindProperty] at h
    cases hc : idx.GetClass c with
    | none => simp [hc] at h
    | some cls =>
      rw [hc] at h
      dsimp only at h
      cases hl : cls.Properties.lookup p with
      | some d =>
        rw [hl] at h
        simp only [Option.some.injEq, Prod.mk.injEq, and_true] at h
        obtain ⟨e1, e2⟩ := h
        subst e1 e2
        exact ⟨cls, hc, hl⟩
      | none =>
        rw [hl] at h
        dsimp only at h
        by_cases hp : cls.Parent = ""
        · simp [hp] at h
        · simp only [hp, if_false] at h
          exact ih _ _ _ h

theorem exists_uniform_bound (P : Nat → String → Prop)
    (hmono : ∀ K L c, K ≤ L → P K c → P L c) (l : List String)
    (h : ∀ c ∈ l, ∃ K, P K c) : ∃ K, ∀ c ∈ l, P K c := by
  induction l with
  | nil => exact ⟨0, by simp⟩
  | cons a as ih =>
    obtain ⟨K1, h1⟩ := h a (List.mem_cons_self _ _)
    obtain ⟨K2, h2⟩ := ih (fun c hc => h c (List.mem_cons_of_mem _ hc))
    refine ⟨max K1 K2, ?_⟩
    intro c hc
    rcases List.mem_cons.mp hc with hc | hc
    · subst hc; exact hmono K1 _ _ (le_max_left _ _) h1
    · exact hmono K2 _ _ (le_max_right _ _) (h2 c hc)

theorem FindProperty_returns_of_class (idx : Info) (hac : AcyclicParents idx) :
    ∀ a : {c // c ∈ (idx.classes.map Prod.fst).toFinset},
      ∃ K, ∀ fuel, K ≤ fuel → ∀ p, ∃ r, FindProperty idx p fuel a.1 = some r := by
  have hwf : WellFounded (fun a b : {c // c ∈ (idx.classes.map Prod.fst).toFinset} =>
      Relation.TransGen (IsParentOf idx) a.1 b.1) := by
    haveI : IsTrans {c // c ∈ (idx.classes.map Prod.fst).toFinset}
        (fun a b => Relation.TransGen (IsParentOf idx) a.1 b.1) :=
      ⟨fun a b c h1 h2 => Relation.TransGen.trans h1 h2⟩
    haveI : IsIrrefl {c // c ∈ (idx.classes.map Prod.fst).toFinset}
        (fun a b => Relation.TransGen (IsParentOf idx) a.1 b.1) :=
      ⟨fun a h => hac a.1 h⟩
    exact Finite.wellFounded_of_trans_of_irrefl _
  intro a
  refine WellFounded.induction hwf
    (C := fun a => ∃ K, ∀ fuel, K ≤ fuel → ∀ p, ∃ r, FindProperty idx p fuel a.1 = some r) a ?_
  intro a ih
  cases hc : idx.GetClass a.1 with
  | none =>
    refine ⟨1, fun fuel hf p => ?_⟩
    obtain ⟨n, rfl⟩ : ∃ n, fuel = n + 1 := ⟨fuel - 1, by omega⟩
    rw [FindProperty, hc]
    exact ⟨_, rfl⟩
  | some cls =>
    by_cases hp : cls.Parent = ""
    · refine ⟨1, fun fuel hf p => ?_⟩
      obtain ⟨n, rfl⟩ : ∃ n, fuel = n + 1 := ⟨fuel - 1, by omega⟩
      rw [FindProperty, hc]
      dsimp only
      cases cls.Properties.lookup p with
      | some d => exact ⟨_, rfl⟩
      | none => simp [hp]
    · cases hq : idx.GetClass cls.Parent with
      | none =>
        refine ⟨2, fun fuel hf p => ?_⟩
        obtain ⟨n, rfl⟩ : ∃ n, fuel = n + 2 := ⟨fuel - 2, by omega⟩
        rw [FindProperty, hc]
        dsimp only
        cases cls.Properties.lookup p with
        | some d => exact ⟨_, rfl⟩
        | none =>
          simp only [hp, if_false]
          rw [FindProperty, hq]
          exact ⟨_, rfl⟩
      | some cq =>
        have hmem : cls.Parent ∈ (idx.classes.map Prod.fst).toFinset := by
          rw [List.mem_toFinset]
          exact lookup_mem_keys _ _ _ hq
        obtain ⟨K, hK⟩ := ih ⟨cls.Parent, hmem⟩
          (Relation.TransGen.single ⟨cls, hc, rfl, hp⟩)
        refine ⟨K + 1, fun fuel hf p => ?_⟩
        obtain ⟨n, rfl⟩ : ∃ n, fuel = n + 1 := ⟨fuel - 1, by omega⟩
        rw [FindProperty, hc]
        dsimp only
        cases cls.Properties.lookup p with
        | some d => exact ⟨_, rfl⟩
        | none =>
          simp only [hp, if_false]
          exact hK n (by omega) p

theorem FindProperty_returns_of_acyclic (idx : Info) (hac : AcyclicParents idx) :
    ∃ K, ∀ fuel, K ≤ fuel → ∀ c p, ∃ r, FindProperty idx p fuel c = some r := by
  obtain ⟨K, hK⟩ := exists_uniform_bound
    (fun K c => ∀ fuel, K ≤ fuel → ∀ p, ∃ r, FindProperty idx p fuel c = some r)
    (fun K L c hKL h fuel hf p => h fuel (le_trans hKL hf) p)
    (idx.classes.map Prod.fst)
    (fun c hc => FindProperty_returns_of_class idx hac ⟨c, List.mem_toFinset.mpr hc⟩)
  refine ⟨max K 1, fun fuel hf c p => ?_⟩
  cases hc : idx.GetClass c with
  | none =>
    obtain ⟨n, rfl⟩ : ∃ n, fuel = n + 1 := ⟨fuel - 1, by
      have := le_max_right K 1
      omega⟩
    rw [FindProperty, hc]
    exact ⟨_, rfl⟩
  | some cls =>
    exact hK c (lookup_mem_keys _ _ _ hc) fuel (le_trans (le_max_left K 1) hf) p

/-! ## The loops of the resolver return when their recursive calls do -/

theorem iterateTypes_returns (rt : String → TypeExpr → List TypeExpr → Option Resolved)
    (U : List TypeExpr) (P : List TypeExpr → Prop) (hP : ∀ v w, v ⊆ w → P v → P w)
    (hrt : ∀ cls t w, t ∈ U → P w → ∃ r u, rt cls t w = some (r, u) ∧ w ⊆ u)
    (cls : String) (m : TypesMap) (hm : ∀ t ∈ m, t ∈ U) :
    ∀ (res : List String) (v : List TypeExpr), P v →
      ∃ r w, iterateTypes rt cls m res v = some (r, w) ∧ v ⊆ w := by
  induction m with
  | nil => intro res v _; exact ⟨res, v, rfl, List.Subset.refl _⟩
  | cons t ts ih =>
    intro res v hv
    obtain ⟨r, u, h1, hs⟩ := hrt cls t v (hm t (List.mem_cons_self _ _)) hv
    obtain ⟨r2, w2, h2, hs2⟩ := ih (fun x hx => hm x (List.mem_cons_of_mem _ hx))
      (addAll res r) u (hP _ _ hs hv)
    refine ⟨r2, w2, ?_, hs.trans hs2⟩
    rw [iterateTypes, h1]
    exact h2

theorem resolveTypes_returns (rt : String → TypeExpr → List TypeExpr → Option Resolved)
    (U : List TypeExpr) (P : List TypeExpr → Prop) (hP : ∀ v w, v ⊆ w → P v → P w)
    (hrt : ∀ cls t w, t ∈ U → P w → ∃ r u, rt cls t w = some (r, u) ∧ w ⊆ u)
    (cls : String) (m : TypesMap) (hm : ∀ t ∈ m, t ∈ U) (v : List TypeExpr) (hv : P v) :
    ∃ r w, resolveTypes rt cls m v = some (r, w) ∧ v ⊆ w := by
  obtain ⟨r, w, h, hs⟩ := iterateTypes_returns rt U P hP hrt cls m hm [] v hv
  exact ⟨degradeEmptyArray r, w, by simp [resolveTypes, h], hs⟩

theorem FindMethod_found (idx : Info) (fuel : Nat) (c m : String) (info : FuncInfo)
    (impl : String) (h : FindMethod idx fuel c m = some (info, impl, true)) :
    ∃ cls, idx.node impl = some cls ∧ cls.Methods.lookup m = some info := by
  unfold FindMethod at h
  cases hq : findMethod idx m fuel c default [] with
  | none => simp [hq] at h
  | some q =>
    obtain ⟨⟨r, i, ok⟩, w⟩ := q
    rw [hq] at h
    simp only [Option.map_some', Option.some.injEq, Prod.mk.injEq] at h
    obtain ⟨e1, e2, e3⟩ := h
    subst e1 e2 e3
    obtain ⟨cls, -, h1, h2⟩ := findMethod_found idx m fuel c default [] _ _ _ hq
    exact ⟨cls, h1, h2⟩

theorem methodCallLoop_returns (idx : Info) (fuel : Nat)
    (rt : String → TypeExpr → List TypeExpr → Option Resolved) (methodName : String)
    (U : List TypeExpr) (hU : Closed idx U)
    (P : List TypeExpr → Prop) (hP : ∀ v w, v ⊆ w → P v → P w)
    (hrt : ∀ cls t w, t ∈ U → P w → ∃ r u, rt cls t w = some (r, u) ∧ w ⊆ u)
    (hM : ∀ c m, ∃ r, FindMethod idx fuel c m = some r) (cs : List String) :
    ∀ (res : List String) (v : List TypeExpr), P v →
      ∃ r w, methodCallLoop idx fuel rt methodName cs res v = some (r, w) ∧ v ⊆ w := by
  induction cs with
  | nil => intro res v _; exact ⟨res, v, rfl, List.Subset.refl _⟩
  | cons c cs ih =>
    intro res v hv
    obtain ⟨⟨info, impl, ok⟩, hf⟩ := hM c methodName
    rw [methodCallLoop, hf]
    cases ok with
    | true =>
      dsimp only
      obtain ⟨cls, h1, h2⟩ := FindMethod_found idx fuel c methodName info impl hf
      obtain ⟨r, u, hr, hs⟩ := resolveTypes_returns rt U P hP hrt c info.Typ
        (hU.method impl cls methodName info h1 h2) v hv
      rw [hr]
      obtain ⟨r2, w2, h3, hs2⟩ := ih (addBound c res r) u (hP _ _ hs hv)
      exact ⟨r2, w2, h3, hs.trans hs2⟩
    | false => exact ih res v hv

theorem propertyFetchLoop_returns (idx : Info) (fuel : Nat)
    (rt : String → TypeExpr → List TypeExpr → Option Resolved) (cls propertyName : String)
    (U : List TypeExpr) (hU : Closed idx U)
    (P : List TypeExpr → Prop) (hP : ∀ v w, v ⊆ w → P v → P w)
    (hrt : ∀ cls t w, t ∈ U → P w → ∃ r u, rt cls t w = some (r, u) ∧ w ⊆ u)
    (hM : ∀ c m, ∃ r, FindMethod idx fuel c m = some r)
    (hF : ∀ c q, ∃ r, FindProperty idx q fuel c = some r) (cs : List String) :
    ∀ (res : List String) (v : List TypeExpr), P v →
      ∃ r w, propertyFetchLoop idx fuel rt cls propertyName cs res v = some (r, w) ∧
        v ⊆ w := by
  induction cs with
  | nil => intro res v _; exact ⟨res, v, rfl, List.Subset.refl _⟩
  | cons c cs ih =>
    intro res v hv
    obtain ⟨⟨info, impl, ok⟩, hf⟩ := hF c propertyName
    rw [propertyFetchLoop, hf]
    cases ok with
    | true =>
      dsimp only
      obtain ⟨d, h1, h2⟩ := FindProperty_found idx propertyName fuel c info impl hf
      obtain ⟨r, u, hr, hs⟩ := resolveTypes_returns rt U P hP hrt cls info.Typ
        (hU.property impl d propertyName info h1 h2) v hv
      rw [hr]
      obtain ⟨r2, w2, h3, hs2⟩ := ih (addAll res r) u (hP _ _ hs hv)
      exact ⟨r2, w2, h3, hs.trans hs2⟩
    | false =>
      dsimp only
      obtain ⟨⟨get, gimpl, gok⟩, hg⟩ := hM c "__get"
      rw [hg]
      cases gok with
      | true =>
        dsimp only
        obtain ⟨d, h1, h2⟩ := FindMethod_found idx fuel c "__get" get gimpl hg
        exact resolveTypes_returns rt U P hP hrt cls get.Typ
          (hU.method gimpl d "__get" get h1 h2) v hv
      | false => exact ih res v hv

theorem baseMethodParamLoop_returns (idx : Info)
    (rt : String → TypeExpr → List TypeExpr → Option Resolved)
    (index : Nat) (methodName : String) (U : List TypeExpr) (hU : Closed idx U)
    (P : List TypeExpr → Prop) (hP : ∀ v w, v ⊆ w → P v → P w)
    (hrt : ∀ cls t w, t ∈ U → P w → ∃ r u, rt cls t w = some (r, u) ∧ w ⊆ u)
    (v : List TypeExpr) (hv : P v) (res : List String) (ifaces : List String) :
    ∃ r w, baseMethodParamLoop idx rt index methodName v res ifaces = some (r, w) ∧
      v ⊆ w := by
  induction ifaces with
  | nil => exact ⟨res, v, rfl, List.Subset.refl _⟩
  | cons i rest ih =>
    rw [baseMethodParamLoop]
    cases hi : idx.GetClass i with
    | none => exact ih
    | some iface =>
      dsimp only
      cases hm : iface.Methods.lookup methodName with
      | none => exact ih
      | some fn =>
        dsimp only
        by_cases hlen : fn.Params.length > index
        · simp only [hlen, if_true, ResolveTypesWith]
          exact resolveTypes_returns rt U P hP hrt "" _
            (hU.param i iface methodName fn index hi hm hlen) v hv
        · simp only [hlen, if_false]
          exact ih

/-! ## `resolveType` terminates -/

theorem lookupFunction_some (idx : Info) (nm : String) (fn : FuncInfo)
    (h : lookupFunction idx nm = some fn) : ∃ name, idx.GetFunction name = some fn := by
  unfold lookupFunction at h
  cases hf : idx.GetFunction nm with
  | some f =>
    rw [hf] at h
    exact ⟨nm, by rw [hf]; exact h⟩
  | none =>
    rw [hf] at h
    dsimp only at h
    by_cases hc : countBackslash nm > 1
    · simp only [hc, if_true] at h
      exact ⟨_, h⟩
    · simp [hc] at h

theorem resolveType_visited (idx : Info) (ord : MapOrder) (fuel : Nat) (cls : String)
    (typ : TypeExpr) (v : List TypeExpr) (hv : typ ∈ v) :
    resolveType idx ord (fuel + 1) cls typ v = some ([], v) := by
  cases typ <;> rw [resolveType] <;> simp [hv]

theorem resolveType_returns (idx : Info) (ord : MapOrder) (U : List TypeExpr)
    (hU : Closed idx U) (K : Nat)
    (hM : ∀ fuel, K ≤ fuel → ∀ c m, ∃ r, FindMethod idx fuel c m = some r)
    (hF : ∀ fuel, K ≤ fuel → ∀ c q, ∃ r, FindProperty idx q fuel c = some r) (fuel : Nat) :
    ∀ (cls : String) (typ : TypeExpr) (v : List TypeExpr), typ ∈ U →
      K + unvisited U v < fuel →
      ∃ r w, resolveType idx ord fuel cls typ v = some (r, w) ∧ v ⊆ w := by
  induction fuel with
  | zero => intro cls typ v _ h; omega
  | succ n ih =>
    intro cls typ v htU hfuel
    by_cases hv : typ ∈ v
    · exact ⟨[], v, resolveType_visited idx ord n cls typ v hv, List.Subset.refl _⟩
    · have hcv : v ⊆ typ :: v := List.subset_cons_self typ v
      have hlt : K + unvisited U (typ :: v) < n := by
        have := unvisited_cons_lt U v typ htU hv
        omega
      have hP : ∀ v w : List TypeExpr, v ⊆ w → K + unvisited U v < n →
          K + unvisited U w < n := fun v w hs hm => by
        have := unvisited_le_of_subset U v w hs
        omega
      have hrt : ∀ cls t w, t ∈ U → K + unvisited U w < n →
          ∃ r u, resolveType idx ord n cls t w = some (r, u) ∧ w ⊆ u :=
        fun cls t w ht hw => ih cls t w ht hw
      have hMn := hM n (by omega)
      have hFn := hF n (by omega)
      cases typ with
      | literal name =>
        rw [resolveType]
        simp only [hv, if_false]
        exact ⟨_, _, rfl, List.Subset.refl _⟩
      | global g =>
        rw [resolveType]
        simp only [hv, if_false]
        cases hg : idx.GetVarNameType g with
        | none => exact ⟨_, _, rfl, hcv⟩
        | some tm =>
          obtain ⟨r, w, hr, hs⟩ := resolveTypes_returns _ U _ hP hrt cls tm
            (hU.global g tm hg) _ hlt
          dsimp only
          rw [hr]
          exact ⟨_, _, rfl, hcv.trans hs⟩
      | constant c =>
        rw [resolveType]
        simp only [hv, if_false]
        cases hg : idx.GetConstant c with
        | none => exact ⟨_, _, rfl, hcv⟩
        | some ci =>
          obtain ⟨r, w, hr, hs⟩ := resolveTypes_returns _ U _ hP hrt cls ci.Typ
            (hU.constant c ci hg) _ hlt
          dsimp only
          rw [hr]
          exact ⟨_, _, rfl, hcv.trans hs⟩
      | arrayOf inner =>
        rw [resolveType]
        simp only [hv, if_false]
        obtain ⟨r, w, hr, hs⟩ := hrt cls inner _ (hU.arrayOf inner htU) hlt
        rw [hr]
        exact ⟨_, _, rfl, hcv.trans hs⟩
      | elemOf inner =>
        rw [resolveType]
        simp only [hv, if_false]
        obtain ⟨r, w, hr, hs⟩ := hrt cls inner _ (hU.elemOf inner htU) hlt
        rw [hr]
        exact ⟨_, _, rfl, hcv.trans hs⟩
      | functionCall nm =>
        rw [resolveType]
        simp only [hv, if_false]
        cases hf : lookupFunction idx nm with
        | none => exact ⟨_, _, rfl, hcv⟩
        | some fn =>
          obtain ⟨name, hname⟩ := lookupFunction_some idx nm fn hf
          obtain ⟨r, w, hr, hs⟩ := resolveTypes_returns _ U _ hP hrt cls fn.Typ
            (hU.function name fn hname) _ hlt
          exact ⟨r, w, hr, hcv.trans hs⟩
      | instanceMethodCall e m =>
        rw [resolveType]
        simp only [hv, if_false]
        obtain ⟨r, w, hr, hs⟩ := hrt cls e _ (hU.methodCall e m htU) hlt
        rw [hr]
        obtain ⟨r2, w2, h2, hs2⟩ := methodCallLoop_returns idx n _ m U hU _ hP hrt hMn
          (ord.order r) [] w (hP _ _ hs hlt)
        exact ⟨r2, w2, h2, (hcv.trans hs).trans hs2⟩
      | instancePropertyFetch e q =>
        rw [resolveType]
        simp only [hv, if_false]
        obtain ⟨r, w, hr, hs⟩ := hrt cls e _ (hU.propertyFetch e q htU) hlt
        rw [hr]
        obtain ⟨r2, w2, h2, hs2⟩ := propertyFetchLoop_returns idx n _ cls q U hU _ hP hrt
          hMn hFn (ord.order r) [] w (hP _ _ hs hlt)
        exact ⟨r2, w2, h2, (hcv.trans hs).trans hs2⟩
      | baseMethodParam index c m =>
        rw [resolveType]
        simp only [hv, if_false]
        unfold solveBaseMethodParam
        cases hc : idx.GetClass c with
        | none => exact ⟨_, _, rfl, hcv⟩
        | some d =>
          obtain ⟨r, w, hr, hs⟩ := baseMethodParamLoop_returns idx
            (resolveType idx ord n) index m U hU _ hP hrt _ hlt [] d.Interfaces
          exact ⟨r, w, hr, hcv.trans hs⟩
      | staticMethodCall c m =>
        rw [resolveType]
        simp only [hv, if_false]
        obtain ⟨⟨info, impl, ok⟩, hf⟩ := hMn c m
        rw [hf]
        cases ok with
        | false => exact ⟨_, _, rfl, hcv⟩
        | true =>
          dsimp only
          obtain ⟨d, h1, h2⟩ := FindMethod_found idx n c m info impl hf
          obtain ⟨r, w, hr, hs⟩ := resolveTypes_returns _ U _ hP hrt c info.Typ
            (hU.method impl d m info h1 h2) _ hlt
          rw [hr]
          exact ⟨_, _, rfl, hcv.trans hs⟩
      | staticPropertyFetch c q =>
        rw [resolveType]
        simp only [hv, if_false]
        obtain ⟨⟨info, impl, ok⟩, hf⟩ := hFn c q
        rw [hf]
        cases ok with
        | false => exact ⟨_, _, rfl, hcv⟩
        | true =>
          dsimp only
          obtain ⟨d, h1, h2⟩ := FindProperty_found idx q n c info impl hf
          obtain ⟨r, w, hr, hs⟩ := resolveTypes_returns _ U _ hP hrt cls info.Typ
            (hU.property impl d q info h1 h2) _ hlt
          exact ⟨r, w, hr, hcv.trans hs⟩

theorem resolver_bound (idx : Info) (hac : AcyclicParents idx) :
    ∃ K, (∀ fuel, K ≤ fuel → ∀ c m, ∃ r, FindMethod idx fuel c m = some r) ∧
      (∀ fuel, K ≤ fuel → ∀ c q, ∃ r, FindProperty idx q fuel c = some r) := by
  obtain ⟨KF, hKF⟩ := FindProperty_returns_of_acyclic idx hac
  refine ⟨max KF (idx.classes.length + idx.traits.length + 1), ?_, ?_⟩
  · intro fuel hf c m
    have := le_max_right KF (idx.classes.length + idx.traits.length + 1)
    exact FindMethod_returns idx fuel c m (by omega)
  · intro fuel hf c q
    exact hKF fuel (le_trans (le_max_left _ _) hf) c q

theorem acyclicParents_of_no_classes (idx : Info) (h : idx.classes = []) :
    AcyclicParents idx := by
  intro c hc
  have hno : ∀ p d, ¬ IsParentOf idx p d := by
    rintro p d ⟨cls, hcls, -, -⟩
    simp [Info.GetClass, h] at hcls
  cases hc with
  | single hs => exact hno _ _ hs
  | tail _ hs => exact hno _ _ hs

/-- C1: for every symbol index whose class parent chains are acyclic, every order of
visiting result maps, every context class, type expression and guard, `resolveType`
returns: every amount of fuel from some bound on yields a result.  Nothing is
assumed about how the declared types of global variables, constants, functions,
methods and properties refer to themselves or to each other. -/
theorem resolveType_terminates (idx : Info) (ord : MapOrder) (hac : AcyclicParents idx)
    (cls : String) (typ : TypeExpr) (visited : List TypeExpr) :
    ∃ fuel0, ∀ fuel, fuel0 ≤ fuel →
      ∃ r w, resolveType idx ord fuel cls typ visited = some (r, w) := by
  obtain ⟨K, hM, hF⟩ := resolver_bound idx hac
  refine ⟨K + unvisited (idx.universe [typ]) visited + 1, fun fuel hf => ?_⟩
  obtain ⟨r, w, h, -⟩ := resolveType_returns idx ord (idx.universe [typ])
    (universe_closed idx [typ]) K hM hF fuel cls typ visited
    (mem_universe_of_root idx [typ] typ (List.mem_singleton_self typ)) (by omega)
  exact ⟨r, w, h⟩

theorem resolveType_terminates_witness :
    ∃ fuel0, ∀ fuel, fuel0 ≤ fuel →
      ∃ r w, resolveType selfGlobalIndex MapOrder.insertion fuel "" (.arrayOf (.global "g")) []
        = some (r, w) :=
  resolveType_terminates selfGlobalIndex MapOrder.insertion
    (acyclicParents_of_no_classes selfGlobalIndex rfl) "" (.arrayOf (.global "g")) []

/-! ## `findMethod` is a complete search -/

theorem closedNode_mono (idx : Info) (m n : String) (w u : List String) (h : w ⊆ u)
    (hc : ClosedNode idx m n w) : ClosedNode idx m n u := by
  intro cls hn
  obtain ⟨h1, h2, h3, h4⟩ := hc cls hn
  exact ⟨h1, fun t ht => h (h2 t ht), fun q hq => h (h3 q hq), fun hp => h (h4 hp)⟩

theorem searchEach_closed {α : Type}
    (rec : String → List String → Option ((α × String × Bool) × List String))
    (C : String → List String → Prop)
    (hC : ∀ (n : String) (w u : List String), w ⊆ u → C n w → C n u)
    (hrec : ∀ x v r impl w, rec x v = some ((r, impl, false), w) →
      v ⊆ w ∧ x ∈ w ∧ ∀ n ∈ w, n ∉ v → C n w)
    (xs : List String) (a0 : α) (i0 : String) (v : List String)
    (r : α) (impl : String) (w : List String)
    (h : searchEach rec xs (a0, i0, false) v = some ((r, impl, false), w)) :
    v ⊆ w ∧ (∀ x ∈ xs, x ∈ w) ∧ ∀ n ∈ w, n ∉ v → C n w := by
  induction xs generalizing a0 i0 v with
  | nil =>
    simp only [searchEach, Option.some.injEq, Prod.mk.injEq] at h
    obtain ⟨-, h4⟩ := h
    subst h4
    exact ⟨List.Subset.refl _, by simp, fun n h1 h2 => absurd h1 h2⟩
  | cons x xs ih =>
    unfold searchEach at h
    cases hx : rec x v with
    | none => simp [hx] at h
    | some q =>
      rw [hx] at h
      obtain ⟨⟨a, i, okx⟩, w1⟩ := q
      cases okx with
      | true => simp at h
      | false =>
        obtain ⟨p1, p2, p3⟩ := hrec x v a i w1 hx
        obtain ⟨q1, q2, q3⟩ := ih a i w1 h
        refine ⟨p1.trans q1, ?_, ?_⟩
        · intro y hy
          rcases List.mem_cons.mp hy with hy | hy
          · subst hy; exact q1 p2
          · exact q2 y hy
        · intro n hn hnv
          by_cases hn1 : n ∈ w1
          · exact hC n w1 w q1 (p3 n hn1 hnv)
          · exact q3 n hn hn1

theorem findMethod_closed (idx : Info) (methodName : String) (fuel : Nat) :
    ∀ (c : String) (res : FuncInfo) (v : List String) (r : FuncInfo) (impl : String)
      (w : List String),
      findMethod idx methodName fuel c res v = some ((r, impl, false), w) →
      v ⊆ w ∧ c ∈ w ∧ ∀ n ∈ w, n ∉ v → ClosedNode idx methodName n w := by
  induction fuel with
  | zero => intro c res v r impl w h; simp [findMethod] at h
  | succ k ih =>
    intro c res v r impl w h
    have hrec : ∀ x v r impl w,
        (fun t v => findMethod idx methodName k t default v) x v = some ((r, impl, false), w) →
        v ⊆ w ∧ x ∈ w ∧ ∀ n ∈ w, n ∉ v → ClosedNode idx methodName n w :=
      fun x v r impl w hx => ih x default v r impl w hx
    have hC := closedNode_mono idx methodName
    rw [findMethod] at h
    by_cases hv : c ∈ v
    · simp only [hv, if_true, Option.some.injEq, Prod.mk.injEq] at h
      obtain ⟨-, e⟩ := h
      subst e
      exact ⟨List.Subset.refl _, hv, fun n h1 h2 => absurd h1 h2⟩
    · simp only [hv, if_false] at h
      have hcv : v ⊆ c :: v := List.subset_cons_self c v
      cases hnode : (idx.GetClass c).orElse (fun _ => idx.GetTrait c) with
      | none =>
        rw [hnode] at h
        simp only [Option.some.injEq, Prod.mk.injEq] at h
        obtain ⟨-, e⟩ := h
        subst e
        refine ⟨hcv, List.mem_cons_self _ _, ?_⟩
        intro n hn hnv
        rcases List.mem_cons.mp hn with hn | hn
        · subst hn
          intro cls hcls
          rw [Info.node, hnode] at hcls
          simp at hcls
        · exact absurd hn hnv
      | some cls =>
        rw [hnode] at h
        dsimp only at h
        cases hm : cls.Methods.lookup methodName with
        | some d => rw [hm] at h; simp at h
        | none =>
          rw [hm] at h
          dsimp only at h
          cases h1 : searchEach (fun t v => findMethod idx methodName k t default v)
              cls.Traits (default, "", false) (c :: v) with
          | none => simp [h1] at h
          | some q1 =>
            rw [h1] at h
            obtain ⟨⟨a1, i1, ok1⟩, w1⟩ := q1
            cases ok1 with
            | true => simp at h
            | false =>
              dsimp only at h
              obtain ⟨s1, s2, s3⟩ := searchEach_closed _ _ hC hrec _ _ _ _ _ _ _ h1
              cases h2 : searchEach (fun t v => findMethod idx methodName k t default v)
                  cls.ParentInterfaces (a1, i1, false) w1 with
              | none => simp [h2] at h
              | some q2 =>
                rw [h2] at h
                obtain ⟨⟨a2, i2, ok2⟩, w2⟩ := q2
                cases ok2 with
                | true => simp at h
                | false =>
                  dsimp only at h
                  obtain ⟨t1, t2, t3⟩ := searchEach_closed _ _ hC hrec _ _ _ _ _ _ _ h2
                  have hcw2 : c ∈ w2 := t1 (s1 (List.mem_cons_self _ _))
                  have hinner : ∀ n ∈ w2, n ∉ c :: v → ClosedNode idx methodName n w2 := by
                    intro n hn hnv
                    by_cases hn1 : n ∈ w1
                    · exact hC n w1 w2 t1 (s3 n hn1 hnv)
                    · exact t3 n hn hn1
                  by_cases hp : cls.Parent = ""
                  · simp only [hp, if_true, Option.some.injEq, Prod.mk.injEq] at h
                    obtain ⟨-, e⟩ := h
                    subst e
                    refine ⟨(hcv.trans s1).trans t1, hcw2, ?_⟩
                    intro n hn hnv
                    by_cases hnc : n = c
                    · subst hnc
                      intro cls2 hcls2
                      rw [Info.node, hnode] at hcls2
                      simp only [Option.some.injEq] at hcls2
                      subst hcls2
                      exact ⟨hm, fun t ht => t1 (s2 t ht), t2, fun hne => absurd hp hne⟩
                    · exact hinner n hn (by simp [hnc, hnv])
                  · simp only [hp, if_false] at h
                    obtain ⟨u1, u2, u3⟩ := ih _ _ _ _ _ _ h
                    refine ⟨((hcv.trans s1).trans t1).trans u1, u1 hcw2, ?_⟩
                    intro n hn hnv
                    by_cases hn2 : n ∈ w2
                    · by_cases hnc : n = c
                      · subst hnc
                        intro cls2 hcls2
                        rw [Info.node, hnode] at hcls2
                        simp only [Option.some.injEq] at hcls2
                        subst hcls2
                        exact ⟨hm, fun t ht => u1 (t1 (s2 t ht)), fun q hq => u1 (t2 q hq),
                          fun _ => u2⟩
                      · exact hC n w2 w u1 (hinner n hn2 (by simp [hnc, hnv]))
                    · exact u3 n hn hn2

theorem reach_mem_of_closed (idx : Info) (m : String) (w : List String)
    (hw : ∀ n ∈ w, ClosedNode idx m n w) (a b : String) (hr : Reach idx a b) :
    a ∈ w → b ∈ w := by
  induction hr with
  | refl a => exact id
  | viaTrait a t b cls hn ht _ ih => exact fun ha => ih ((hw a ha cls hn).2.1 t ht)
  | viaParentInterface a q b cls hn hq _ ih => exact fun ha => ih ((hw a ha cls hn).2.2.1 q hq)
  | viaParent a b cls hn hp _ ih => exact fun ha => ih ((hw a ha cls hn).2.2.2 hp)

theorem FindMethod_complete (idx : Info) (fuel : Nat) (c m : String)
    (hfuel : idx.classes.length + idx.traits.length < fuel)
    (h : ∃ n cls d, Reach idx c n ∧ idx.node n = some cls ∧ cls.Methods.lookup m = some d) :
    ∃ d impl, FindMethod idx fuel c m = some (d, impl, true) := by
  have hb : unvisited idx.nodeNames [] < fuel := by
    have h1 := unvisited_le_length idx.nodeNames []
    have h2 : idx.nodeNames.length = idx.classes.length + idx.traits.length := by
      simp [Info.nodeNames]
    omega
  obtain ⟨⟨r, impl, ok⟩, w, hf, -⟩ := findMethod_returns idx m fuel c default [] hb
  cases ok with
  | true => exact ⟨r, impl, by simp [FindMethod, hf]⟩
  | false =>
    exfalso
    obtain ⟨-, hcw, hcl⟩ := findMethod_closed idx m fuel c default [] r impl w hf
    obtain ⟨n, cls, d, hr, hn, hd⟩ := h
    have hnw := reach_mem_of_closed idx m w (fun n hn => hcl n hn (by simp)) c n hr hcw
    have := (hcl n hnw (by simp) cls hn).1
    rw [this] at hd
    simp at hd

theorem FindMethod_sound (idx : Info) (fuel : Nat) (c m : String) (d : FuncInfo)
    (impl : String) (h : FindMethod idx fuel c m = some (d, impl, true)) :
    ∃ cls, Reach idx c impl ∧ idx.node impl = some cls ∧ cls.Methods.lookup m = some d := by
  unfold FindMethod at h
  cases hq : findMethod idx m fuel c default [] with
  | none => simp [hq] at h
  | some q =>
    obtain ⟨⟨r, i, ok⟩, w⟩ := q
    rw [hq] at h
    simp only [Option.map_some', Option.some.injEq, Prod.mk.injEq] at h
    obtain ⟨e1, e2, e3⟩ := h
    subst e1 e2 e3
    exact findMethod_found idx m fuel c default [] _ _ _ hq

/-- C20: `FindMethod` is a complete search.  With fuel above the number of classes and
traits, `FindMethod(c, m)` returns found if and only if some node reachable from `c`
over parent, trait and parent-interface edges out of nodes that resolve in the index
declares `m` in its own method table; cycles hide no reachable declaration. -/
theorem FindMethod_found_iff_reachable (idx : Info) (fuel : Nat) (c m : String)
    (hfuel : idx.classes.length + idx.traits.length < fuel) :
    (∃ d impl, FindMethod idx fuel c m = some (d, impl, true)) ↔
    (∃ n cls d, Reach idx c n ∧ idx.node n = some cls ∧ cls.Methods.lookup m = some d) := by
  constructor
  · rintro ⟨d, impl, h⟩
    obtain ⟨cls, h1, h2, h3⟩ := FindMethod_sound idx fuel c m d impl h
    exact ⟨impl, cls, d, h1, h2, h3⟩
  · exact FindMethod_complete idx fuel c m hfuel

theorem FindMethod_found_iff_reachable_witness :
    (∃ d impl, FindMethod traitIndex 3 "C" "m" = some (d, impl, true)) ↔
    (∃ n cls d, Reach traitIndex "C" n ∧ traitIndex.node n = some cls ∧
      cls.Methods.lookup "m" = some d) :=
  FindMethod_found_iff_reachable traitIndex 3 "C" "m" (by decide)

/-- C12: when `FindMethod(c, m)` returns found with declaration `d` and implementing
name `impl`, then `impl`, looked up as a class and else as a trait, is a node whose own
method table maps `m` to `d`.  When `c` itself declares `m`, the result is `c` with its
own declaration; when `c` does not declare `m` and a mixed-in trait `T` is the only
node reachable from `c` that does, the result is `T` with its declaration. -/
theorem FindMethod_implementing_class :
    (∀ (idx : Info) (fuel : Nat) (c m : String) (d : FuncInfo) (impl : String),
      FindMethod idx fuel c m = some (d, impl, true) →
      ∃ cls, idx.node impl = some cls ∧ cls.Methods.lookup m = some d) ∧
    (∀ (idx : Info) (fuel : Nat) (c m : String) (cls : ClassInfo) (d : FuncInfo),
      idx.node c = some cls → cls.Methods.lookup m = some d →
      FindMethod idx (fuel + 1) c m = some (d, c, true)) ∧
    (∀ (idx : Info) (fuel : Nat) (c m T : String) (cls ct : ClassInfo) (d : FuncInfo),
      idx.node c = some cls → cls.Methods.lookup m = none → T ∈ cls.Traits →
      idx.node T = some ct → ct.Methods.lookup m = some d →
      (∀ n cn dn, Reach idx c n → idx.node n = some cn → cn.Methods.lookup m = some dn →
        n = T) →
      idx.classes.length + idx.traits.length < fuel →
      FindMethod idx fuel c m = some (d, T, true)) := by
  refine ⟨?_, ?_, ?_⟩
  · intro idx fuel c m d impl h
    obtain ⟨cls, -, h1, h2⟩ := FindMethod_sound idx fuel c m d impl h
    exact ⟨cls, h1, h2⟩
  · intro idx fuel c m cls d hn hd
    unfold Info.node at hn
    unfold FindMethod
    rw [findMethod]
    simp [hn, hd]
  · intro idx fuel c m T cls ct d hn _ hT hnT hd honly hfuel
    obtain ⟨r, impl, hf⟩ := FindMethod_complete idx fuel c m hfuel
      ⟨T, ct, d, Reach.viaTrait c T T cls hn hT (Reach.refl T), hnT, hd⟩
    obtain ⟨ci, h1, h2, h3⟩ := FindMethod_sound idx fuel c m r impl hf
    have hi : impl = T := honly impl ci r h1 h2 h3
    subst hi
    rw [hnT] at h2
    simp only [Option.some.injEq] at h2
    subst h2
    rw [hd] at h3
    simp only [Option.some.injEq] at h3
    subst h3
    exact hf

theorem FindMethod_implementing_class_witness :
    (∃ cls, traitIndex.node "T" = some cls ∧
      cls.Methods.lookup "m" = some ⟨[], [.literal "int"]⟩) ∧
    FindMethod traitIndex (0 + 1) "T" "m" = some (⟨[], [.literal "int"]⟩, "T", true) ∧
    FindMethod traitIndex 3 "C" "m" = some (⟨[], [.literal "int"]⟩, "T", true) := by
  refine ⟨FindMethod_implementing_class.1 traitIndex 3 "C" "m" _ "T" (by decide),
    FindMethod_implementing_class.2.1 traitIndex 0 "T" "m"
      { emptyClass with Methods := [("m", ⟨[], [.literal "int"]⟩)] } _ (by decide) (by decide),
    FindMethod_implementing_class.2.2 traitIndex 3 "C" "m" "T"
      { emptyClass with Traits := ["T"] }
      { emptyClass with Methods := [("m", ⟨[], [.literal "int"]⟩)] } _
      (by decide) (by decide) (by decide) (by decide) (by decide) ?_ (by decide)⟩
  intro n cn dn _ hn hd
  by_cases h1 : n = "T"
  · exact h1
  · exfalso
    simp only [Info.node, Info.GetClass, Info.GetTrait, traitIndex, List.lookup] at hn
    have e1 : (n == "T") = false := by simpa using h1
    by_cases h2 : n = "C"
    · subst h2
      simp at hn
      subst hn
      simp [emptyClass] at hd
    · have e2 : (n == "C") = false := by simpa using h2
      simp [e1, e2] at hn

/-! ## Base method parameters share the caller's guard -/

theorem baseMethodParamLoop_skip (idx : Info)
    (rt : String → TypeExpr → List TypeExpr → Option Resolved) (index : Nat)
    (methodName : String) (v : List TypeExpr) (res : List String)
    (pre rest : List String)
    (hpre : ∀ J ∈ pre, ∀ cj fj, idx.GetClass J = some cj →
      cj.Methods.lookup methodName = some fj → fj.Params.length ≤ index) :
    baseMethodParamLoop idx rt index methodName v res (pre ++ rest)
      = baseMethodParamLoop idx rt index methodName v res rest := by
  induction pre with
  | nil => rfl
  | cons J pre ih =>
    have ih2 := ih (fun K hK => hpre K (List.mem_cons_of_mem _ hK))
    rw [List.cons_append, baseMethodParamLoop]
    cases hJ : idx.GetClass J with
    | none => exact ih2
    | some cj =>
      dsimp only
      cases hm : cj.Methods.lookup methodName with
      | none => exact ih2
      | some fj =>
        dsimp only
        have := hpre J (List.mem_cons_self _ _) cj fj hJ hm
        have hn : ¬ fj.Params.length > index := by omega
        simp only [hn, if_false]
        exact ih2

/-- C13 (as amended): resolving `BaseMethodParamRef(index, class, method)`, when the
first directly-declared interface of the class that exists and declares the method
with at least `index + 1` parameters is `I`, resolves that parameter's declared Type
Set with the empty context class under the caller's guard extended by the
`BaseMethodParamRef` expression itself; the guard is shared, not fresh. -/
theorem resolveType_baseMethodParam_shared_guard (idx : Info) (ord : MapOrder) (fuel : Nat)
    (cls : String) (index : Nat) (c m : String) (visited : List TypeExpr)
    (cinfo iface : ClassInfo) (fn : FuncInfo) (pre post : List String) (I : String)
    (hv : TypeExpr.baseMethodParam index c m ∉ visited)
    (hc : idx.GetClass c = some cinfo) (hI : cinfo.Interfaces = pre ++ I :: post)
    (hpre : ∀ J ∈ pre, ∀ cj fj, idx.GetClass J = some cj →
      cj.Methods.lookup m = some fj → fj.Params.length ≤ index)
    (hi : idx.GetClass I = some iface) (hf : iface.Methods.lookup m = some fn)
    (hlen : index < fn.Params.length) :
    resolveType idx ord (fuel + 1) cls (.baseMethodParam index c m) visited
      = resolveTypes (resolveType idx ord fuel) "" (fn.Params.getD index default).Typ
          (.baseMethodParam index c m :: visited) := by
  rw [resolveType]
  simp only [hv, if_false, solveBaseMethodParam, hc, hI]
  rw [baseMethodParamLoop_skip idx _ index m _ _ pre (I :: post) hpre, baseMethodParamLoop]
  simp only [hi, hf]
  have : fn.Params.length > index := hlen
  simp only [this, if_true, ResolveTypesWith]

theorem resolveType_baseMethodParam_shared_guard_witness :
    resolveType paramIndex MapOrder.insertion (2 + 1) "X" (.baseMethodParam 0 "C" "f")
        [.global "g"]
      = resolveTypes (resolveType paramIndex MapOrder.insertion 2) ""
          ((⟨[⟨[.global "g"]⟩], []⟩ : FuncInfo).Params.getD 0 default).Typ
          [.baseMethodParam 0 "C" "f", .global "g"] :=
  resolveType_baseMethodParam_shared_guard paramIndex MapOrder.insertion 2 "X" 0 "C" "f"
    [.global "g"] { emptyClass with Interfaces := ["I"] }
    { emptyClass with Methods := [("f", ⟨[⟨[.global "g"]⟩], []⟩)] }
    ⟨[⟨[.global "g"]⟩], []⟩ [] [] "I"
    (by decide) (by decide) (by decide) (by simp) (by decide) (by decide) (by decide)

/-- C13 (the claim as stated fails): in `paramIndex` the interface `I` of `C` declares
`f` with one parameter, typed `{GlobalVarRef g}`, and `g` has type `int`.  With the
caller's guard `{GlobalVarRef g}` the expression `BaseMethodParamRef(0, C, f)`
resolves to the empty set, while the parameter's Type Set resolves to `{int}` under
an empty guard: the member already in the caller's guard is not expanded. -/
theorem resolveType_baseMethodParam_counterexample :
    resolveType paramIndex MapOrder.insertion 3 "" (.baseMethodParam 0 "C" "f") [.global "g"]
      = some ([], [.baseMethodParam 0 "C" "f", .global "g"]) ∧
    resolveTypes (resolveType paramIndex MapOrder.insertion 2) "" [.global "g"] []
      = some (["int"], [.global "g"]) := by
  constructor <;> decide

/-! ## The magic getter ends the property fetch -/

theorem propertyFetchLoop_append (idx : Info) (fuel : Nat)
    (rt : String → TypeExpr → List TypeExpr → Option Resolved) (cls propertyName : String)
    (pre rest : List String)
    (hpre : ∀ x ∈ pre, (∃ i impl, FindProperty idx propertyName fuel x = some (i, impl, true)) ∨
      (∃ g impl, FindMethod idx fuel x "__get" = some (g, impl, false))) :
    ∀ (res0 : List String) (v0 : List TypeExpr) (res1 : List String) (v1 : List TypeExpr),
      propertyFetchLoop idx fuel rt cls propertyName pre res0 v0 = some (res1, v1) →
      propertyFetchLoop idx fuel rt cls propertyName (pre ++ rest) res0 v0
        = propertyFetchLoop idx fuel rt cls propertyName rest res1 v1 := by
  induction pre with
  | nil =>
    intro res0 v0 res1 v1 h
    simp only [propertyFetchLoop, Option.some.injEq, Prod.mk.injEq] at h
    obtain ⟨e1, e2⟩ := h
    subst e1 e2
    rfl
  | cons x pre ih =>
    intro res0 v0 res1 v1 h
    have ih2 := ih (fun y hy => hpre y (List.mem_cons_of_mem _ hy))
    rw [List.cons_append, propertyFetchLoop]
    rw [propertyFetchLoop] at h
    cases hp : FindProperty idx propertyName fuel x with
    | none => simp [hp] at h
    | some q =>
      obtain ⟨info, impl, ok⟩ := q
      rw [hp] at h
      cases ok with
      | true =>
        dsimp only at h ⊢
        cases hr : resolveTypes rt cls info.Typ v0 with
        | none => simp [hr] at h
        | some q2 =>
          obtain ⟨r, u⟩ := q2
          rw [hr] at h
          exact ih2 _ _ _ _ h
      | false =>
        dsimp only at h ⊢
        rcases hpre x (List.mem_cons_self _ _) with ⟨i, impl2, hfound⟩ | ⟨g, gimpl, hget⟩
        · rw [hp] at hfound
          simp at hfound
        · rw [hget] at h ⊢
          exact ih2 _ _ _ _ h

/-- C14: the magic getter short-circuits.  Resolving `InstancePropertyFetchRef(e, prop)`
visits the candidate classes of the receiver in some order `pre ++ c :: post`; when no
candidate in `pre` ends the loop, and on `c` the property is not found while `__get`
is, the call returns exactly `resolveTypes` of the getter's declared Type Set under
the outer context class, with the guard the candidates in `pre` left: the names
collected from `pre` are dropped and `post` is never examined. -/
theorem resolveType_magic_getter (idx : Info) (ord : MapOrder) (fuel : Nat)
    (cls prop : String) (e : TypeExpr) (visited : List TypeExpr)
    (classNames pre post : List String) (c : String) (v0 v1 : List TypeExpr)
    (res1 : List String) (pinfo : PropertyInfo) (pimpl : String) (get : FuncInfo)
    (gimpl : String)
    (hv : TypeExpr.instancePropertyFetch e prop ∉ visited)
    (hrecv : resolveType idx ord fuel cls e (.instancePropertyFetch e prop :: visited)
      = some (classNames, v0))
    (horder : ord.order classNames = pre ++ c :: post)
    (hpre : ∀ x ∈ pre, (∃ i impl, FindProperty idx prop fuel x = some (i, impl, true)) ∨
      (∃ g impl, FindMethod idx fuel x "__get" = some (g, impl, false)))
    (hloop : propertyFetchLoop idx fuel (resolveType idx ord fuel) cls prop pre [] v0
      = some (res1, v1))
    (hprop : FindProperty idx prop fuel c = some (pinfo, pimpl, false))
    (hget : FindMethod idx fuel c "__get" = some (get, gimpl, true)) :
    resolveType idx ord (fuel + 1) cls (.instancePropertyFetch e prop) visited
      = resolveTypes (resolveType idx ord fuel) cls get.Typ v1 := by
  rw [resolveType]
  simp only [hv, if_false, hrecv, horder]
  rw [propertyFetchLoop_append idx fuel _ cls prop pre (c :: post) hpre [] v0 res1 v1 hloop,
    propertyFetchLoop]
  simp only [hprop, hget]

theorem resolveType_magic_getter_witness :
    resolveType getterIndex MapOrder.insertion (3 + 1) "" (.instancePropertyFetch (.global "h") "p")
        []
      = resolveTypes (resolveType getterIndex MapOrder.insertion 3) ""
          (⟨[], [.literal "int"]⟩ : FuncInfo).Typ
          [.global "h", .instancePropertyFetch (.global "h") "p"] :=
  resolveType_magic_getter getterIndex MapOrder.insertion 3 "" "p" (.global "h") []
    ["A", "B", "D"] ["A"] ["D"] "B"
    [.global "h", .instancePropertyFetch (.global "h") "p"]
    [.global "h", .instancePropertyFetch (.global "h") "p"]
    ["Foo"] default "" ⟨[], [.literal "int"]⟩ "B"
    (by decide) (by decide) (by decide)
    (by
      intro x hx
      simp only [List.mem_singleton] at hx
      subst hx
      exact Or.inl ⟨⟨[.literal "Foo"]⟩, "A", by decide⟩)
    (by decide) (by decide) (by decide)

/-! ## The order of the members of a Type Set -/

theorem iterateTypes_iff_threaded (rt : String → TypeExpr → List TypeExpr → Option Resolved)
    (cls : String) (m : TypesMap) :
    ∀ (res0 : List String) (v : List TypeExpr) (U : List String) (w : List TypeExpr),
      iterateTypes rt cls m res0 v = some (U, w) ↔
      ∃ rs, Threaded rt cls m v rs w ∧ U = rs.foldl addAll res0 := by
  induction m with
  | nil =>
    intro res0 v U w
    simp only [iterateTypes, Option.some.injEq, Prod.mk.injEq]
    constructor
    · rintro ⟨e1, e2⟩
      subst e1 e2
      exact ⟨[], Threaded.nil v, rfl⟩
    · rintro ⟨rs, ht, hU⟩
      cases ht
      exact ⟨hU.symm, rfl⟩
  | cons t ts ih =>
    intro res0 v U w
    rw [iterateTypes]
    constructor
    · intro h
      cases ht : rt cls t v with
      | none => simp [ht] at h
      | some q =>
        obtain ⟨r, u⟩ := q
        rw [ht] at h
        obtain ⟨rs, hth, hU⟩ := (ih _ _ _ _).mp h
        exact ⟨r :: rs, Threaded.cons t ts v u w r rs ht hth, hU⟩
    · rintro ⟨rs, hth, hU⟩
      cases hth with
      | cons _ _ _ u _ r rs' ht hrest =>
        rw [ht]
        exact (ih _ _ _ _).mpr ⟨rs', hrest, hU⟩

theorem mem_degradeEmptyArray (U : List String) (x : String) :
    x ∈ degradeEmptyArray U ↔ (x ∈ U ∧ x ≠ "empty_array") ∨
      (x = "array" ∧ "empty_array" ∈ U ∧
        ¬ ∃ y ∈ U, y ≠ "empty_array" ∧ hasSuffix y "[]" = true) := by
  by_cases h : "empty_array" ∈ U
  · by_cases hs : ∃ y ∈ U, y ≠ "empty_array" ∧ hasSuffix y "[]" = true
    · rw [degradeEmptyArray_specialized U h hs]
      simp only [List.mem_filter, decide_eq_true_eq]
      constructor
      · exact fun hx => Or.inl hx
      · rintro (hx | ⟨-, -, hn⟩)
        · exact hx
        · exact absurd hs hn
    · rw [degradeEmptyArray_generic U h hs]
      constructor
      · rintro (hx | hx)
        · exact Or.inl hx
        · exact Or.inr ⟨hx, h, hs⟩
      · rintro (hx | ⟨hx, -, -⟩)
        · exact Or.inl hx
        · exact Or.inr hx
  · rw [degradeEmptyArray_of_not_mem U h]
    constructor
    · intro hx
      exact Or.inl ⟨hx, fun e => h (e ▸ hx)⟩
    · rintro (hx | ⟨-, hn, -⟩)
      · exact hx.1
      · exact absurd hn h

theorem mem_degradeEmptyArray_congr (U V : List String) (h : ∀ x, x ∈ U ↔ x ∈ V) (x : String) :
    x ∈ degradeEmptyArray U ↔ x ∈ degradeEmptyArray V := by
  simp only [mem_degradeEmptyArray, h]

theorem iterateTypes_literals (idx : Info) (ord : MapOrder) (fuel : Nat) (cls : String)
    (visited : List TypeExpr) (m : TypesMap)
    (hm : ∀ t ∈ m, (∃ n, t = TypeExpr.literal n) ∧ t ∉ visited) :
    ∀ res : List String, ∃ U,
      iterateTypes (resolveType idx ord (fuel + 1)) cls m res visited = some (U, visited) ∧
      ∀ x, x ∈ U ↔ x ∈ res ∨ TypeExpr.literal x ∈ m := by
  induction m with
  | nil => intro res; exact ⟨res, rfl, by simp⟩
  | cons t ts ih =>
    intro res
    obtain ⟨⟨n, hn⟩, hv⟩ := hm t (List.mem_cons_self _ _)
    subst hn
    obtain ⟨U, hU, hmem⟩ := ih (fun u hu => hm u (List.mem_cons_of_mem _ hu)) (addAll res [n])
    refine ⟨U, ?_, ?_⟩
    · rw [iterateTypes, resolveType_literal_eq idx ord fuel cls n visited hv]
      exact hU
    · intro x
      rw [hmem x, mem_addAll]
      simp only [List.mem_singleton, List.mem_cons, TypeExpr.literal.injEq]
      tauto

/-- C19 (as amended): `resolveTypes` visits the members in order and threads the guard:
its result is the union of the member results, each member resolved under the guard
the members before it left, with the `empty_array` rule applied.  For a Type Set of
literal names outside the guard the result is the same set of names in every visiting
order. -/
theorem resolveTypes_threaded_union :
    (∀ (idx : Info) (ord : MapOrder) (fuel : Nat) (cls : String) (m : TypesMap)
      (visited : List TypeExpr) (r : List String) (w : List TypeExpr),
      resolveTypes (resolveType idx ord fuel) cls m visited = some (r, w) ↔
      ∃ rs, Threaded (resolveType idx ord fuel) cls m visited rs w ∧
        r = degradeEmptyArray (rs.foldl addAll [])) ∧
    (∀ (idx : Info) (ord : MapOrder) (fuel : Nat) (cls : String) (m1 m2 : TypesMap)
      (visited : List TypeExpr), m1.Perm m2 →
      (∀ t ∈ m1, (∃ n, t = TypeExpr.literal n) ∧ t ∉ visited) →
      ∃ r1 r2,
        resolveTypes (resolveType idx ord (fuel + 1)) cls m1 visited = some (r1, visited) ∧
        resolveTypes (resolveType idx ord (fuel + 1)) cls m2 visited = some (r2, visited) ∧
        ∀ x, x ∈ r1 ↔ x ∈ r2) := by
  constructor
  · intro idx ord fuel cls m visited r w
    unfold resolveTypes
    constructor
    · intro h
      cases hit : iterateTypes (resolveType idx ord fuel) cls m [] visited with
      | none => simp [hit] at h
      | some q =>
        obtain ⟨U, u⟩ := q
        rw [hit] at h
        simp only [Option.some.injEq, Prod.mk.injEq] at h
        obtain ⟨e1, e2⟩ := h
        subst e1 e2
        obtain ⟨rs, hth, hU⟩ := (iterateTypes_iff_threaded _ _ _ _ _ _ _).mp hit
        exact ⟨rs, hth, by rw [hU]⟩
    · rintro ⟨rs, hth, hr⟩
      rw [(iterateTypes_iff_threaded _ _ _ _ _ _ _).mpr ⟨rs, hth, rfl⟩, hr]
  · intro idx ord fuel cls m1 m2 visited hperm hm
    have hm2 : ∀ t ∈ m2, (∃ n, t = TypeExpr.literal n) ∧ t ∉ visited :=
      fun t ht => hm t (hperm.mem_iff.mpr ht)
    obtain ⟨U1, h1, hmem1⟩ := iterateTypes_literals idx ord fuel cls visited m1 hm []
    obtain ⟨U2, h2, hmem2⟩ := iterateTypes_literals idx ord fuel cls visited m2 hm2 []
    refine ⟨degradeEmptyArray U1, degradeEmptyArray U2, by simp [resolveTypes, h1],
      by simp [resolveTypes, h2], ?_⟩
    apply mem_degradeEmptyArray_congr
    intro x
    rw [hmem1 x, hmem2 x, hperm.mem_iff]

theorem resolveTypes_threaded_union_witness :
    (resolveTypes (resolveType orderIndex MapOrder.insertion 3) ""
        [.global "g", .arrayOf (.global "g")] [] = some (["X"], [.arrayOf (.global "g"), .global "g"]) ↔
      ∃ rs, Threaded (resolveType orderIndex MapOrder.insertion 3) ""
          [.global "g", .arrayOf (.global "g")] [] rs [.arrayOf (.global "g"), .global "g"] ∧
        ["X"] = degradeEmptyArray (rs.foldl addAll [])) ∧
    (∃ r1 r2,
      resolveTypes (resolveType orderIndex MapOrder.insertion (0 + 1)) ""
        [.literal "int", .literal "empty_array"] [] = some (r1, []) ∧
      resolveTypes (resolveType orderIndex MapOrder.insertion (0 + 1)) ""
        [.literal "empty_array", .literal "int"] [] = some (r2, []) ∧
      ∀ x, x ∈ r1 ↔ x ∈ r2) :=
  ⟨resolveTypes_threaded_union.1 orderIndex MapOrder.insertion 3 ""
      [.global "g", .arrayOf (.global "g")] [] ["X"] [.arrayOf (.global "g"), .global "g"],
    resolveTypes_threaded_union.2 orderIndex MapOrder.insertion 0 ""
      [.literal "int", .literal "empty_array"] [.literal "empty_array", .literal "int"] []
      (List.Perm.swap _ _ _)
      (by
        intro t ht
        simp only [List.mem_cons, List.mem_singleton, List.not_mem_nil, or_false] at ht
        rcases ht with ht | ht
        · subst ht; exact ⟨⟨"int", rfl⟩, by simp⟩
        · subst ht; exact ⟨⟨"empty_array", rfl⟩, by simp⟩)⟩

/-- C19 (the claim as stated fails): with `global $g` of type `X`, the Type Set
`{GlobalVarRef g, ArrayOf(GlobalVarRef g)}` resolves to `{X}` when `GlobalVarRef g` is
visited first and to `{X[]}` when it is visited last: whichever member comes second
meets `GlobalVarRef g` in the guard and contributes nothing. -/
theorem resolveTypes_order_counterexample :
    [TypeExpr.global "g", .arrayOf (.global "g")].Perm [.arrayOf (.global "g"), .global "g"] ∧
    resolveTypes (resolveType orderIndex MapOrder.insertion 3) ""
      [.global "g", .arrayOf (.global "g")] []
      = some (["X"], [.arrayOf (.global "g"), .global "g"]) ∧
    resolveTypes (resolveType orderIndex MapOrder.insertion 3) ""
      [.arrayOf (.global "g"), .global "g"] []
      = some (["X[]"], [.global "g", .arrayOf (.global "g")]) :=
  ⟨List.Perm.swap _ _ _, by decide, by decide⟩

/-! ## Two runs of the resolver under related guards -/

theorem iterateTypes_sim (rt1 rt2 : String → TypeExpr → List TypeExpr → Option Resolved)
    (R : List TypeExpr → List TypeExpr → Prop)
    (hsim : ∀ cls t v1 v2 r w1, R v1 v2 → rt1 cls t v1 = some (r, w1) →
      ∃ w2, rt2 cls t v2 = some (r, w2) ∧ R w1 w2)
    (cls : String) (m : TypesMap) :
    ∀ (res : List String) (v1 v2 : List TypeExpr) (r : List String) (w1 : List TypeExpr),
      R v1 v2 → iterateTypes rt1 cls m res v1 = some (r, w1) →
      ∃ w2, iterateTypes rt2 cls m res v2 = some (r, w2) ∧ R w1 w2 := by
  induction m with
  | nil =>
    intro res v1 v2 r w1 hR h
    simp only [iterateTypes, Option.some.injEq, Prod.mk.injEq] at h
    obtain ⟨e1, e2⟩ := h
    subst e1 e2
    exact ⟨v2, rfl, hR⟩
  | cons t ts ih =>
    intro res v1 v2 r w1 hR h
    rw [iterateTypes] at h
    cases ht : rt1 cls t v1 with
    | none => simp [ht] at h
    | some q =>
      obtain ⟨r0, u1⟩ := q
      rw [ht] at h
      obtain ⟨u2, hu2, hR2⟩ := hsim cls t v1 v2 r0 u1 hR ht
      obtain ⟨w2, hw2, hR3⟩ := ih _ _ _ _ _ hR2 h
      exact ⟨w2, by rw [iterateTypes, hu2]; exact hw2, hR3⟩

theorem resolveTypes_sim (rt1 rt2 : String → TypeExpr → List TypeExpr → Option Resolved)
    (R : List TypeExpr → List TypeExpr → Prop)
    (hsim : ∀ cls t v1 v2 r w1, R v1 v2 → rt1 cls t v1 = some (r, w1) →
      ∃ w2, rt2 cls t v2 = some (r, w2) ∧ R w1 w2)
    (cls : String) (m : TypesMap) (v1 v2 : List TypeExpr) (r : List String)
    (w1 : List TypeExpr) (hR : R v1 v2) (h : resolveTypes rt1 cls m v1 = some (r, w1)) :
    ∃ w2, resolveTypes rt2 cls m v2 = some (r, w2) ∧ R w1 w2 := by
  unfold resolveTypes at h ⊢
  cases hit : iterateTypes rt1 cls m [] v1 with
  | none => simp [hit] at h
  | some q =>
    obtain ⟨U, u1⟩ := q
    rw [hit] at h
    simp only [Option.some.injEq, Prod.mk.injEq] at h
    obtain ⟨e1, e2⟩ := h
    subst e1 e2
    obtain ⟨w2, hw2, hR2⟩ := iterateTypes_sim rt1 rt2 R hsim cls m [] v1 v2 U u1 hR hit
    exact ⟨w2, by rw [hw2], hR2⟩

theorem methodCallLoop_sim (idx : Info) (fuel : Nat)
    (rt1 rt2 : String → TypeExpr → List TypeExpr → Option Resolved)
    (R : List TypeExpr → List TypeExpr → Prop)
    (hsim : ∀ cls t v1 v2 r w1, R v1 v2 → rt1 cls t v1 = some (r, w1) →
      ∃ w2, rt2 cls t v2 = some (r, w2) ∧ R w1 w2)
    (methodName : String) (cs : List String) :
    ∀ (res : List String) (v1 v2 : List TypeExpr) (r : List String) (w1 : List TypeExpr),
      R v1 v2 → methodCallLoop idx fuel rt1 methodName cs res v1 = some (r, w1) →
      ∃ w2, methodCallLoop idx fuel rt2 methodName cs res v2 = some (r, w2) ∧ R w1 w2 := by
  induction cs with
  | nil =>
    intro res v1 v2 r w1 hR h
    simp only [methodCallLoop, Option.some.injEq, Prod.mk.injEq] at h
    obtain ⟨e1, e2⟩ := h
    subst e1 e2
    exact ⟨v2, rfl, hR⟩
  | cons c cs ih =>
    intro res v1 v2 r w1 hR h
    rw [methodCallLoop] at h ⊢
    cases hf : FindMethod idx fuel c methodName with
    | none => simp [hf] at h
    | some q =>
      obtain ⟨info, impl, ok⟩ := q
      rw [hf] at h
      cases ok with
      | false => exact ih _ _ _ _ _ hR h
      | true =>
        dsimp only at h ⊢
        cases hr : resolveTypes rt1 c info.Typ v1 with
        | none => simp [hr] at h
        | some q2 =>
          obtain ⟨r0, u1⟩ := q2
          rw [hr] at h
          obtain ⟨u2, hu2, hR2⟩ := resolveTypes_sim rt1 rt2 R hsim c info.Typ v1 v2 r0 u1 hR hr
          rw [hu2]
          exact ih _ _ _ _ _ hR2 h

theorem propertyFetchLoop_sim (idx : Info) (fuel : Nat)
    (rt1 rt2 : String → TypeExpr → List TypeExpr → Option Resolved)
    (R : List TypeExpr → List TypeExpr → Prop)
    (hsim : ∀ cls t v1 v2 r w1, R v1 v2 → rt1 cls t v1 = some (r, w1) →
      ∃ w2, rt2 cls t v2 = some (r, w2) ∧ R w1 w2)
    (cls propertyName : String) (cs : List String) :
    ∀ (res : List String) (v1 v2 : List TypeExpr) (r : List String) (w1 : List TypeExpr),
      R v1 v2 → propertyFetchLoop idx fuel rt1 cls propertyName cs res v1 = some (r, w1) →
      ∃ w2, propertyFetchLoop idx fuel rt2 cls propertyName cs res v2 = some (r, w2) ∧
        R w1 w2 := by
  induction cs with
  | nil =>
    intro res v1 v2 r w1 hR h
    simp only [propertyFetchLoop, Option.some.injEq, Prod.mk.injEq] at h
    obtain ⟨e1, e2⟩ := h
    subst e1 e2
    exact ⟨v2, rfl, hR⟩
  | cons c cs ih =>
    intro res v1 v2 r w1 hR h
    rw [propertyFetchLoop] at h ⊢
    cases hf : FindProperty idx propertyName fuel c with
    | none => simp [hf] at h
    | some q =>
      obtain ⟨info, impl, ok⟩ := q
      rw [hf] at h
      cases ok with
      | true =>
        dsimp only at h ⊢
        cases hr : resolveTypes rt1 cls info.Typ v1 with
        | none => simp [hr] at h
        | some q2 =>
          obtain ⟨r0, u1⟩ := q2
          rw [hr] at h
          obtain ⟨u2, hu2, hR2⟩ :=
            resolveTypes_sim rt1 rt2 R hsim cls info.Typ v1 v2 r0 u1 hR hr
          rw [hu2]
          exact ih _ _ _ _ _ hR2 h
      | false =>
        dsimp only at h ⊢
        cases hg : FindMethod idx fuel c "__get" with
        | none => simp [hg] at h
        | some qg =>
          obtain ⟨get, gimpl, gok⟩ := qg
          rw [hg] at h
          cases gok with
          | true => exact resolveTypes_sim rt1 rt2 R hsim cls get.Typ v1 v2 r w1 hR h
          | false => exact ih _ _ _ _ _ hR h

theorem baseMethodParamLoop_sim (idx : Info)
    (rt1 rt2 : String → TypeExpr → List TypeExpr → Option Resolved)
    (R : List TypeExpr → List TypeExpr → Prop)
    (hsim : ∀ cls t v1 v2 r w1, R v1 v2 → rt1 cls t v1 = some (r, w1) →
      ∃ w2, rt2 cls t v2 = some (r, w2) ∧ R w1 w2)
    (index : Nat) (methodName : String) (v1 v2 : List TypeExpr) (hR : R v1 v2)
    (res : List String) (ifaces : List String) (r : List String) (w1 : List TypeExpr)
    (h : baseMethodParamLoop idx rt1 index methodName v1 res ifaces = some (r, w1)) :
    ∃ w2, baseMethodParamLoop idx rt2 index methodName v2 res ifaces = some (r, w2) ∧
      R w1 w2 := by
  induction ifaces with
  | nil =>
    simp only [baseMethodParamLoop, Option.some.injEq, Prod.mk.injEq] at h
    obtain ⟨e1, e2⟩ := h
    subst e1 e2
    exact ⟨v2, rfl, hR⟩
  | cons i rest ih =>
    rw [baseMethodParamLoop] at h ⊢
    cases hi : idx.GetClass i with
    | none => rw [hi] at h; exact ih h
    | some iface =>
      rw [hi] at h
      dsimp only at h ⊢
      cases hm : iface.Methods.lookup methodName with
      | none => rw [hm] at h; exact ih h
      | some fn =>
        rw [hm] at h
        dsimp only at h ⊢
        by_cases hlen : fn.Params.length > index
        · simp only [hlen, if_true, ResolveTypesWith] at h ⊢
          exact resolveTypes_sim rt1 rt2 R hsim "" _ v1 v2 r w1 hR h
        · simp only [hlen, if_false] at h ⊢
          exact ih h

theorem resolveType_step_sim (idx : Info) (ord : MapOrder) (n : Nat)
    (R : List TypeExpr → List TypeExpr → Prop)
    (hsim : ∀ cls t v1 v2 r w1, R v1 v2 → resolveType idx ord n cls t v1 = some (r, w1) →
      ∃ w2, resolveType idx ord n cls t v2 = some (r, w2) ∧ R w1 w2)
    (cls : String) (t : TypeExpr) (v1 v2 : List TypeExpr) (r : List String)
    (w1 : List TypeExpr) (h1 : t ∉ v1) (h2 : t ∉ v2) (hnl : ∀ nm, t ≠ TypeExpr.literal nm)
    (hR : R (t :: v1) (t :: v2))
    (hrun : resolveType idx ord (n + 1) cls t v1 = some (r, w1)) :
    ∃ w2, resolveType idx ord (n + 1) cls t v2 = some (r, w2) ∧ R w1 w2 := by
  cases t with
  | literal nm => exact absurd rfl (hnl nm)
  | global g =>
    rw [resolveType] at hrun ⊢
    simp only [h1, h2, if_false] at hrun ⊢
    cases hg : idx.GetVarNameType g with
    | none =>
      rw [hg] at hrun
      simp only [Option.some.injEq, Prod.mk.injEq] at hrun
      obtain ⟨e1, e2⟩ := hrun
      subst e1 e2
      exact ⟨_, rfl, hR⟩
    | some tm =>
      rw [hg] at hrun
      dsimp only at hrun ⊢
      cases hr : resolveTypes (resolveType idx ord n) cls tm (.global g :: v1) with
      | none => simp [hr] at hrun
      | some q =>
        obtain ⟨r0, u1⟩ := q
        rw [hr] at hrun
        simp only [Option.some.injEq, Prod.mk.injEq] at hrun
        obtain ⟨e1, e2⟩ := hrun
        subst e1 e2
        obtain ⟨u2, hu2, hR2⟩ := resolveTypes_sim _ _ R hsim cls tm _ _ r0 u1 hR hr
        rw [hu2]
        exact ⟨u2, rfl, hR2⟩
  | constant c =>
    rw [resolveType] at hrun ⊢
    simp only [h1, h2, if_false] at hrun ⊢
    cases hg : idx.GetConstant c with
    | none =>
      rw [hg] at hrun
      simp only [Option.some.injEq, Prod.mk.injEq] at hrun
      obtain ⟨e1, e2⟩ := hrun
      subst e1 e2
      exact ⟨_, rfl, hR⟩
    | some ci =>
      rw [hg] at hrun
      dsimp only at hrun ⊢
      cases hr : resolveTypes (resolveType idx ord n) cls ci.Typ (.constant c :: v1) with
      | none => simp [hr] at hrun
      | some q =>
        obtain ⟨r0, u1⟩ := q
        rw [hr] at hrun
        simp only [Option.some.injEq, Prod.mk.injEq] at hrun
        obtain ⟨e1, e2⟩ := hrun
        subst e1 e2
        obtain ⟨u2, hu2, hR2⟩ := resolveTypes_sim _ _ R hsim cls ci.Typ _ _ r0 u1 hR hr
        rw [hu2]
        exact ⟨u2, rfl, hR2⟩
  | arrayOf inner =>
    rw [resolveType] at hrun ⊢
    simp only [h1, h2, if_false] at hrun ⊢
    cases hr : resolveType idx ord n cls inner (.arrayOf inner :: v1) with
    | none => simp [hr] at hrun
    | some q =>
      obtain ⟨r0, u1⟩ := q
      rw [hr] at hrun
      simp only [Option.some.injEq, Prod.mk.injEq] at hrun
      obtain ⟨e1, e2⟩ := hrun
      subst e1 e2
      obtain ⟨u2, hu2, hR2⟩ := hsim cls inner _ _ r0 u1 hR hr
      rw [hu2]
      exact ⟨u2, rfl, hR2⟩
  | elemOf inner =>
    rw [resolveType] at hrun ⊢
    simp only [h1, h2, if_false] at hrun ⊢
    cases hr : resolveType idx ord n cls inner (.elemOf inner :: v1) with
    | none => simp [hr] at hrun
    | some q =>
      obtain ⟨r0, u1⟩ := q
      rw [hr] at hrun
      simp only [Option.some.injEq, Prod.mk.injEq] at hrun
      obtain ⟨e1, e2⟩ := hrun
      subst e1 e2
      obtain ⟨u2, hu2, hR2⟩ := hsim cls inner _ _ r0 u1 hR hr
      rw [hu2]
      exact ⟨u2, rfl, hR2⟩
  | functionCall nm =>
    rw [resolveType] at hrun ⊢
    simp only [h1, h2, if_false] at hrun ⊢
    cases hf : lookupFunction idx nm with
    | none =>
      rw [hf] at hrun
      simp only [Option.some.injEq, Prod.mk.injEq] at hrun
      obtain ⟨e1, e2⟩ := hrun
      subst e1 e2
      exact ⟨_, rfl, hR⟩
    | some fn =>
      rw [hf] at hrun
      exact resolveTypes_sim _ _ R hsim cls fn.Typ _ _ r w1 hR hrun
  | instanceMethodCall e m =>
    rw [resolveType] at hrun ⊢
    simp only [h1, h2, if_false] at hrun ⊢
    cases hr : resolveType idx ord n cls e (.instanceMethodCall e m :: v1) with
    | none => simp [hr] at hrun
    | some q =>
      obtain ⟨r0, u1⟩ := q
      rw [hr] at hrun
      obtain ⟨u2, hu2, hR2⟩ := hsim cls e _ _ r0 u1 hR hr
      rw [hu2]
      exact methodCallLoop_sim idx n _ _ R hsim m (ord.order r0) [] u1 u2 r w1 hR2 hrun
  | instancePropertyFetch e q =>
    rw [resolveType] at hrun ⊢
    simp only [h1, h2, if_false] at hrun ⊢
    cases hr : resolveType idx ord n cls e (.instancePropertyFetch e q :: v1) with
    | none => simp [hr] at hrun
    | some q0 =>
      obtain ⟨r0, u1⟩ := q0
      rw [hr] at hrun
      obtain ⟨u2, hu2, hR2⟩ := hsim cls e _ _ r0 u1 hR hr
      rw [hu2]
      exact propertyFetchLoop_sim idx n _ _ R hsim cls q (ord.order r0) [] u1 u2 r w1 hR2 hrun
  | baseMethodParam index c m =>
    rw [resolveType] at hrun ⊢
    simp only [h1, h2, if_false, solveBaseMethodParam] at hrun ⊢
    cases hc : idx.GetClass c with
    | none =>
      rw [hc] at hrun
      simp only [Option.some.injEq, Prod.mk.injEq] at hrun
      obtain ⟨e1, e2⟩ := hrun
      subst e1 e2
      exact ⟨_, rfl, hR⟩
    | some d =>
      rw [hc] at hrun
      exact baseMethodParamLoop_sim idx _ _ R hsim index m _ _ hR [] d.Interfaces r w1 hrun
  | staticMethodCall c m =>
    rw [resolveType] at hrun ⊢
    simp only [h1, h2, if_false] at hrun ⊢
    cases hf : FindMethod idx n c m with
    | none => simp [hf] at hrun
    | some q =>
      obtain ⟨info, impl, ok⟩ := q
      rw [hf] at hrun
      cases ok with
      | false =>
        simp only [Option.some.injEq, Prod.mk.injEq] at hrun
        obtain ⟨e1, e2⟩ := hrun
        subst e1 e2
        exact ⟨_, rfl, hR⟩
      | true =>
        dsimp only at hrun ⊢
        cases hr : resolveTypes (resolveType idx ord n) c info.Typ
            (.staticMethodCall c m :: v1) with
        | none => simp [hr] at hrun
        | some q2 =>
          obtain ⟨r0, u1⟩ := q2
          rw [hr] at hrun
          simp only [Option.some.injEq, Prod.mk.injEq] at hrun
          obtain ⟨e1, e2⟩ := hrun
          subst e1 e2
          obtain ⟨u2, hu2, hR2⟩ := resolveTypes_sim _ _ R hsim c info.Typ _ _ r0 u1 hR hr
          rw [hu2]
          exact ⟨u2, rfl, hR2⟩
  | staticPropertyFetch c q =>
    rw [resolveType] at hrun ⊢
    simp only [h1, h2, if_false] at hrun ⊢
    cases hf : FindProperty idx q n c with
    | none => simp [hf] at hrun
    | some q0 =>
      obtain ⟨info, impl, ok⟩ := q0
      rw [hf] at hrun
      cases ok with
      | false =>
        simp only [Option.some.injEq, Prod.mk.injEq] at hrun
        obtain ⟨e1, e2⟩ := hrun
        subst e1 e2
        exact ⟨_, rfl, hR⟩
      | true => exact resolveTypes_sim _ _ R hsim cls info.Typ _ _ r w1 hR hrun

theorem elemOf_of_visited (idx : Info) (ord : MapOrder) (fuel : Nat) (cls : String)
    (x : TypeExpr) (v : List TypeExpr) (r : List String) (w : List TypeExpr) (hx : x ∈ v)
    (h : resolveType idx ord fuel cls (.elemOf x) v = some (r, w)) :
    r = [] ∧ (w = v ∨ w = TypeExpr.elemOf x :: v) := by
  cases fuel with
  | zero => simp [resolveType] at h
  | succ n =>
    by_cases hE : TypeExpr.elemOf x ∈ v
    · rw [resolveType_visited idx ord n cls _ v hE] at h
      simp only [Option.some.injEq, Prod.mk.injEq] at h
      exact ⟨h.1.symm, Or.inl h.2.symm⟩
    · rw [resolveType] at h
      simp only [hE, if_false] at h
      cases n with
      | zero => simp [resolveType] at h
      | succ k =>
        rw [resolveType_visited idx ord k cls x _ (List.mem_cons_of_mem _ hx)] at h
        simp only [ord.order_nil, List.foldl_nil, Option.some.injEq, Prod.mk.injEq] at h
        exact ⟨h.1.symm, Or.inr h.2.symm⟩

theorem resolveType_guard_sim (idx : Info) (ord : MapOrder) (x : TypeExpr) (fuel : Nat) :
    ∀ (cls : String) (t : TypeExpr) (v1 v2 : List TypeExpr) (r : List String)
      (w1 : List TypeExpr), SameUpTo x v1 v2 →
      resolveType idx ord fuel cls t v1 = some (r, w1) →
      ∃ w2, resolveType idx ord fuel cls t v2 = some (r, w2) ∧ SameUpTo x w1 w2 := by
  induction fuel with
  | zero => intro cls t v1 v2 r w1 _ h; simp [resolveType] at h
  | succ n ih =>
    intro cls t v1 v2 r w1 hR hrun
    by_cases hv : t ∈ v1
    · rw [resolveType_visited idx ord n cls t v1 hv] at hrun
      simp only [Option.some.injEq, Prod.mk.injEq] at hrun
      obtain ⟨e1, e2⟩ := hrun
      subst e1 e2
      exact ⟨v2, resolveType_visited idx ord n cls t v2 ((hR.2 t).mpr (Or.inl hv)), hR⟩
    · by_cases hE : t = TypeExpr.elemOf x
      · subst hE
        obtain ⟨hr, hw⟩ := elemOf_of_visited idx ord (n + 1) cls x v1 r w1 hR.1 hrun
        subst hr
        refine ⟨v2, resolveType_visited idx ord n cls _ v2
          ((hR.2 _).mpr (Or.inr (Or.inl rfl))), ?_⟩
        rcases hw with hw | hw
        · subst hw; exact hR
        · subst hw
          refine ⟨List.mem_cons_of_mem _ hR.1, fun s => ?_⟩
          rw [hR.2 s, List.mem_cons]
          tauto
      · by_cases hA : t = TypeExpr.arrayOf (.elemOf x)
        · subst hA
          rw [resolveType] at hrun
          simp only [hv, if_false] at hrun
          cases hr : resolveType idx ord n cls (.elemOf x)
              (TypeExpr.arrayOf (.elemOf x) :: v1) with
          | none => simp [hr] at hrun
          | some q =>
            obtain ⟨r0, u1⟩ := q
            rw [hr] at hrun
            obtain ⟨hr0, hu1⟩ := elemOf_of_visited idx ord n cls x _ r0 u1
              (List.mem_cons_of_mem _ hR.1) hr
            subst hr0
            simp only [ord.order_nil, List.foldl_nil, Option.some.injEq, Prod.mk.injEq] at hrun
            obtain ⟨e1, e2⟩ := hrun
            subst e1 e2
            refine ⟨v2, resolveType_visited idx ord n cls _ v2
              ((hR.2 _).mpr (Or.inr (Or.inr rfl))), ?_⟩
            rcases hu1 with hu | hu
            · subst hu
              refine ⟨List.mem_cons_of_mem _ hR.1, fun s => ?_⟩
              rw [hR.2 s, List.mem_cons]
              tauto
            · subst hu
              refine ⟨List.mem_cons_of_mem _ (List.mem_cons_of_mem _ hR.1), fun s => ?_⟩
              rw [hR.2 s, List.mem_cons, List.mem_cons]
              tauto
        · have hv2 : t ∉ v2 := by
            intro h
            rcases (hR.2 t).mp h with h | h | h
            · exact hv h
            · exact hE h
            · exact hA h
          by_cases hl : ∃ nm, t = TypeExpr.literal nm
          · obtain ⟨nm, rfl⟩ := hl
            rw [resolveType_literal_eq idx ord n cls nm v1 hv] at hrun
            simp only [Option.some.injEq, Prod.mk.injEq] at hrun
            obtain ⟨e1, e2⟩ := hrun
            subst e1 e2
            exact ⟨v2, resolveType_literal_eq idx ord n cls nm v2 hv2, hR⟩
          · refine resolveType_step_sim idx ord n (SameUpTo x) ih cls t v1 v2 r w1 hv hv2
              (fun nm h => hl ⟨nm, h⟩) ?_ hrun
            refine ⟨List.mem_cons_of_mem _ hR.1, fun s => ?_⟩
            rw [List.mem_cons, List.mem_cons, hR.2 s]
            tauto

/-! ## `ArrayOf(ElemOf(x))` of a non-array -/

theorem ne_elemOf_self (x : TypeExpr) : x ≠ TypeExpr.elemOf x := by
  intro h
  have := congrArg sizeOf h
  simp at this

theorem ne_arrayOf_elemOf_self (x : TypeExpr) : x ≠ TypeExpr.arrayOf (.elemOf x) := by
  intro h
  have := congrArg sizeOf h
  simp at this
  omega

theorem elemOf_fold_nil (l : List String)
    (h : ∀ n ∈ l, hasSuffix n "[]" = false ∧ n ≠ "mixed") :
    l.foldl (fun res tt =>
      if hasSuffix tt "[]" then insertName res (trimSuffix tt "[]")
      else if tt = "mixed" then insertName res "mixed"
      else res) [] = [] := by
  induction l with
  | nil => rfl
  | cons a as ih =>
    obtain ⟨h1, h2⟩ := h a (List.mem_cons_self _ _)
    rw [List.foldl_cons]
    simp only [h1, h2, Bool.false_eq_true, if_false]
    exact ih (fun n hn => h n (List.mem_cons_of_mem _ hn))

theorem resolveType_under_wrappers (idx : Info) (ord : MapOrder) (fuel : Nat) (cls : String)
    (x : TypeExpr) (r : List String) (w : List TypeExpr)
    (hx : resolveType idx ord fuel cls x [] = some (r, w)) :
    ∃ w2, resolveType idx ord fuel cls x [.elemOf x, .arrayOf (.elemOf x)] = some (r, w2) := by
  cases fuel with
  | zero => simp [resolveType] at hx
  | succ n =>
    have hnot : x ∉ [TypeExpr.elemOf x, TypeExpr.arrayOf (.elemOf x)] := by
      intro h
      simp only [List.mem_cons, List.mem_singleton, List.not_mem_nil, or_false] at h
      rcases h with h | h
      · exact ne_elemOf_self x h
      · exact ne_arrayOf_elemOf_self x h
    by_cases hl : ∃ nm, x = TypeExpr.literal nm
    · obtain ⟨nm, rfl⟩ := hl
      rw [resolveType_literal_eq idx ord n cls nm [] (by simp)] at hx
      simp only [Option.some.injEq, Prod.mk.injEq] at hx
      obtain ⟨e1, -⟩ := hx
      subst e1
      exact ⟨_, resolveType_literal_eq idx ord n cls nm _ hnot⟩
    · obtain ⟨w2, h2, -⟩ := resolveType_step_sim idx ord n (SameUpTo x)
        (resolveType_guard_sim idx ord x n) cls x [] _ r w (by simp) hnot
        (fun nm h => hl ⟨nm, h⟩)
        ⟨List.mem_cons_self _ _, fun s => by
          simp only [List.mem_cons, List.mem_singleton, List.not_mem_nil, or_false]⟩ hx
      exact ⟨w2, h2⟩

/-- C11 (as amended): resolving `ArrayOf(ElemOf(x))` with an empty guard yields the
empty set whenever the resolution of `x` made inside that call, under the guard that
by then holds `ArrayOf(ElemOf(x))` and `ElemOf(x)`, yields a set none of whose names
ends in `[]` and none of whose names is `mixed`; this holds for every index, visiting
order and context class. -/
theorem resolveType_arrayOf_elemOf_nonarray (idx : Info) (ord : MapOrder) (fuel : Nat)
    (cls : String) (x : TypeExpr) (r : List String) (w : List TypeExpr)
    (hx : resolveType idx ord fuel cls x [.elemOf x, .arrayOf (.elemOf x)] = some (r, w))
    (hr : ∀ n ∈ r, hasSuffix n "[]" = false ∧ n ≠ "mixed") :
    resolveType idx ord (fuel + 2) cls (.arrayOf (.elemOf x)) [] = some ([], w) := by
  have hE : resolveType idx ord (fuel + 1) cls (.elemOf x) [.arrayOf (.elemOf x)]
      = some ([], w) := by
    rw [resolveType]
    have : TypeExpr.elemOf x ∉ [TypeExpr.arrayOf (.elemOf x)] := by simp
    simp only [this, if_false, hx]
    rw [elemOf_fold_nil (ord.order r) (fun n hn => hr n ((ord.mem_order r n).mp hn))]
  rw [resolveType]
  simp only [List.not_mem_nil, if_false, hE, ord.order_nil, List.foldl_nil]

theorem resolveType_arrayOf_elemOf_nonarray_witness :
    resolveType callOrderIndex MapOrder.insertion (4 + 2) ""
        (.arrayOf (.elemOf (.instanceMethodCall (.global "h") "m"))) []
      = some ([], [.arrayOf (.global "g"), .global "g", .global "h",
          .instanceMethodCall (.global "h") "m",
          .elemOf (.instanceMethodCall (.global "h") "m"),
          .arrayOf (.elemOf (.instanceMethodCall (.global "h") "m"))]) :=
  resolveType_arrayOf_elemOf_nonarray callOrderIndex MapOrder.insertion 4 ""
    (.instanceMethodCall (.global "h") "m") ["X"]
    [.arrayOf (.global "g"), .global "g", .global "h", .instanceMethodCall (.global "h") "m",
      .elemOf (.instanceMethodCall (.global "h") "m"),
      .arrayOf (.elemOf (.instanceMethodCall (.global "h") "m"))] (by decide) (by
      intro n hn
      simp only [List.mem_singleton] at hn
      subst hn
      exact ⟨by decide, by decide⟩)

/-- C11 (the claim as stated fails): `Literal mixed` resolves to `{mixed}`, which holds
no name ending in `[]`, yet `ArrayOf(ElemOf(Literal mixed))` resolves to `{mixed[]}`:
the element lookup keeps `mixed`.  And a separate resolution of `x` says nothing when
sets are visited in another order: in `callOrderIndex` the call `$h->m()` resolves to
`{X}` when the classes of `$h` are visited as `A, B`, and `ArrayOf(ElemOf(...))` of it
to `{X[]}` when they are visited as `B, A`. -/
theorem resolveType_arrayOf_elemOf_counterexample :
    resolveType default MapOrder.insertion 1 "" (.literal "mixed") [] = some (["mixed"], []) ∧
    (∀ n ∈ ["mixed"], hasSuffix n "[]" = false) ∧
    resolveType default MapOrder.insertion 3 "" (.arrayOf (.elemOf (.literal "mixed"))) []
      = some (["mixed[]"],
          [.elemOf (.literal "mixed"), .arrayOf (.elemOf (.literal "mixed"))]) ∧
    (resolveType callOrderIndex MapOrder.insertion 4 ""
      (.instanceMethodCall (.global "h") "m") []).map Prod.fst = some ["X"] ∧
    (resolveType callOrderIndex (MapOrder.swapped "A" "B") 6 ""
      (.arrayOf (.elemOf (.instanceMethodCall (.global "h") "m"))) []).map Prod.fst
      = some ["X[]"] :=
  ⟨by decide, by decide, by decide, by decide, by decide⟩

/-! ## The variable-occurrence classifier on assignments -/

theorem peek_push (s : VariableContextStack) (parent : Node) (key : String) (isWrite : Bool) :
    VariableContextStack.Peek (s.Push parent key isWrite) = ⟨some parent, key, isWrite⟩ := by
  simp [VariableContextStack.Peek, VariableContextStack.Push]

theorem pop_push (s : VariableContextStack) (parent : Node) (key : String) (isWrite : Bool) :
    VariableContextStack.Pop (s.Push parent key isWrite) = s := by
  simp [VariableContextStack.Pop, VariableContextStack.Push]

theorem walk_plainVar (vw : VariableWalker) (name : String) :
    walk true (plainVar name) vw =
      some (if (VariableContextStack.Peek vw.varStack).isWrite then vw.addWrite name
        else vw.addRead name) := by
  simp only [plainVar, walk, walkChild, VariableWalker.EnterNode,
    VariableWalker.EnterChildNode, VariableWalker.LeaveChildNode, peek_push]
  by_cases h : (VariableContextStack.Peek vw.varStack).isWrite = true
  · simp [h, VariableWalker.addWrite, peek_push, pop_push]
  · simp [h, VariableWalker.addRead, peek_push, pop_push]

theorem walkChild_some (key : String) (parent : Node)
    (walkC : VariableWalker → Option VariableWalker) (vw vw1 vw2 : VariableWalker)
    (h1 : vw.EnterChildNode key parent = some vw1) (h2 : walkC vw1 = some vw2) :
    walkChild key parent walkC vw = some (vw2.LeaveChildNode key parent) := by
  simp [walkChild, h1, h2]

theorem leaveChildNode_push (s : VariableContextStack) (r w : List String)
    (parent : Node) (key : String) (isWrite : Bool) :
    VariableWalker.LeaveChildNode ⟨r, w, s.Push parent key isWrite⟩ key parent = ⟨r, w, s⟩ := by
  simp [VariableWalker.LeaveChildNode, peek_push, pop_push]

/-- C15: with indexing complete, walking `$a[$b] = $c;` from a new walker records the
base variable of the array-dimension fetch as a write and the variables in the index
position and on the right-hand side as reads, for all variable names; for the names
`a`, `b`, `c` the lists are `Reads() = [b, c]` and `Writes() = [a]`. -/
theorem classify_array_assign :
    (∀ a b c : String,
      classify true (.unary "stmt.Expression" "Expr"
        (.assign (.arrayDimFetch (plainVar a) (plainVar b)) (plainVar c)))
        = some (sortStrings (insertName [b] c), [a])) ∧
    classify true arrayAssignStmt = some (["b", "c"], ["a"]) := by
  refine ⟨fun a b c => ?_, by decide⟩
  simp [classify, walk, walkChild, walk_plainVar, VariableWalker.EnterNode,
    VariableWalker.EnterChildNode, VariableWalker.LeaveChildNode, peek_push, pop_push,
    VariableWalker.addRead, VariableWalker.addWrite, VariableWalker.Reads,
    VariableWalker.Writes, insertName_nil, sortStrings]
  simp [VariableContextStack.Peek, VariableContextStack.Push, VariableContextStack.Pop]

/-- C16: with indexing complete, the inner name of a variable-variable is recorded as
a read whatever the walker's state, so also under an assignment target: walking
`$$a` adds `a` to the reads and leaves writes and stack as they were; walking
`$$a = $b;` from a new walker records both names as reads and no write, and for the
names `a`, `b` gives `Reads() = [a, b]` and `Writes() = []`. -/
theorem classify_variable_variable :
    (∀ (vw : VariableWalker) (a : String),
      walk true (.exprVariable (plainVar a)) vw = some (vw.addRead a)) ∧
    (∀ a b : String,
      classify true (.unary "stmt.Expression" "Expr"
        (.assign (.exprVariable (plainVar a)) (plainVar b)))
        = some (sortStrings (insertName [a] b), [])) ∧
    classify true varVarAssignStmt = some (["a", "b"], []) := by
  have h1 : ∀ (vw : VariableWalker) (a : String),
      walk true (.exprVariable (plainVar a)) vw = some (vw.addRead a) := by
    intro vw a
    have e : vw.EnterChildNode "VarName" (.exprVariable (plainVar a))
        = some { vw with varStack :=
            vw.varStack.Push (.exprVariable (plainVar a)) "VarName" false } := by
      simp [VariableWalker.EnterChildNode, plainVar]
    rw [walk]
    simp only [VariableWalker.EnterNode, Bool.not_true, Bool.false_eq_true, if_false, if_true]
    rw [walkChild_some _ _ _ _ _ _ e (walk_plainVar _ a)]
    simp [peek_push, VariableWalker.addRead, leaveChildNode_push]
  refine ⟨h1, fun a b => ?_, by decide⟩
  have e1 : ∀ vw : VariableWalker,
      vw.EnterChildNode "Variable" (.assign (.exprVariable (plainVar a)) (plainVar b))
        = some { vw with varStack := (vw.varStack.Push
            (.assign (.exprVariable (plainVar a)) (plainVar b)) "Variable" true) } := by
    intro vw
    simp [VariableWalker.EnterChildNode]
  have e2 : ∀ vw : VariableWalker,
      vw.EnterChildNode "Expression" (.assign (.exprVariable (plainVar a)) (plainVar b))
        = some { vw with varStack := (vw.varStack.Push
            (.assign (.exprVariable (plainVar a)) (plainVar b)) "Expression" false) } := by
    intro vw
    simp [VariableWalker.EnterChildNode]
  have hassign : walk true (.assign (.exprVariable (plainVar a)) (plainVar b)) ⟨[], [], []⟩
      = some ⟨insertName [a] b, [], []⟩ := by
    rw [walk]
    simp only [VariableWalker.EnterNode, Bool.not_true, Bool.false_eq_true, if_false, if_true]
    rw [walkChild_some _ _ _ _ _ _ (e1 _) (h1 _ a)]
    simp only [VariableWalker.addRead, leaveChildNode_push]
    rw [walkChild_some _ _ _ _ _ _ (e2 _) (walk_plainVar _ b)]
    simp [peek_push, VariableWalker.addRead, leaveChildNode_push, insertName_nil]
  have e3 : ∀ (vw : VariableWalker) (n : Node),
      vw.EnterChildNode "Expr" (.unary "stmt.Expression" "Expr" n) = some vw := by
    intro vw n
    simp [VariableWalker.EnterChildNode]
  unfold classify
  rw [walk]
  simp only [VariableWalker.EnterNode, Bool.not_true, Bool.false_eq_true, if_false, if_true]
  rw [walkChild_some _ _ _ _ _ _ (e3 _ _) hassign]
  simp [VariableWalker.LeaveChildNode, VariableContextStack.Peek, VariableWalker.Reads,
    VariableWalker.Writes, sortStrings]

/-- C17: with indexing complete, an identifier in the property-name position of a
property fetch is recorded neither as a read nor as a write, whatever the walker's
state; walking `$obj->prop = $x;` from a new walker records the receiver as a write
and the right-hand side as a read, `Reads() = [x]` and `Writes() = [obj]`, for all
names. -/
theorem classify_property_assign :
    (∀ (vw : VariableWalker) (receiver : Node) (prop : String),
      walkChild "Property" (.propertyFetch receiver (.identifier prop))
        (walk true (.identifier prop)) vw = some vw) ∧
    (∀ obj prop x : String,
      classify true (.unary "stmt.Expression" "Expr"
        (.assign (.propertyFetch (plainVar obj) (.identifier prop)) (plainVar x)))
        = some ([x], [obj])) ∧
    classify true propertyAssignStmt = some (["x"], ["obj"]) := by
  have h1 : ∀ (vw : VariableWalker) (receiver : Node) (prop : String),
      walkChild "Property" (.propertyFetch receiver (.identifier prop))
        (walk true (.identifier prop)) vw = some vw := by
    intro vw receiver prop
    simp [walkChild, walk, VariableWalker.EnterNode, VariableWalker.EnterChildNode,
      VariableWalker.LeaveChildNode, peek_push, pop_push]
  refine ⟨h1, fun obj prop x => ?_, by decide⟩
  simp [classify, walk, walkChild, walk_plainVar, VariableWalker.EnterNode,
    VariableWalker.EnterChildNode, VariableWalker.LeaveChildNode, peek_push, pop_push,
    VariableWalker.addRead, VariableWalker.addWrite, VariableWalker.Reads,
    VariableWalker.Writes, insertName_nil, sortStrings]

/-- C18 (the code misses compound assignments): with indexing complete, walking an
assignment-like node of another kind than `assign.Assign`, such as `$a += $b;`, from a
new walker records the left-hand side variable as a read and no write, while the plain
assignment `$a = $b;` records `a` as a write. -/
theorem classify_compound_assign :
    (∀ kind a b : String,
      classify true (.unary "stmt.Expression" "Expr"
        (.binary kind "Variable" (plainVar a) "Expression" (plainVar b)))
        = some (sortStrings (insertName [a] b), [])) ∧
    classify true plusAssignStmt = some (["a", "b"], []) ∧
    classify true (.unary "stmt.Expression" "Expr" (.assign (plainVar "a") (plainVar "b")))
      = some (["b"], ["a"]) := by
  refine ⟨fun kind a b => ?_, by decide, by decide⟩
  simp [classify, walk, walkChild, walk_plainVar, VariableWalker.EnterNode,
    VariableWalker.EnterChildNode, VariableWalker.LeaveChildNode, peek_push, pop_push,
    VariableWalker.addRead, VariableWalker.addWrite, VariableWalker.Reads,
    VariableWalker.Writes, insertName_nil, sortStrings]
  simp [VariableContextStack.Peek, VariableContextStack.Push, VariableContextStack.Pop]

/-! ## The `empty_array` rule on the threaded union -/

theorem mem_foldl_addAll (rs : List (List String)) :
    ∀ (res : List String) (x : String),
      x ∈ rs.foldl addAll res ↔ x ∈ res ∨ ∃ r0 ∈ rs, x ∈ r0 := by
  induction rs with
  | nil => intro res x; simp
  | cons r rs ih =>
    intro res x
    rw [List.foldl_cons, ih, mem_addAll]
    simp only [List.mem_cons, exists_eq_or_imp]
    tauto

/-- C5 (as amended): `resolveTypes` visits the members of the Type Set one after the
other, each under the guard its predecessors left.  With `U` the union of these
member results, the call returns exactly when every member resolution returns, and
then the returned set never contains `empty_array`: it is `U` when `empty_array` is
not in `U`, `U` without `empty_array` when another name of `U` ends in `[]`, and
otherwise `U` without `empty_array` plus `array`.  In particular `{empty_array}`
resolves to `{array}` and `{empty_array, Foo[]}`, in either order, to `{Foo[]}`.  On an
index with acyclic parent chains the call returns for every Type Set, context class
and guard. -/
theorem resolveTypes_empty_array_rule :
    (∀ (idx : Info) (ord : MapOrder) (fuel : Nat) (cls : String) (m : TypesMap)
      (visited : List TypeExpr) (rs : List (List String)) (v : List TypeExpr),
      Threaded (resolveType idx ord fuel) cls m visited rs v →
      ∃ r, resolveTypes (resolveType idx ord fuel) cls m visited = some (r, v) ∧
        (∀ x, x ∈ rs.foldl addAll [] ↔ ∃ r0 ∈ rs, x ∈ r0) ∧
        "empty_array" ∉ r ∧
        ("empty_array" ∉ rs.foldl addAll [] → r = rs.foldl addAll []) ∧
        ("empty_array" ∈ rs.foldl addAll [] →
          (∃ x ∈ rs.foldl addAll [], x ≠ "empty_array" ∧ hasSuffix x "[]" = true) →
          r = (rs.foldl addAll []).filter (fun tt => tt ≠ "empty_array")) ∧
        ("empty_array" ∈ rs.foldl addAll [] →
          (¬ ∃ x ∈ rs.foldl addAll [], x ≠ "empty_array" ∧ hasSuffix x "[]" = true) →
          ∀ x, x ∈ r ↔ (x ∈ rs.foldl addAll [] ∧ x ≠ "empty_array") ∨ x = "array")) ∧
    (∀ (idx : Info) (ord : MapOrder) (fuel : Nat) (cls : String) (m : TypesMap)
      (visited : List TypeExpr) (r : List String) (v : List TypeExpr),
      resolveTypes (resolveType idx ord fuel) cls m visited = some (r, v) →
      ∃ rs, Threaded (resolveType idx ord fuel) cls m visited rs v) ∧
    (∀ (idx : Info) (ord : MapOrder) (fuel : Nat) (cls : String) (visited : List TypeExpr),
      TypeExpr.literal "empty_array" ∉ visited → TypeExpr.literal "Foo[]" ∉ visited →
      resolveTypes (resolveType idx ord (fuel + 1)) cls [.literal "empty_array"] visited
        = some (["array"], visited) ∧
      resolveTypes (resolveType idx ord (fuel + 1)) cls
        [.literal "empty_array", .literal "Foo[]"] visited = some (["Foo[]"], visited) ∧
      resolveTypes (resolveType idx ord (fuel + 1)) cls
        [.literal "Foo[]", .literal "empty_array"] visited = some (["Foo[]"], visited)) ∧
    (∀ (idx : Info) (ord : MapOrder) (cls : String) (m : TypesMap) (visited : List TypeExpr),
      AcyclicParents idx → ∃ fuel0, ∀ fuel, fuel0 ≤ fuel →
        ∃ r w, resolveTypes (resolveType idx ord fuel) cls m visited = some (r, w)) := by
  refine ⟨?_, ?_, ?_, ?_⟩
  · intro idx ord fuel cls m visited rs v hth
    have hit := (iterateTypes_iff_threaded (resolveType idx ord fuel) cls m [] visited
      (rs.foldl addAll []) v).mpr ⟨rs, hth, rfl⟩
    refine ⟨degradeEmptyArray (rs.foldl addAll []), by simp [resolveTypes, hit], ?_,
      not_mem_degradeEmptyArray _, degradeEmptyArray_of_not_mem _,
      degradeEmptyArray_specialized _, fun h1 h2 x => degradeEmptyArray_generic _ h1 h2 x⟩
    intro x
    rw [mem_foldl_addAll]
    simp
  · intro idx ord fuel cls m visited r v h
    unfold resolveTypes at h
    cases hit : iterateTypes (resolveType idx ord fuel) cls m [] visited with
    | none => simp [hit] at h
    | some q =>
      obtain ⟨U, w⟩ := q
      rw [hit] at h
      simp only [Option.some.injEq, Prod.mk.injEq] at h
      obtain ⟨-, h2⟩ := h
      subst h2
      obtain ⟨rs, hth, -⟩ := (iterateTypes_iff_threaded _ _ _ _ _ _ _).mp hit
      exact ⟨rs, hth⟩
  · intro idx ord fuel cls visited h1 h2
    have e1 := resolveType_literal_eq idx ord fuel cls "empty_array" visited h1
    have e2 := resolveType_literal_eq idx ord fuel cls "Foo[]" visited h2
    have d1 : degradeEmptyArray ["empty_array"] = ["array"] := by decide
    have d2 : degradeEmptyArray ["empty_array", "Foo[]"] = ["Foo[]"] := by decide
    have d3 : degradeEmptyArray ["Foo[]", "empty_array"] = ["Foo[]"] := by decide
    have a1 : addAll [] ["empty_array"] = ["empty_array"] := by decide
    have a2 : addAll ["empty_array"] ["Foo[]"] = ["empty_array", "Foo[]"] := by decide
    have a3 : addAll [] ["Foo[]"] = ["Foo[]"] := by decide
    have a4 : addAll ["Foo[]"] ["empty_array"] = ["Foo[]", "empty_array"] := by decide
    refine ⟨?_, ?_, ?_⟩
    · simp only [resolveTypes, iterateTypes, e1, a1, d1]
    · simp only [resolveTypes, iterateTypes, e1, e2, a1, a2, d2]
    · simp only [resolveTypes, iterateTypes, e1, e2, a3, a4, d3]
  · intro idx ord cls m visited hac
    obtain ⟨K, hM, hF⟩ := resolver_bound idx hac
    refine ⟨K + unvisited (idx.universe m) visited + 1, fun fuel hf => ?_⟩
    obtain ⟨r, w, h, -⟩ := resolveTypes_returns (resolveType idx ord fuel) (idx.universe m)
      (fun w => K + unvisited (idx.universe m) w < fuel)
      (fun v w hs hm => by
        have := unvisited_le_of_subset (idx.universe m) v w hs
        omega)
      (fun cls t w ht hw => resolveType_returns idx ord (idx.universe m)
        (universe_closed idx m) K hM hF fuel cls t w ht hw)
      cls m (fun t ht => mem_universe_of_root idx m t ht) visited (by omega)
    exact ⟨r, w, h⟩

theorem resolveTypes_empty_array_rule_witness :
    (∃ r, resolveTypes (resolveType orderIndex MapOrder.insertion 3) ""
        [.global "g", .arrayOf (.global "g"), .literal "empty_array"] []
        = some (r, [.arrayOf (.global "g"), .global "g"]) ∧
      (∀ x, x ∈ [["X"], [], ["empty_array"]].foldl addAll [] ↔
        ∃ r0 ∈ [["X"], [], ["empty_array"]], x ∈ r0) ∧
      "empty_array" ∉ r ∧
      ("empty_array" ∉ [["X"], [], ["empty_array"]].foldl addAll [] →
        r = [["X"], [], ["empty_array"]].foldl addAll []) ∧
      ("empty_array" ∈ [["X"], [], ["empty_array"]].foldl addAll [] →
        (∃ x ∈ [["X"], [], ["empty_array"]].foldl addAll [],
          x ≠ "empty_array" ∧ hasSuffix x "[]" = true) →
        r = ([["X"], [], ["empty_array"]].foldl addAll []).filter
          (fun tt => tt ≠ "empty_array")) ∧
      ("empty_array" ∈ [["X"], [], ["empty_array"]].foldl addAll [] →
        (¬ ∃ x ∈ [["X"], [], ["empty_array"]].foldl addAll [],
          x ≠ "empty_array" ∧ hasSuffix x "[]" = true) →
        ∀ x, x ∈ r ↔
          (x ∈ [["X"], [], ["empty_array"]].foldl addAll [] ∧ x ≠ "empty_array") ∨
            x = "array")) ∧
    resolveTypes (resolveType default MapOrder.insertion (0 + 1)) "" [.literal "empty_array"] []
      = some (["array"], []) ∧
    (∃ fuel0, ∀ fuel, fuel0 ≤ fuel → ∃ r w,
      resolveTypes (resolveType selfGlobalIndex MapOrder.insertion fuel) ""
        [.literal "empty_array", .global "g"] [] = some (r, w)) :=
  ⟨resolveTypes_empty_array_rule.1 orderIndex MapOrder.insertion 3 ""
      [.global "g", .arrayOf (.global "g"), .literal "empty_array"] []
      [["X"], [], ["empty_array"]] [.arrayOf (.global "g"), .global "g"]
      (Threaded.cons _ _ [] [.global "g"] _ ["X"] _ (by decide)
        (Threaded.cons _ _ _ [.arrayOf (.global "g"), .global "g"] _ [] _ (by decide)
          (Threaded.cons _ _ _ [.arrayOf (.global "g"), .global "g"] _ ["empty_array"] _
            (by decide) (Threaded.nil _)))),
    (resolveTypes_empty_array_rule.2.2.1 default MapOrder.insertion 0 "" [] (by decide)
      (by decide)).1,
    resolveTypes_empty_array_rule.2.2.2 selfGlobalIndex MapOrder.insertion ""
      [.literal "empty_array", .global "g"] [] (acyclicParents_of_no_classes selfGlobalIndex rfl)⟩

/-- C5 (the claim as stated fails): with `global $g` of type `X` and the empty guard,
`GlobalVarRef g` alone resolves to `{X}`, `ArrayOf(GlobalVarRef g)` alone to `{X[]}`
and `empty_array` to itself, so the union of the member results holds `empty_array`
and the array name `X[]`; yet the Type Set of the three resolves to `{X, array}`, not
to `{X, X[]}`: the second member meets `GlobalVarRef g` in the shared guard. -/
theorem resolveTypes_union_counterexample :
    resolveType orderIndex MapOrder.insertion 3 "" (.global "g") []
      = some (["X"], [.global "g"]) ∧
    resolveType orderIndex MapOrder.insertion 3 "" (.arrayOf (.global "g")) []
      = some (["X[]"], [.global "g", .arrayOf (.global "g")]) ∧
    resolveType orderIndex MapOrder.insertion 3 "" (.literal "empty_array") []
      = some (["empty_array"], []) ∧
    hasSuffix "X[]" "[]" = true ∧
    resolveTypes (resolveType orderIndex MapOrder.insertion 3) ""
      [.global "g", .arrayOf (.global "g"), .literal "empty_array"] []
      = some (["X", "array"], [.arrayOf (.global "g"), .global "g"]) :=
  ⟨by decide, by decide, by decide, by decide, by decide⟩

end Noverify
